import Mathlib

/-!
# apir-code: a verification development

Shallow embedding of the cryptographic core of the repository:

* `lib/matrix/matrix.go`   -- dense `uint32` matrices, the C `multiply` kernel and the wire codec;
* `lib/server/lwe.go`      -- the LWE server answer;
* `cmd/benchmark/answer.go` -- the information-theoretic VPIR answer engine;
* `lib/dpf/client.go`      -- key generation of the distributed point function.

Conventions.  A Go slice is a `List`.  A `uint32` word and a byte are natural numbers, and every
operation that can wrap is written with an explicit `% 2^32` (`u32`) or `% 256`.  Sizes and
indices of Go (`int`) are natural numbers: negative sizes and sizes beyond the machine word are
outside the model.  The sizes and indices of the C kernel are 32-bit signed integers (`cint`).
A Go run-time panic is the `Except.error` result of the function.
-/

namespace Apir

/-- The ways a modelled function can abort: an explicit `panic("dimension mismatch")`, an index or
slice bound outside the slice, an integer division by zero, and a loop of the source that does not
terminate (the model's loop bound is reached). -/
inductive Panic where
  | dimensionMismatch
  | indexOutOfRange
  | divideByZero
  | outOfFuel
deriving DecidableEq, Repr

instance {ε α : Type} [DecidableEq ε] [DecidableEq α] : DecidableEq (Except ε α)
  | .ok a, .ok b =>
    if h : a = b then isTrue (by rw [h]) else isFalse (fun h' => h (Except.ok.inj h'))
  | .error a, .error b =>
    if h : a = b then isTrue (by rw [h]) else isFalse (fun h' => h (Except.error.inj h'))
  | .ok _, .error _ => isFalse (fun h => Except.noConfusion h)
  | .error _, .ok _ => isFalse (fun h => Except.noConfusion h)

/-- Reduction of a natural number to a `uint32` word. -/
def u32 (n : Nat) : Nat := n % 4294967296

/-- Go's `copy(dst[off:], src)`: overwrites `min(len(dst) - off, len(src))` cells from `off`. -/
def copyAt {α : Type} (dst : List α) (off : Nat) (src : List α) : List α :=
  dst.take off ++ src.take (dst.length - off) ++ dst.drop (off + src.length)

/-- The slice expression `s[lo:hi]`, which panics unless `lo <= hi <= len(s)` (the model takes the
capacity of a slice to be its length). -/
def slice {α : Type} (s : List α) (lo hi : Nat) : Except Panic (List α) :=
  if lo ≤ hi ∧ hi ≤ s.length then .ok ((s.drop lo).take (hi - lo)) else .error .indexOutOfRange

/-! ## lib/matrix/matrix.go -/

namespace matrix

/-- The `Matrix` struct: `rows`, `cols` and the row-major `data` words. -/
structure Matrix where
  rows : Nat
  cols : Nat
  data : List Nat
deriving DecidableEq, Repr

/-- A matrix is well formed when it holds `rows * cols` words, each a `uint32`. -/
def Matrix.WellFormed (m : Matrix) : Prop :=
  m.data.length = m.rows * m.cols ∧ ∀ w ∈ m.data, w < 4294967296

instance (m : Matrix) : Decidable m.WellFormed := by
  unfold Matrix.WellFormed; exact inferInstance

/-- `New(r, c)`: the zero matrix, `make([]uint32, r*c)`. -/
def New (r c : Nat) : Matrix :=
  { rows := r, cols := c, data := List.replicate (r * c) 0 }

/-- `NewWithData(r, c, data)`. -/
def NewWithData (r c : Nat) (data : List Nat) : Matrix :=
  { rows := r, cols := c, data := data }

/-- The conversion `C.int(x)` of a Go `int`: the low 32 bits of `x`, read as a signed integer. -/
def cint (x : Int) : Int :=
  (x + 2147483648) % 4294967296 - 2147483648

/-- The read `p[x]` of the C kernel at an `int` index.  An access outside the buffer is undefined
behaviour in C; the model reads `0` there. -/
def cget (p : List Nat) (x : Int) : Nat :=
  if 0 ≤ x then p.getD x.toNat 0 else 0

/-- The write `p[x] = v` of the C kernel at an `int` index.  An access outside the buffer is
undefined behaviour in C; the model drops the write. -/
def cset (p : List Nat) (x : Int) (v : Nat) : List Nat :=
  if 0 ≤ x then p.set x.toNat v else p

/-- The C kernel `multiply`: the `(i, k, j)` loop nest with
`out[bCols*i+j] += a[aCols*i+k] * b[bCols*k+j]` in `uint32_t` arithmetic.  The sizes and the loop
counters are C `int`s: a loop whose bound is zero or negative does not run, and an index is
computed in 32-bit signed arithmetic.  Signed overflow is undefined behaviour in C; the model
wraps the index to 32 bits. -/
def multiply (aRows aCols bCols : Int) (a b out : List Nat) : List Nat :=
  (List.range aRows.toNat).foldl (fun out (i : Nat) =>
    (List.range aCols.toNat).foldl (fun out (k : Nat) =>
      (List.range bCols.toNat).foldl (fun out (j : Nat) =>
        cset out (cint (bCols * i + j))
          (u32 (cget out (cint (bCols * i + j))
            + u32 (cget a (cint (aCols * i + k)) * cget b (cint (bCols * k + j))))))
        out) out) out

/-- `Mul(a, b)`: panics on `a.cols != b.rows`; `&a.data[0]`, `&b.data[0]` and `&out.data[0]` panic
on an empty slice; otherwise the C kernel, called with `C.int(a.rows)`, `C.int(a.cols)` and
`C.int(b.cols)`, fills the fresh `a.rows x b.cols` matrix. -/
def Mul (a b : Matrix) : Except Panic Matrix :=
  if a.cols ≠ b.rows then .error .dimensionMismatch
  else
    let out := New a.rows b.cols
    if a.data = [] ∨ b.data = [] ∨ out.data = [] then .error .indexOutOfRange
    else .ok { out with
      data := multiply (cint a.rows) (cint a.cols) (cint b.cols) a.data b.data out.data }

/-- `binary.BigEndian.PutUint32`: the four bytes of a `uint32`, most significant first. -/
def PutUint32BE (v : Nat) : List Nat :=
  [v / 16777216 % 256, v / 65536 % 256, v / 256 % 256, v % 256]

/-- `binary.BigEndian.Uint32` on the first four bytes of a slice. -/
def Uint32BE (b : List Nat) : Nat :=
  b.getD 0 0 * 16777216 + b.getD 1 0 * 65536 + b.getD 2 0 * 256 + b.getD 3 0

/-- Modelled from the spec: `utils.Uint32SliceToByteSlice` is not among the sources; the wire
format is "data as little-endian u32 words", four bytes a word, least significant first. -/
def Uint32SliceToByteSlice : List Nat → List Nat
  | [] => []
  | w :: ws => w % 256 :: w / 256 % 256 :: w / 65536 % 256 :: w / 16777216 % 256
      :: Uint32SliceToByteSlice ws

/-- Modelled from the spec: `utils.ByteSliceToUint32Slice` is not among the sources; it reads the
little-endian words back, four bytes a word (a trailing group of fewer than four bytes holds no
word). -/
def ByteSliceToUint32Slice : List Nat → List Nat
  | b0 :: b1 :: b2 :: b3 :: rest =>
      (b0 + b1 * 256 + b2 * 65536 + b3 * 16777216) :: ByteSliceToUint32Slice rest
  | _ => []

/-- `MatrixToBytes`: `uint32(rows)` and `uint32(cols)` big-endian, then the data bytes. -/
def MatrixToBytes (m : Matrix) : List Nat :=
  PutUint32BE (u32 m.rows) ++ PutUint32BE (u32 m.cols) ++ Uint32SliceToByteSlice m.data

/-- `BytesToMatrix`: `in[:4]`, `in[4:8]` and `in[8:]`; the slice expressions panic on an input of
fewer than eight bytes (the model takes the capacity of a slice to be its length). -/
def BytesToMatrix (inp : List Nat) : Except Panic Matrix :=
  if inp.length < 8 then .error .indexOutOfRange
  else .ok { rows := Uint32BE (inp.take 4),
             cols := Uint32BE ((inp.drop 4).take 4),
             data := ByteSliceToUint32Slice (inp.drop 8) }

/-- The shape check of `MatricesToBytes`: the first index whose shape differs from `in[0]`
panics. -/
def sameShape (first : Matrix) (ms : List Matrix) : Bool :=
  ms.all (fun m => first.rows == m.rows && first.cols == m.cols)

/-- `MatricesToBytes`: the shape check, then the length of `MatrixToBytes(in[0])` as a big-endian
`uint32` and each encoding copied to its offset of the zeroed output. `in[0]` on an empty list
panics. -/
def MatricesToBytes (ms : List Matrix) : Except Panic (List Nat) :=
  match ms with
  | [] => .error .indexOutOfRange
  | first :: _ =>
    if sameShape first ms = false then .error .dimensionMismatch
    else
      let b := MatrixToBytes first
      let out := List.replicate (4 + b.length * ms.length) 0
      let out := copyAt out 0 (PutUint32BE (u32 b.length))
      let out := copyAt out 4 b
      .ok ((List.range (ms.length - 1)).foldl (fun out i =>
        copyAt out (4 + b.length * (i + 1)) (MatrixToBytes (ms.getD (i + 1) first))) out)

end matrix

/-! ## lib/server/lwe.go -/

namespace server

/-- `LWE.Answer`: `matrix.Mul(q, s.db.Matrix)`, the query on the left of the database matrix. -/
def LWE.Answer (db q : matrix.Matrix) : Except Panic matrix.Matrix :=
  matrix.Mul q db

end server

/-! ## cmd/benchmark/answer.go

The field package is not among the sources: a field element is an element of a type `F` with the
operations of a commutative ring and a decidable zero test, which `F_p` is. -/

namespace benchmark

/-- The fields of `database.DB` the answer engine reads. -/
structure DB (F : Type) where
  Entries : List F
  NumRows : Nat
  NumColumns : Nat
  BlockSize : Nat

/-- The layout invariant: the storage holds `NumRows * NumColumns * BlockSize` elements. -/
def DB.Layout {F : Type} (db : DB F) : Prop :=
  db.Entries.length = db.NumRows * db.NumColumns * db.BlockSize

instance {F : Type} (db : DB F) : Decidable db.Layout := by
  unfold DB.Layout; exact inferInstance

variable {F : Type} [CommRing F] [DecidableEq F]

/-- The body of the inner loop of `multiplyAndTag` for block `j` and position `b`: a zero element
is skipped; otherwise `element * q[j*(blockLen+1)]` is added to `sum[b]` and
`element * q[j*(blockLen+1)+1+b]` to `sumTag`. An index outside `elements` or `q` panics. -/
def tagStep (elements : List F) (blockLen : Nat) (q : List F) (j : Nat) (acc : List F × F)
    (b : Nat) : Except Panic (List F × F) :=
  match elements[j * blockLen + b]? with
  | none => .error .indexOutOfRange
  | some e =>
    if e = 0 then .ok acc
    else
      match q[j * (blockLen + 1)]?, q[j * (blockLen + 1) + 1 + b]? with
      | some qa, some qt => .ok (acc.1.set b (acc.1.getD b 0 + e * qa), acc.2 + e * qt)
      | _, _ => .error .indexOutOfRange

/-- `multiplyAndTag`: the loop over the blocks `j < len(elements)/blockLen` and the positions
`b < blockLen`, from `sum = ZeroVector(blockLen)` and `sumTag = 0`; the result is
`append(sum, sumTag)`. `len(elements)/blockLen` panics on `blockLen = 0`. -/
def multiplyAndTag (elements : List F) (blockLen : Nat) (q : List F) : Except Panic (List F) :=
  if blockLen = 0 then .error .divideByZero
  else
    match (List.range (elements.length / blockLen)).foldlM (fun acc j =>
      (List.range blockLen).foldlM (tagStep elements blockLen q j) acc)
      (List.replicate blockLen (0 : F), (0 : F)) with
    | .error e => .error e
    | .ok acc => .ok (acc.1 ++ [acc.2])

/-- `computeChunkIndices`: the step clamped to the end of the range, and the two bounds. -/
def computeChunkIndices (ind step max multiplier : Nat) : Nat × Nat × Nat :=
  let step := if ind + step > max then max - ind else step
  (step, ind * multiplier, (ind + step) * multiplier)

/-- `divideAndRoundUp`: `int(math.Ceil(float64(dividend) / float64(divisor)))`, which is the
ceiling of the quotient for a positive divisor and operands below `2^53`. -/
def divideAndRoundUp (dividend divisor : Nat) : Nat :=
  (dividend + divisor - 1) / divisor

/-- `processRowChunk`: the reply a worker sends for its chunk of the single row. -/
def processRowChunk (chunk : List F) (blockLen : Nat) (q : List F) : Except Panic (List F) :=
  multiplyAndTag chunk blockLen q

/-- One reply added into `product` by `combineChunkResults`: `product[i] += elem` for every
element of the reply, which panics on a reply longer than `product`. -/
def addReply (product reply : List F) : Except Panic (List F) :=
  if reply.length ≤ product.length then
    .ok (List.zipWith (fun x y => x + y) product reply ++ product.drop reply.length)
  else .error .indexOutOfRange

/-- `combineChunkResults`: the replies added elementwise into a zero vector of `resLen`
elements. The replies are taken in chunk order (the channel delivers them in any order). -/
def combineChunkResults (resLen : Nat) (workerReplies : List (List F)) : Except Panic (List F) :=
  workerReplies.foldlM addReply (List.replicate resLen (0 : F))

/-- The loop of the `NumRows == 1` branch of `answer` from column `j` on: each chunk of columns is
sliced out of the entries and of the query and handed to `processRowChunk`. The first argument
bounds the number of iterations. -/
def columnChunks (db : DB F) (q : List F) : Nat → Nat → Nat → Except Panic (List (List F))
  | 0, j, _ => if j < db.NumColumns then .error .outOfFuel else .ok []
  | fuel + 1, j, colPerChunk =>
    if j < db.NumColumns then
      let (colPerChunk, bgn, fin) := computeChunkIndices j colPerChunk db.NumColumns db.BlockSize
      do
        let chunk ← slice db.Entries bgn fin
        let qs ← slice q (j * (db.BlockSize + 1)) ((j + colPerChunk) * (db.BlockSize + 1))
        let reply ← processRowChunk chunk db.BlockSize qs
        let rest ← columnChunks db q fuel (j + colPerChunk) colPerChunk
        .ok (reply :: rest)
    else .ok []

/-- `processRows` on the rows of one chunk: row `i` of the chunk goes through `multiplyAndTag` and
the result is copied to `output[i*(blockLen+1):(i+1)*(blockLen+1)]`, where `output` is the slice of
`m` that starts at `base`. `len(rows)/numElementsInRow` panics on an empty row. -/
def processRows (rows : List F) (blockLen numColumns : Nat) (q : List F) (m : List F)
    (base : Nat) : Except Panic (List F) :=
  let numElementsInRow := blockLen * numColumns
  if numElementsInRow = 0 then .error .divideByZero
  else
    (List.range (rows.length / numElementsInRow)).foldlM (fun m i => do
      let row ← slice rows (i * numElementsInRow) ((i + 1) * numElementsInRow)
      let res ← multiplyAndTag row blockLen q
      if base + (i + 1) * (blockLen + 1) ≤ m.length then
        .ok (copyAt m (base + i * (blockLen + 1)) res)
      else .error .indexOutOfRange) m

/-- The loop of the `NumRows > 1` branch of `answer` from row `j` on: each chunk of rows is sliced
out of the entries and written by `processRows` into its own slice of `m`. The workers write
disjoint slices, so they are run one after the other. The first argument bounds the number of
iterations. -/
def rowChunks (db : DB F) (q : List F) : Nat → Nat → Nat → List F → Except Panic (List F)
  | 0, j, _, m => if j < db.NumRows then .error .outOfFuel else .ok m
  | fuel + 1, j, rowsPerCore, m =>
    if j < db.NumRows then
      let (rowsPerCore, bgn, fin) := computeChunkIndices j rowsPerCore db.NumRows db.BlockSize
      do
        let rows ← slice db.Entries (bgn * db.NumColumns) (fin * db.NumColumns)
        let _ ← slice m (j * (db.BlockSize + 1)) ((j + rowsPerCore) * (db.BlockSize + 1))
        let m ← processRows rows db.BlockSize db.NumColumns q m (j * (db.BlockSize + 1))
        rowChunks db q fuel (j + rowsPerCore) rowsPerCore m
    else .ok m

/-- The single-bit scheme of `answer`: `a[i] += q[j]` for every entry of row `i` equal to one. -/
def answerSingleBit (q : List F) (db : DB F) : Except Panic (List F) :=
  (List.range db.NumRows).foldlM (fun a i =>
    (List.range db.NumColumns).foldlM (fun a j =>
      match db.Entries[i * db.NumColumns + j]? with
      | none => .error .indexOutOfRange
      | some e =>
        if e = 1 then
          match q[j]? with
          | none => .error .indexOutOfRange
          | some qj => .ok (a.set i (a.getD i 0 + qj))
        else .ok a) a) (List.replicate db.NumRows (0 : F))

/-- `answer`: the single-bit scheme when `BlockSize == constants.SingleBitBlockLength` (the
constant is not among the sources and is the parameter `singleBitBlockLength`); otherwise the
column-split engine for a single row and the row-split engine for several rows. Each loop runs at
most once per column or row when the chunk size is positive. -/
def answer (singleBitBlockLength : Nat) (q : List F) (db : DB F) (workers : Nat) :
    Except Panic (List F) :=
  if db.BlockSize = singleBitBlockLength then answerSingleBit q db
  else
    let numCores := workers
    if db.NumRows = 1 then do
      let colPerChunk := divideAndRoundUp db.NumColumns numCores
      let replies ← columnChunks db q db.NumColumns 0 colPerChunk
      combineChunkResults (db.BlockSize + 1) replies
    else
      let m := List.replicate (db.NumRows * (db.BlockSize + 1)) (0 : F)
      let rowsPerCore := divideAndRoundUp db.NumRows numCores
      rowChunks db q db.NumRows 0 rowsPerCore m

end benchmark

/-! ## lib/dpf/client.go

The fixed-key AES expander `prf`, the conversion `field.Element.SetBytes` and the bytes read from
`crypto/rand` are parameters: `prf s` is the 48-byte output buffer for the seed `s`, and `rnd i` is
the `i`-th random byte read. A byte is a natural number; the products `t * byte` below have a bit
`t`, so no byte operation of the source wraps. -/

namespace dpf

/-- The fields of `Fss` that key generation reads besides the AES blocks: the bit width of the
input domain and the width of `uint`. -/
structure Fss where
  NumBits : Nat
  N : Nat

/-- The key `FssKeyEq2P` of one party. -/
structure FssKeyEq2P (F : Type) where
  SInit : List Nat
  TInit : Nat
  CW : List (List Nat)
  FinalCW : F

/-- Modelled from the spec: `getBit` is not among the sources; position `pos` counts from the most
significant bit of an `N`-bit word, position `N` being the least significant ("MSB first starting
at position N - n + i"). -/
def getBit (n pos N : Nat) : Nat :=
  n / 2 ^ (N - pos) % 2

/-- The variables key generation carries through its loop over the levels. -/
structure GenState where
  sCurr0 : List Nat
  sCurr1 : List Nat
  tCurr0 : Nat
  tCurr1 : Nat
  CW0 : List (List Nat)
  CW1 : List (List Nat)

/-- The correction word of one level, as `GenerateTreePF` sets it for both keys: the sixteen seed
bytes of the two lose sides xored, then `t0Left ^ t1Left ^ aBit ^ 1` and
`t0Right ^ t1Right ^ aBit`. -/
def correctionWord (prfOut0 prfOut1 : List Nat) (aBit : Nat) : List Nat :=
  let leftStart := 0
  let rightStart := 16 + 1
  let t0Left := prfOut0.getD 16 0 % 2
  let t0Right := prfOut0.getD (16 * 2 + 1) 0 % 2
  let t1Left := prfOut1.getD 16 0 % 2
  let t1Right := prfOut1.getD (16 * 2 + 1) 0 % 2
  let lose := if aBit = 0 then rightStart else leftStart
  (List.range 16).map (fun j => prfOut0.getD (lose + j) 0 ^^^ prfOut1.getD (lose + j) 0)
    ++ [t0Left ^^^ t1Left ^^^ aBit ^^^ 1, t0Right ^^^ t1Right ^^^ aBit]

/-- One iteration of the level loop of `GenerateTreePF`: expand both seeds, read the bit of `a`,
set the correction word of the level in both keys, and advance the two seeds and `t` bits on the
keep side. -/
def genLevel (prf : List Nat → List Nat) (f : Fss) (a : Nat) (st : GenState) (i : Nat) :
    GenState :=
  let leftStart := 0
  let rightStart := 16 + 1
  let prfOut0 := prf st.sCurr0
  let prfOut1 := prf st.sCurr1
  let aBit := getBit a (f.N - f.NumBits + i + 1) f.N
  let keep := if aBit = 0 then leftStart else rightStart
  let cw := correctionWord prfOut0 prfOut1 aBit
  let tCWKeep := if keep = rightStart then cw.getD (16 + 1) 0 else cw.getD 16 0
  { sCurr0 := (List.range 16).map (fun j => prfOut0.getD (keep + j) 0 ^^^ (st.tCurr0 * cw.getD j 0))
    sCurr1 := (List.range 16).map (fun j => prfOut1.getD (keep + j) 0 ^^^ (st.tCurr1 * cw.getD j 0))
    tCurr0 := (prfOut0.getD (keep + 16) 0 % 2) ^^^ (tCWKeep * st.tCurr0)
    tCurr1 := (prfOut1.getD (keep + 16) 0 % 2) ^^^ (tCWKeep * st.tCurr1)
    CW0 := st.CW0.set i cw
    CW1 := st.CW1.set i cw }

/-- `GenerateTreePF`: the random initial seeds and bits, the level loop, and the final correction
word `-sFinal0 + sFinal1 + b`, negated when `tCurr1 == 1`. -/
def GenerateTreePF {F : Type} [CommRing F] (prf : List Nat → List Nat) (SetBytes : List Nat → F)
    (rnd : Nat → Nat) (f : Fss) (a : Nat) (b : F) : FssKeyEq2P F × FssKeyEq2P F :=
  let tempRand1 := (List.range (16 + 1)).map rnd
  let sInit0 := tempRand1.take 16
  let tInit0 := tempRand1.getD 16 0 % 2
  let sInit1 := (List.range 16).map (fun j => rnd (16 + 1 + j))
  let tInit1 := tInit0 ^^^ 1
  let st0 : GenState :=
    { sCurr0 := copyAt (List.replicate 16 0) 0 sInit0
      sCurr1 := copyAt (List.replicate 16 0) 0 sInit1
      tCurr0 := tInit0
      tCurr1 := tInit1
      CW0 := List.replicate f.NumBits (List.replicate (16 + 2) 0)
      CW1 := List.replicate f.NumBits (List.replicate (16 + 2) 0) }
  let st := (List.range f.NumBits).foldl (genLevel prf f a) st0
  let sFinal0 := - SetBytes st.sCurr0
  let sFinal1 := SetBytes st.sCurr1
  let finalCW := 0 + sFinal0 + sFinal1 + b
  let finalCW := if st.tCurr1 = 1 then - finalCW else finalCW
  ({ SInit := sInit0, TInit := tInit0, CW := st.CW0, FinalCW := finalCW },
   { SInit := sInit1, TInit := tInit1, CW := st.CW1, FinalCW := finalCW })

/-- Modelled from the spec: the per-party evaluation is not among the sources (only key generation
is). One level of it "mirrors KeyGen": expand the seed, keep the side of bit `x_i`, and advance
`S = sKeep xor (T * CW[i].s)`, `T = tKeep xor (T * CW[i].t_keep)`. -/
def evalLevel {F : Type} (prf : List Nat → List Nat) (f : Fss) (k : FssKeyEq2P F) (x : Nat)
    (st : List Nat × Nat) (i : Nat) : List Nat × Nat :=
  let out := prf st.1
  let xBit := getBit x (f.N - f.NumBits + i + 1) f.N
  let keep := if xBit = 0 then 0 else 16 + 1
  let cw := k.CW.getD i []
  let tCWKeep := if xBit = 0 then cw.getD 16 0 else cw.getD (16 + 1) 0
  ((List.range 16).map (fun j => out.getD (keep + j) 0 ^^^ (st.2 * cw.getD j 0)),
   (out.getD (keep + 16) 0 % 2) ^^^ (st.2 * tCWKeep))

/-- Modelled from the spec: the per-party evaluation is not among the sources. It starts from
`(S_init, T_init)`, runs the `n` levels and outputs
`(-1)^party * (convert(S_final) + T_final * FinalCW)`. -/
def Eval {F : Type} [CommRing F] (prf : List Nat → List Nat) (SetBytes : List Nat → F) (f : Fss)
    (party : Nat) (k : FssKeyEq2P F) (x : Nat) : F :=
  let st := (List.range f.NumBits).foldl (evalLevel prf f k x) (k.SInit, k.TInit)
  (-1) ^ party * (SetBytes st.1 + (st.2 : F) * k.FinalCW)

/-- A stand-in for the fixed-key expander, to evaluate the definitions on concrete inputs: 48
bytes computed from the seed. Every theorem below holds for every expander. -/
def sampleExpand (s : List Nat) : List Nat :=
  (List.range 48).map (fun i => (s.getD (i % 16) 0 * 7 + s.getD ((i + 5) % 16) 0 * 3 + i * 13 + 5) % 256)

/-- A stand-in for `SetBytes`, to evaluate the definitions on concrete inputs: the bytes read as a
big-endian number and reduced into the field. -/
def sampleSetBytes {F : Type} [CommRing F] (s : List Nat) : F :=
  ((s.foldl (fun acc b => acc * 256 + b) 0 : Nat) : F)

end dpf
/-! ## Reference definition for the matrix kernel -/

namespace matrix

/-- The loop nest of the kernel `multiply` over sizes and indices that are natural numbers, as a
reference for the loop invariants: the kernel computes it when no size is changed by the
conversion to a C `int` and no index leaves the range of a C `int`. -/
def multiplyRef (aRows aCols bCols : Nat) (a b out : List Nat) : List Nat :=
  (List.range aRows).foldl (fun out i =>
    (List.range aCols).foldl (fun out k =>
      (List.range bCols).foldl (fun out j =>
        out.set (bCols * i + j)
          (u32 (out.getD (bCols * i + j) 0 + u32 (a.getD (aCols * i + k) 0 * b.getD (bCols * k + j) 0))))
        out) out) out

end matrix


/-! ## Reference definitions for the answer engine (spec section 4.4)

`sum[b] = Σ_j entry[i, j, b] · α_j` and `sumTag = Σ_{j,b} entry[i, j, b] · β_j[b]`, written as
sums over the columns `lo <= j < hi` of a row. -/

namespace benchmark

/-- The reply `sum ‖ sumTag` of section 4.4 for the blocks `lo <= j < hi` of a row of elements:
block `j` is weighted by the message scalar `q[j*(blockLen+1)]` and, element by element, by the
tag scalars `q[j*(blockLen+1)+1+b]`. -/
def blockSums {F : Type} [CommRing F] (elements : List F) (blockLen : Nat) (q : List F)
    (lo hi : Nat) : List F :=
  (List.range blockLen).map (fun b =>
      ∑ j in Finset.Ico lo hi, elements.getD (j * blockLen + b) 0 * q.getD (j * (blockLen + 1)) 0)
    ++ [∑ j in Finset.Ico lo hi, ∑ b in Finset.range blockLen,
          elements.getD (j * blockLen + b) 0 * q.getD (j * (blockLen + 1) + 1 + b) 0]

/-- Row `i` of the database: its `NumColumns * BlockSize` elements. -/
def DB.row {F : Type} (db : DB F) (i : Nat) : List F :=
  (db.Entries.drop (i * (db.BlockSize * db.NumColumns))).take (db.BlockSize * db.NumColumns)

/-- The answer of section 4.4: the replies of the rows, one after the other. -/
def answerRef {F : Type} [CommRing F] (q : List F) (db : DB F) : List F :=
  ((List.range db.NumRows).map (fun i =>
    blockSums (db.row i) db.BlockSize q 0 db.NumColumns)).flatten

/-- The output buffer `m` of the row-split branch once the rows below `r` are written: their
replies, then zeros. -/
def partialAnswer {F : Type} [CommRing F] (q : List F) (db : DB F) (r : Nat) : List F :=
  ((List.range r).map (fun i => blockSums (db.row i) db.BlockSize q 0 db.NumColumns)).flatten
    ++ List.replicate ((db.NumRows - r) * (db.BlockSize + 1)) 0

end benchmark

/-! ## lib/server/lwe.go: `AnswerBytes` -/

namespace server

/-- `LWE.AnswerBytes`: `s.Answer(matrix.BytesToMatrix(q))` encoded by `matrix.MatrixToBytes`,
returned with a `nil` error (`none`). A panic of the decoder or of `Mul` aborts the call. -/
def LWE.AnswerBytes (db : matrix.Matrix) (q : List Nat) :
    Except Panic (List Nat × Option String) :=
  match matrix.BytesToMatrix q with
  | .error p => .error p
  | .ok m =>
    match LWE.Answer db m with
    | .error p => .error p
    | .ok a => .ok (matrix.MatrixToBytes a, none)

end server

/-! ## lib/matrix/matrix.go: `Add` and `Sub`

The methods update the receiver in place: the model returns the receiver and the argument as they
are when the method returns or panics, and the outcome. The two matrices are distinct objects. -/

namespace matrix

/-- The loop `for i := 0; i < len(a.data); i++ { a.data[i] += b.data[i] }` in `uint32`
arithmetic: the data of `a` when the loop ends, and the outcome; `b.data[i]` panics past the end
of `b.data`, after the earlier cells are updated. -/
def addLoop : List Nat → List Nat → List Nat × Except Panic Unit
  | [], _ => ([], .ok ())
  | x :: xs, [] => (x :: xs, .error .indexOutOfRange)
  | x :: xs, y :: ys => (u32 (x + y) :: (addLoop xs ys).1, (addLoop xs ys).2)

/-- The loop `for i := 0; i < len(a.data); i++ { a.data[i] -= b.data[i] }` in `uint32`
arithmetic. -/
def subLoop : List Nat → List Nat → List Nat × Except Panic Unit
  | [], _ => ([], .ok ())
  | x :: xs, [] => (x :: xs, .error .indexOutOfRange)
  | x :: xs, y :: ys =>
      (u32 (x + 4294967296 - u32 y) :: (subLoop xs ys).1, (subLoop xs ys).2)

/-- `a.Add(b)`: panics on a shape mismatch before any update; otherwise the loop. -/
def Matrix.Add (a b : Matrix) : Matrix × Matrix × Except Panic Unit :=
  if a.cols ≠ b.cols ∨ a.rows ≠ b.rows then (a, b, .error .dimensionMismatch)
  else ({ a with data := (addLoop a.data b.data).1 }, b, (addLoop a.data b.data).2)

/-- `a.Sub(b)`: panics on a shape mismatch before any update; otherwise the loop. -/
def Matrix.Sub (a b : Matrix) : Matrix × Matrix × Except Panic Unit :=
  if a.cols ≠ b.cols ∨ a.rows ≠ b.rows then (a, b, .error .dimensionMismatch)
  else ({ a with data := (subLoop a.data b.data).1 }, b, (subLoop a.data b.data).2)

/-- The `m x 1` matrix `delta * u_j` of the LWE query (spec section 4.5): `delta` in row `j`, zero
elsewhere. -/
def scaledUnit (delta m j : Nat) : Matrix :=
  { rows := m, cols := 1, data := (List.range m).map (fun k => if k = j then delta else 0) }

end matrix

/-! ## lib/dpf/client.go: the loop state and `GenerateTreePFVector` -/

namespace dpf

/-- The variables of `GenerateTreePF` and `GenerateTreePFVector` when the level loop starts. -/
def genInit (rnd : Nat → Nat) (f : Fss) : GenState :=
  let tempRand1 := (List.range (16 + 1)).map rnd
  let sInit0 := tempRand1.take 16
  let tInit0 := tempRand1.getD 16 0 % 2
  let sInit1 := (List.range 16).map (fun j => rnd (16 + 1 + j))
  let tInit1 := tInit0 ^^^ 1
  { sCurr0 := copyAt (List.replicate 16 0) 0 sInit0
    sCurr1 := copyAt (List.replicate 16 0) 0 sInit1
    tCurr0 := tInit0
    tCurr1 := tInit1
    CW0 := List.replicate f.NumBits (List.replicate (16 + 2) 0)
    CW1 := List.replicate f.NumBits (List.replicate (16 + 2) 0) }

/-- The variables of key generation after the first `i` iterations of the level loop. -/
def genState (prf : List Nat → List Nat) (rnd : Nat → Nat) (f : Fss) (a : Nat) (i : Nat) :
    GenState :=
  (List.range i).foldl (genLevel prf f a) (genInit rnd f)

/-- The key `FssKeyVectorEq2P` of one party: the final correction word is a vector. -/
structure FssKeyVectorEq2P (F : Type) where
  SInit : List Nat
  TInit : Nat
  CW : List (List Nat)
  FinalCW : List F

/-- The body of the final loop of `GenerateTreePFVector` for coordinate `i`:
`-sFinal0[i] + sFinal1[i] + b[i]`, negated when `tCurr1 == 1`. An index outside a vector
panics. -/
def finalCWAt {F : Type} [CommRing F] (sFinal0 sFinal1 b : List F) (tCurr1 : Nat) (i : Nat) :
    Except Panic F :=
  match sFinal0[i]?, sFinal1[i]?, b[i]? with
  | some s0, some s1, some bi =>
    let finalCW := 0 + (- s0) + s1 + bi
    .ok (if tCurr1 = 1 then - finalCW else finalCW)
  | _, _, _ => .error .indexOutOfRange

/-- `GenerateTreePFVector`: the initial state and the level loop of `GenerateTreePF`, then the
final correction vector of `len(b)` coordinates. `utils.NewPRG` and
`field.RandomVectorPointers` are not among the sources: `RandomVectorPointers key n` is the
vector drawn from the PRG seeded with the 16-byte `key`. -/
def GenerateTreePFVector {F : Type} [CommRing F] (prf : List Nat → List Nat)
    (RandomVectorPointers : List Nat → Nat → List F) (rnd : Nat → Nat) (f : Fss) (a : Nat)
    (b : List F) : Except Panic (FssKeyVectorEq2P F × FssKeyVectorEq2P F) :=
  let tempRand1 := (List.range (16 + 1)).map rnd
  let sInit0 := tempRand1.take 16
  let tInit0 := tempRand1.getD 16 0 % 2
  let sInit1 := (List.range 16).map (fun j => rnd (16 + 1 + j))
  let tInit1 := tInit0 ^^^ 1
  let st := (List.range f.NumBits).foldl (genLevel prf f a) (genInit rnd f)
  let length := b.length
  let key0 := copyAt (List.replicate 16 0) 0 st.sCurr0
  let sFinal0 := RandomVectorPointers key0 length
  let key1 := copyAt (List.replicate 16 0) 0 st.sCurr1
  let sFinal1 := RandomVectorPointers key1 length
  match (List.range length).mapM (finalCWAt sFinal0 sFinal1 b st.tCurr1) with
  | .error p => .error p
  | .ok finalCW =>
    .ok ({ SInit := sInit0, TInit := tInit0, CW := st.CW0, FinalCW := finalCW },
         { SInit := sInit1, TInit := tInit1, CW := st.CW1, FinalCW := finalCW })

/-- A stand-in for `field.RandomVectorPointers`, to evaluate the definitions on concrete inputs:
element `i` of the vector drawn with `key` is the conversion of the key plus `i`. -/
def sampleRandomVector {F : Type} [CommRing F] (key : List Nat) (n : Nat) : List F :=
  (List.range n).map (fun (i : Nat) => sampleSetBytes key + (i : F))

end dpf

/-! ## lib/utils/lwe.go -/

namespace utils

/-- `SeedMatrixA`: the fixed 16-byte seed of the matrix `A`. -/
def SeedMatrixA : List Nat :=
  [19, 177, 222, 148, 155, 239, 159, 227, 155, 99, 246, 214, 220, 162, 30, 66]

/-- `ParamsLWE`; `Sigma` is the decimal constant of the source, as a rational number, and `SeedA`
is the key the pointer refers to. -/
structure ParamsLWE where
  P : Nat
  N : Nat
  Sigma : ℚ
  L : Nat
  M : Nat
  B : Nat
  SeedA : List Nat
  Mod : Nat

/-- `GetDefaultSeedMatrixA`: a copy of `SeedMatrixA` as a `PRGKey`. -/
def GetDefaultSeedMatrixA : List Nat := SeedMatrixA

/-- `ParamsDefault`. -/
def ParamsDefault : ParamsLWE :=
  { P := 2
    N := 1024
    Sigma := 6.0
    L := 512
    M := 128
    B := 1000
    SeedA := GetDefaultSeedMatrixA
    Mod := 1 <<< 32 }

end utils

/-! ## lib/database/db.go -/

namespace database

/-- `KeyInfo`: the creation time (a timestamp), the algorithm tag, the key id and the block
length. -/
structure KeyInfo where
  CreationTime : Nat
  PubKeyAlgo : Nat
  KeyId : Nat
  BlockLength : Nat
deriving DecidableEq, Repr

/-- The fields of `Info` that `NewInfo` sets. -/
structure Info where
  NumRows : Nat
  NumColumns : Nat
  BlockSize : Nat
  BlockLengths : List Nat
deriving DecidableEq, Repr

/-- `DB`: the keys' metadata, the entries and the embedded `Info`. -/
structure DB where
  KeysInfo : List KeyInfo
  Entries : List Nat
  Info : Info
deriving DecidableEq, Repr

/-- `NewInfo`. -/
def NewInfo (nRows nCols bSize : Nat) : Info :=
  { NumRows := nRows
    NumColumns := nCols
    BlockSize := bSize
    BlockLengths := List.replicate (nRows * nCols) 0 }

/-- `CreateRandomDB`: `numIdentifiers * 64` random entries and one `KeyInfo` per identifier, in a
single row; the error it returns is `nil` (`none`). `field.RandVectorWithPRG n` is the vector the
field package draws from the reader (the package is not among the sources); `Randate i`,
`randInt i` and `randUint64 i` are the values of `utils.Randate()`, of the random number behind
`rand.Intn` (which reduces it below its argument) and of `rand.Uint64()` in iteration `i`. -/
def CreateRandomDB (RandVectorWithPRG : Nat → List Nat) (Randate randInt randUint64 : Nat → Nat)
    (numIdentifiers : Nat) : DB × Option String :=
  let entryLength := 64
  let entries := RandVectorWithPRG (numIdentifiers * entryLength)
  let keysInfo := (List.range numIdentifiers).map (fun i =>
    let ct := Randate i
    let algorithms := [1, 16, 17, 18, 19]
    let pka := algorithms.getD (randInt i % algorithms.length) 0
    let id := randUint64 i % 18446744073709551616
    let bl := entryLength
    ({ CreationTime := ct, PubKeyAlgo := pka, KeyId := id, BlockLength := bl } : KeyInfo))
  let info := NewInfo 1 numIdentifiers entryLength
  ({ KeysInfo := keysInfo, Entries := entries, Info := info }, none)

end database

/-! ## cmd/benchmark/answer.go: the chunking loop and the variant without zero skipping -/

namespace benchmark

/-- The chunks of the two worker loops of `answer`, `for j := 0; j < max; j += step`, whose body
starts with `step, begin, end = computeChunkIndices(j, step, max, multiplier)`, from index `j`
on: for every iteration the index `j`, the clamped step and the two bounds. The first argument
bounds the number of iterations. -/
def chunkLoop (max multiplier : Nat) :
    Nat → Nat → Nat → Except Panic (List (Nat × Nat × Nat × Nat))
  | 0, j, _ => if j < max then .error .outOfFuel else .ok []
  | fuel + 1, j, step =>
    if j < max then
      let (step, bgn, fin) := computeChunkIndices j step max multiplier
      match chunkLoop max multiplier fuel (j + step) step with
      | .error p => .error p
      | .ok rest => .ok ((j, step, bgn, fin) :: rest)
    else .ok []

/-- Chunk number `t` of a range `[j, max)` cut in steps of `step`, as a reference for the loop:
it starts at `j + t * step`, takes `min(step, max - start)` indices, and its bounds are the start
and the end times `multiplier`. -/
def chunkAt (max multiplier step j t : Nat) : Nat × Nat × Nat × Nat :=
  (j + t * step, min step (max - (j + t * step)), (j + t * step) * multiplier,
    (j + t * step + min step (max - (j + t * step))) * multiplier)

variable {F : Type} [CommRing F] [DecidableEq F]

/-- The body of the inner loop of `multiplyAndTag` with the `IsZero` early `continue` removed:
every element, zero or not, is multiplied into `sum[b]` and `sumTag`. -/
def tagStepNoSkip (elements : List F) (blockLen : Nat) (q : List F) (j : Nat) (acc : List F × F)
    (b : Nat) : Except Panic (List F × F) :=
  match elements[j * blockLen + b]? with
  | none => .error .indexOutOfRange
  | some e =>
    match q[j * (blockLen + 1)]?, q[j * (blockLen + 1) + 1 + b]? with
    | some qa, some qt => .ok (acc.1.set b (acc.1.getD b 0 + e * qa), acc.2 + e * qt)
    | _, _ => .error .indexOutOfRange

/-- The variant of `multiplyAndTag` with the `IsZero` early `continue` removed. -/
def multiplyAndTagNoSkip (elements : List F) (blockLen : Nat) (q : List F) :
    Except Panic (List F) :=
  if blockLen = 0 then .error .divideByZero
  else
    match (List.range (elements.length / blockLen)).foldlM (fun acc j =>
      (List.range blockLen).foldlM (tagStepNoSkip elements blockLen q j) acc)
      (List.replicate blockLen (0 : F), (0 : F)) with
    | .error e => .error e
    | .ok acc => .ok (acc.1 ++ [acc.2])

/-- What one entry adds to its row in the single-bit scheme: `q[j]` when the entry `(i, j)` is
one, nothing otherwise. -/
def singleBitTerm (q : List F) (db : DB F) (i j : Nat) : F :=
  if db.Entries.getD (i * db.NumColumns + j) 0 = 1 then q.getD j 0 else 0

/-- The single-bit answer, as a reference: element `i` is the sum of `q[j]` over the columns `j`
whose entry in row `i` is one. -/
def answerSingleBitRef (q : List F) (db : DB F) : List F :=
  (List.range db.NumRows).map (fun i =>
    ((List.range db.NumColumns).map (singleBitTerm q db i)).sum)

/-- The indices that the single-bit scheme reads at `(i, j)` are in range: the entry exists, and
so does `q[j]` when the entry is one. -/
def singleBitInRange (q : List F) (db : DB F) (i j : Nat) : Prop :=
  i * db.NumColumns + j < db.Entries.length ∧
    (db.Entries.getD (i * db.NumColumns + j) 0 = 1 → j < q.length)

instance (q : List F) (db : DB F) (i j : Nat) : Decidable (singleBitInRange q db i j) := by
  unfold singleBitInRange; exact inferInstance

/-- A database to evaluate the definitions on concrete inputs: two rows of two blocks of two
elements over `F_p`, `p = 2^31 - 1`, namely `[1,2][3,4]` and `[5,6][7,8]`. -/
def sampleDB : DB (ZMod 2147483647) :=
  ⟨[1, 2, 3, 4, 5, 6, 7, 8], 2, 2, 2⟩

/-- A query for `sampleDB`: two columns of `BlockSize + 1` elements. -/
def sampleQuery : List (ZMod 2147483647) :=
  [0, 0, 0, 1, 2, 3]

end benchmark

/-! ## cmd/server/main.go -/

namespace cmdserver

/-- The two servers `main` can bind: `server.NewDPF(db, byte(*sid))` and `server.NewIT(db)`. The
constructors are not among the sources; a server is the constructor applied with its
arguments. -/
inductive Server (DB : Type) where
  | NewDPF (db : DB) (serverNum : Nat)
  | NewIT (db : DB)
deriving DecidableEq, Repr

/-- The `switch *schemePtr` of `main`: `"dpf"` and `"it"` bind a server, the `default` case is
`log.Fatal("undefined scheme type")`. `byte(*sid)` keeps the low eight bits of the `int`. -/
def selectServer {DB : Type} (scheme : String) (db : DB) (sid : Int) :
    Except String (Server DB) :=
  if scheme = "dpf" then .ok (.NewDPF db (sid % 256).toNat)
  else if scheme = "it" then .ok (.NewIT db)
  else .error "undefined scheme type"

end cmdserver

/-! ## lib/database/db.go: `HashToIndex` -/

namespace database

/-- `binary.BigEndian.Uint64` on the first eight bytes of a slice. -/
def Uint64BE (b : List Nat) : Nat :=
  b.getD 0 0 * 72057594037927936 + b.getD 1 0 * 281474976710656 + b.getD 2 0 * 1099511627776
    + b.getD 3 0 * 4294967296 + b.getD 4 0 * 16777216 + b.getD 5 0 * 65536 + b.getD 6 0 * 256
    + b.getD 7 0

/-- The conversion `uint64(x)` of an `int`. -/
def uint64OfInt (x : Int) : Nat :=
  (x % 18446744073709551616).toNat

/-- The conversion `int(x)` of a `uint64`, on a 64-bit platform. -/
def intOfUint64 (x : Nat) : Int :=
  if x % 18446744073709551616 < 9223372036854775808 then (x % 18446744073709551616 : Nat)
  else ((x % 18446744073709551616 : Nat) : Int) - 18446744073709551616

/-- `HashToIndex`: `Sum256 id` is `blake2b.Sum256([]byte(id))`, the 32 bytes of the hash (the
package is external); the remainder by `uint64(length)` panics when that is zero. -/
def HashToIndex (Sum256 : String → List Nat) (id : String) (length : Int) : Except Panic Int :=
  let hash := Sum256 id
  if uint64OfInt length = 0 then .error .divideByZero
  else .ok (intOfUint64 (Uint64BE hash % 18446744073709551616 % uint64OfInt length))

end database

/-! ## lib/matrix/matrix.go: `NewRandom` -/

namespace matrix

/-- The `uint32` at word index `i` of a memory of bytes, on a little-endian platform. -/
def wordAt (mem : Nat → Nat) (i : Nat) : Nat :=
  mem (4 * i) + mem (4 * i + 1) * 256 + mem (4 * i + 2) * 65536 + mem (4 * i + 3) * 16777216

/-- `NewRandom`: the buffer `b` of `bytesMod * r * c` bytes is filled by `rnd.Read`, and
`m.data = *(*[]uint32)(unsafe.Pointer(&b))` reinterprets the slice header of `b`: the data
pointer and the length `len(b)` are kept, so `m.data` has `len(b)` words and word `i` is read
from the bytes `4i .. 4i+3` of the memory that starts at `b`. `bytesMod` is
`utils.ParamsDefault().BytesMod` (the field is not among the sources); `Read n` is the content of
the `n`-byte buffer after `rnd.Read`, or `none` when it returns an error (`panic(err)`); and
`beyond k` is byte `k` of the memory that follows the buffer. -/
def NewRandom (bytesMod : Nat) (Read : Nat → Option (List Nat)) (beyond : Nat → Nat)
    (r c : Nat) : Option Matrix :=
  match Read (bytesMod * r * c) with
  | none => none
  | some b =>
    let m := New r c
    let n := bytesMod * r * c
    let mem := fun k => if k < n then b.getD k 0 else beyond (k - n)
    let data := (List.range n).map (wordAt mem)
    some { m with data := data }

end matrix

/-! ## lib/matrix/matrix.go: `BytesToMatrices`, `NewGauss`, `Set` and `Get` -/

namespace matrix

/-- `BytesToMatrices`: the length of one encoded matrix is read from `in[:4]`, the number of
matrices is `uint32((len(in) - 4) / length)`, and matrix `i` is decoded from
`in[4+i*length : 4+(i+1)*length]`. `in[:4]` panics on fewer than four bytes, the division on a
zero length, and a slice expression outside the input. -/
def BytesToMatrices (inp : List Nat) : Except Panic (List Matrix) :=
  if inp.length < 4 then .error .indexOutOfRange
  else
    let length := Uint32BE (inp.take 4)
    if length = 0 then .error .divideByZero
    else
      let n := u32 ((inp.length - 4) / length)
      (List.range n).mapM (fun i => do
        let s ← slice inp (4 + i * length) (4 + (i + 1) * length)
        BytesToMatrix s)

/-- `NewGauss`: the loop over `len(m.data)` sets word `i` to `uint32(utils.GaussSample())`.
`utils.GaussSample` is not among the sources: `GaussSample i` is the value its call number `i`
returns, a signed integer, and the conversion to `uint32` reduces it modulo `2^32`. The argument
`sigma` is a `float64` that the body never reads; its type is left open. -/
def NewGauss {Float64 : Type} (GaussSample : Nat → Int) (r c : Nat) (_sigma : Float64) :
    Matrix :=
  let m := New r c
  let data := (List.range m.data.length).foldl
    (fun d i => d.set i (GaussSample i % 4294967296).toNat) m.data
  { m with data := data }

/-- `Set`: `m.data[m.cols*r+c] = v`, which panics on an index outside the data. The value is a
`uint32`. -/
def Matrix.Set (m : Matrix) (r c v : Nat) : Except Panic Matrix :=
  if m.cols * r + c < m.data.length then
    .ok { m with data := m.data.set (m.cols * r + c) v }
  else .error .indexOutOfRange

/-- `Get`: `m.data[m.cols*r+c]`, which panics on an index outside the data. -/
def Matrix.Get (m : Matrix) (r c : Nat) : Except Panic Nat :=
  match m.data[m.cols * r + c]? with
  | some w => .ok w
  | none => .error .indexOutOfRange

end matrix

/-! # Theorems -/

/-! ## The matrix kernel and `Mul` -/

namespace matrix


theorem getD_set_eq (l : List Nat) (p q v : Nat) :
    (l.set q v).getD p 0 = if p = q ∧ q < l.length then v else l.getD p 0 := by
  simp only [List.getD_eq_getElem?_getD, List.getElem?_set]
  by_cases h : q = p
  · subst h
    by_cases h2 : q < l.length
    · simp [h2]
    · simp [h2]
      rw [List.getElem?_eq_none (by omega)]
      rfl
  · have : ¬ (p = q) := fun h' => h h'.symm
    simp [h, this]

theorem multiply_inner (aCols bCols i k : Nat) (a b : List Nat) (n : Nat) (out : List Nat) :
    ((List.range n).foldl (fun out j =>
        out.set (bCols * i + j)
          (u32 (out.getD (bCols * i + j) 0 + u32 (a.getD (aCols * i + k) 0 * b.getD (bCols * k + j) 0))))
        out).length = out.length ∧
    ∀ p, ((List.range n).foldl (fun out j =>
        out.set (bCols * i + j)
          (u32 (out.getD (bCols * i + j) 0 + u32 (a.getD (aCols * i + k) 0 * b.getD (bCols * k + j) 0))))
        out).getD p 0 =
      if bCols * i ≤ p ∧ p < bCols * i + n ∧ p < out.length then
        u32 (out.getD p 0 + u32 (a.getD (aCols * i + k) 0 * b.getD (bCols * k + (p - bCols * i)) 0))
      else out.getD p 0 := by
  induction n with
  | zero =>
    refine ⟨by simp, fun p => ?_⟩
    have h2 : ¬ (bCols * i ≤ p ∧ p < bCols * i + 0 ∧ p < out.length) := by omega
    simp only [List.range_zero, List.foldl_nil, if_neg h2]
  | succ n ih =>
    obtain ⟨ihl, ihv⟩ := ih
    rw [List.range_succ, List.foldl_append]
    simp only [List.foldl_cons, List.foldl_nil]
    refine ⟨by rw [List.length_set, ihl], fun p => ?_⟩
    rw [getD_set_eq, ihl, ihv, ihv]
    by_cases hp : p = bCols * i + n
    · subst hp
      by_cases hl : bCols * i + n < out.length
      · simp [hl]
      · simp [hl]
    · by_cases h1 : bCols * i ≤ p ∧ p < bCols * i + n ∧ p < out.length
      · have h2 : bCols * i ≤ p ∧ p < bCols * i + (n + 1) ∧ p < out.length := by omega
        simp [hp, h1, h2]
      · have h2 : ¬ (bCols * i ≤ p ∧ p < bCols * i + (n + 1) ∧ p < out.length) := by omega
        simp [hp, h1, h2]



theorem multiply_mid (aCols bCols i : Nat) (a b : List Nat) (n : Nat) (out : List Nat)
    (hb : ∀ p, out.getD p 0 < 4294967296) :
    ((List.range n).foldl (fun out k =>
      (List.range bCols).foldl (fun out j =>
        out.set (bCols * i + j)
          (u32 (out.getD (bCols * i + j) 0 + u32 (a.getD (aCols * i + k) 0 * b.getD (bCols * k + j) 0))))
        out) out).length = out.length ∧
    ∀ p, ((List.range n).foldl (fun out k =>
      (List.range bCols).foldl (fun out j =>
        out.set (bCols * i + j)
          (u32 (out.getD (bCols * i + j) 0 + u32 (a.getD (aCols * i + k) 0 * b.getD (bCols * k + j) 0))))
        out) out).getD p 0 =
      if bCols * i ≤ p ∧ p < bCols * i + bCols ∧ p < out.length then
        u32 (out.getD p 0 + ∑ k in Finset.range n,
          a.getD (aCols * i + k) 0 * b.getD (bCols * k + (p - bCols * i)) 0)
      else out.getD p 0 := by
  induction n with
  | zero =>
    refine ⟨by simp, fun p => ?_⟩
    have := hb p
    simp only [List.range_zero, List.foldl_nil, Finset.range_zero, Finset.sum_empty, u32]
    split <;> omega
  | succ n ih =>
    obtain ⟨ihl, ihv⟩ := ih
    rw [List.range_succ, List.foldl_append]
    simp only [List.foldl_cons, List.foldl_nil]
    obtain ⟨hl, hv⟩ := multiply_inner aCols bCols i n a b bCols
      ((List.range n).foldl (fun out k =>
        (List.range bCols).foldl (fun out j =>
          out.set (bCols * i + j)
            (u32 (out.getD (bCols * i + j) 0 + u32 (a.getD (aCols * i + k) 0 * b.getD (bCols * k + j) 0))))
          out) out)
    refine ⟨by rw [hl, ihl], fun p => ?_⟩
    rw [hv, ihl, ihv, Finset.sum_range_succ]
    by_cases h1 : bCols * i ≤ p ∧ p < bCols * i + bCols ∧ p < out.length
    · simp only [if_pos h1, u32]
      omega
    · simp only [if_neg h1]

theorem multiply_outer (aCols bCols : Nat) (a b : List Nat) (n : Nat) (out : List Nat)
    (hb : ∀ p, out.getD p 0 < 4294967296) :
    (multiplyRef n aCols bCols a b out).length = out.length ∧
    ∀ p, (multiplyRef n aCols bCols a b out).getD p 0 =
      if p < bCols * n ∧ p < out.length then
        u32 (out.getD p 0 + ∑ k in Finset.range aCols,
          a.getD (aCols * (p / bCols) + k) 0 * b.getD (bCols * k + p % bCols) 0)
      else out.getD p 0 := by
  unfold multiplyRef
  induction n with
  | zero => simp
  | succ n ih =>
    obtain ⟨ihl, ihv⟩ := ih
    rw [List.range_succ, List.foldl_append]
    simp only [List.foldl_cons, List.foldl_nil]
    have hb' : ∀ p, ((List.range n).foldl (fun out i =>
        (List.range aCols).foldl (fun out k =>
          (List.range bCols).foldl (fun out j =>
            out.set (bCols * i + j)
              (u32 (out.getD (bCols * i + j) 0 + u32 (a.getD (aCols * i + k) 0 * b.getD (bCols * k + j) 0))))
            out) out) out).getD p 0 < 4294967296 := by
      intro p
      rw [ihv]
      split
      · unfold u32; omega
      · exact hb p
    obtain ⟨hl, hv⟩ := multiply_mid aCols bCols n a b aCols _ hb'
    refine ⟨by rw [hl, ihl], fun p => ?_⟩
    rw [hv, ihl, ihv]
    by_cases h1 : bCols * n ≤ p ∧ p < bCols * n + bCols ∧ p < out.length
    · have h2 : ¬ (p < bCols * n ∧ p < out.length) := by omega
      have h3 : p < bCols * (n + 1) ∧ p < out.length := by
        rw [Nat.mul_succ]; omega
      have hdiv : p / bCols = n := by
        apply Nat.div_eq_of_lt_le
        · rw [Nat.mul_comm]; exact h1.1
        · rw [Nat.mul_comm, Nat.mul_succ]; exact h1.2.1
      have hmod : p % bCols = p - bCols * n := by
        have := Nat.div_add_mod p bCols
        rw [hdiv] at this
        omega
      rw [if_pos h1, if_neg h2, if_pos h3, hdiv, hmod]
    · rw [if_neg h1]
      by_cases h2 : p < bCols * n ∧ p < out.length
      · have h3 : p < bCols * (n + 1) ∧ p < out.length := by
          rw [Nat.mul_succ]; omega
        rw [if_pos h2, if_pos h3]
      · have h3 : ¬ (p < bCols * (n + 1) ∧ p < out.length) := by
          rw [Nat.mul_succ]; omega
        rw [if_neg h2, if_neg h3]

/-- The conversion to a C `int` keeps a size below `2^31`. -/
theorem cint_of_lt (x : Nat) (h : x < 2147483648) : cint (x : Int) = (x : Int) := by
  unfold cint
  omega

theorem cget_natCast (p : List Nat) (x : Nat) : cget p (x : Int) = p.getD x 0 := by
  unfold cget
  rw [if_pos (Int.ofNat_nonneg x), Int.toNat_ofNat]

theorem cset_natCast (p : List Nat) (x v : Nat) : cset p (x : Int) v = p.set x v := by
  unfold cset
  rw [if_pos (Int.ofNat_nonneg x), Int.toNat_ofNat]

/-- A row-major index is below the number of entries. -/
theorem index_lt (c i j r : Nat) (hi : i < r) (hj : j < c) : c * i + j < r * c := by
  have h := Nat.mul_le_mul_left c (Nat.succ_le_of_lt hi)
  rw [Nat.mul_succ] at h
  rw [Nat.mul_comm r c]
  omega

/-- An index of the kernel that stays in the range of a C `int`. -/
theorem cint_index (c i j : Nat) (h : c * i + j < 2147483648) :
    cint ((c : Int) * (i : Int) + (j : Int)) = ((c * i + j : Nat) : Int) := by
  rw [← cint_of_lt _ h]
  push_cast
  rfl

/-- The kernel on sizes below `2^31` and matrices of at most `2^31` entries: no size is changed
by the conversion to a C `int` and no index overflows, so the kernel is the loop nest over the
natural numbers. -/
theorem multiply_eq_ref (r n c : Nat) (a b out : List Nat)
    (hr : r < 2147483648) (hn : n < 2147483648) (hc : c < 2147483648)
    (hrn : r * n ≤ 2147483648) (hnc : n * c ≤ 2147483648) (hrc : r * c ≤ 2147483648) :
    multiply (cint r) (cint n) (cint c) a b out = multiplyRef r n c a b out := by
  rw [cint_of_lt r hr, cint_of_lt n hn, cint_of_lt c hc]
  unfold multiply multiplyRef
  simp only [Int.toNat_ofNat]
  apply List.foldl_ext
  intro out i hi
  apply List.foldl_ext
  intro out k hk
  apply List.foldl_ext
  intro out j hj
  rw [List.mem_range] at hi hk hj
  have h1 := index_lt c i j r hi hj
  have h2 := index_lt n i k r hi hk
  have h3 := index_lt c k j n hk hj
  rw [cint_index c i j (by omega), cint_index n i k (by omega), cint_index c k j (by omega),
    cset_natCast, cget_natCast, cget_natCast, cget_natCast]

/-- A kernel whose row count is zero or negative as a C `int` leaves the output untouched. -/
theorem multiply_rows_nonpos (aRows aCols bCols : Int) (a b out : List Nat) (h : aRows ≤ 0) :
    multiply aRows aCols bCols a b out = out := by
  unfold multiply
  rw [Int.toNat_of_nonpos h]
  rfl

/-- A kernel whose column count is zero or negative as a C `int` leaves the output untouched. -/
theorem multiply_cols_nonpos (aRows aCols bCols : Int) (a b out : List Nat) (h : bCols ≤ 0) :
    multiply aRows aCols bCols a b out = out := by
  unfold multiply
  rw [Int.toNat_of_nonpos h]
  simp only [List.range_zero, List.foldl_nil]
  exact List.foldl_fixed' (fun (_ : Nat) => List.foldl_fixed (List.range aCols.toNat)) _

theorem getD_replicate_zero (n i : Nat) : (List.replicate n 0).getD i 0 = 0 := by
  simp only [List.getD_eq_getElem?_getD, List.getElem?_replicate]
  split <;> rfl

theorem getD_replicate_of_lt (n i v : Nat) (h : i < n) : (List.replicate n v).getD i 0 = v := by
  simp only [List.getD_eq_getElem?_getD, List.getElem?_replicate, if_pos h, Option.getD_some]

/-- A matrix filled with one word below `2^32` is well formed. -/
theorem wellFormed_replicate (r c n v : Nat) (hn : n = r * c) (hv : v < 4294967296) :
    (Matrix.mk r c (List.replicate n v)).WellFormed := by
  refine ⟨?_, fun w hw => ?_⟩
  · show (List.replicate n v).length = r * c
    rw [List.length_replicate, hn]
  · rw [List.eq_of_mem_replicate hw]
    exact hv

/-- `Mul` returns on non-empty matrices whose data have the length of their shape: the kernel
runs on the sizes converted to C `int`s. -/
theorem Mul_returns (a b : Matrix) (ha : a.data.length = a.rows * a.cols)
    (hb : b.data.length = b.rows * b.cols) (hab : a.cols = b.rows)
    (hr : 0 < a.rows) (hn : 0 < a.cols) (hc : 0 < b.cols) :
    Mul a b = .ok { rows := a.rows, cols := b.cols,
                    data := multiply (cint a.rows) (cint a.cols) (cint b.cols) a.data b.data
                      (List.replicate (a.rows * b.cols) 0) } := by
  have h1 : a.data ≠ [] := by
    intro h
    rw [h] at ha
    have := Nat.mul_pos hr hn
    simp at ha
    omega
  have h2 : b.data ≠ [] := by
    intro h
    rw [h, ← hab] at hb
    have := Nat.mul_pos hn hc
    simp at hb
    omega
  have h3 : List.replicate (a.rows * b.cols) 0 ≠ ([] : List Nat) := by
    intro h
    have := congrArg List.length h
    have := Nat.mul_pos hr hc
    simp at *
    omega
  simp [Mul, New, hab, h1, h2, h3]

/-- `Mul` on non-empty matrices whose data have the length of their shape, with sizes below
`2^31` and at most `2^31` entries in each operand and in the product. -/
theorem Mul_ok_of_length (a b : Matrix) (ha : a.data.length = a.rows * a.cols)
    (hb : b.data.length = b.rows * b.cols) (hab : a.cols = b.rows)
    (hr : 0 < a.rows) (hn : 0 < a.cols) (hc : 0 < b.cols)
    (hr31 : a.rows < 2147483648) (hn31 : a.cols < 2147483648) (hc31 : b.cols < 2147483648)
    (hrn : a.rows * a.cols ≤ 2147483648) (hnc : a.cols * b.cols ≤ 2147483648)
    (hrc : a.rows * b.cols ≤ 2147483648) :
    Mul a b = .ok { rows := a.rows, cols := b.cols,
                    data := multiplyRef a.rows a.cols b.cols a.data b.data
                      (List.replicate (a.rows * b.cols) 0) } := by
  rw [Mul_returns a b ha hb hab hr hn hc, multiply_eq_ref _ _ _ _ _ _ hr31 hn31 hc31 hrn hnc hrc]

theorem multiply_zero_spec (aRows aCols bCols : Nat) (a b : List Nat) :
    (multiplyRef aRows aCols bCols a b (List.replicate (aRows * bCols) 0)).length = aRows * bCols ∧
    ∀ i j, i < aRows → j < bCols →
      (multiplyRef aRows aCols bCols a b (List.replicate (aRows * bCols) 0)).getD (bCols * i + j) 0 =
        (∑ k in Finset.range aCols, a.getD (aCols * i + k) 0 * b.getD (bCols * k + j) 0)
          % 4294967296 := by
  have hz : ∀ p, (List.replicate (aRows * bCols) 0).getD p 0 < 4294967296 := by
    intro p
    simp [List.getD_eq_getElem?_getD, List.getElem?_replicate]
    split <;> simp
  obtain ⟨hl, hv⟩ := multiply_outer aCols bCols a b aRows _ hz
  refine ⟨by rw [hl, List.length_replicate], fun i j hi hj => ?_⟩
  rw [hv]
  have hlt : bCols * i + j < bCols * aRows := by
    calc bCols * i + j < bCols * i + bCols := by omega
      _ = bCols * (i + 1) := by rw [Nat.mul_succ]
      _ ≤ bCols * aRows := Nat.mul_le_mul_left _ hi
  have hdiv : (bCols * i + j) / bCols = i := by
    rw [Nat.add_comm, Nat.add_mul_div_left _ _ (by omega : 0 < bCols), Nat.div_eq_of_lt hj]
    simp
  have hmod : (bCols * i + j) % bCols = j := by
    rw [Nat.add_comm, Nat.add_mul_mod_self_left, Nat.mod_eq_of_lt hj]
  have hcond : bCols * i + j < bCols * aRows ∧
      bCols * i + j < (List.replicate (aRows * bCols) 0).length := by
    rw [List.length_replicate, Nat.mul_comm aRows bCols]
    exact ⟨hlt, hlt⟩
  rw [if_pos hcond, hdiv, hmod]
  have h0 : (List.replicate (aRows * bCols) 0).getD (bCols * i + j) 0 = 0 := by
    simp [List.getD_eq_getElem?_getD, List.getElem?_replicate]
    split <;> simp
  rw [h0, Nat.zero_add, u32]



/-- C7, as amended (matrix multiply reference): for non-empty well-formed matrices `a` (`r x n`)
and `b` (`n x c`) with `r, n, c < 2^31` and at most `2^31` entries in `a`, in `b` and in the
product, `Mul a b` returns the `r x c` matrix whose entry `(i, j)` is the sum over `k < n` of
`a[i,k] * b[k,j]` reduced modulo `2^32`: the `(i, k, j)` accumulation loop computes the textbook
product. A size from `2^31` on is changed by `C.int`, and beyond `2^31` entries an index of the
kernel overflows a C `int`, which is undefined behaviour in C. -/
theorem Mul_reference (a b : Matrix) (ha : a.WellFormed) (hb : b.WellFormed)
    (hab : a.cols = b.rows) (hr : 0 < a.rows) (hn : 0 < a.cols) (hc : 0 < b.cols)
    (hr31 : a.rows < 2147483648) (hn31 : a.cols < 2147483648) (hc31 : b.cols < 2147483648)
    (hrn : a.rows * a.cols ≤ 2147483648) (hnc : a.cols * b.cols ≤ 2147483648)
    (hrc : a.rows * b.cols ≤ 2147483648) :
    ∃ c, Mul a b = .ok c ∧ c.rows = a.rows ∧ c.cols = b.cols ∧
      c.data.length = a.rows * b.cols ∧
      ∀ i j, i < a.rows → j < b.cols →
        c.data.getD (c.cols * i + j) 0 =
          (∑ k in Finset.range a.cols,
            a.data.getD (a.cols * i + k) 0 * b.data.getD (b.cols * k + j) 0) % 4294967296 := by
  obtain ⟨hl, hv⟩ := multiply_zero_spec a.rows a.cols b.cols a.data b.data
  exact ⟨_, Mul_ok_of_length a b ha.1 hb.1 hab hr hn hc hr31 hn31 hc31 hrn hnc hrc, rfl, rfl, hl,
    hv⟩

/-- C7, as amended, at the matrices of scenario S6:
`[[1,2],[3,4]] * [[5,6],[7,8]] = [[19,22],[43,50]]`. -/
theorem Mul_reference_witness :
    Mul ⟨2, 2, [1, 2, 3, 4]⟩ ⟨2, 2, [5, 6, 7, 8]⟩ = .ok ⟨2, 2, [19, 22, 43, 50]⟩ ∧
    ∃ c, Mul ⟨2, 2, [1, 2, 3, 4]⟩ ⟨2, 2, [5, 6, 7, 8]⟩ = .ok c ∧ c.rows = 2 ∧ c.cols = 2 ∧
      c.data.length = 2 * 2 ∧
      ∀ i j, i < 2 → j < 2 →
        c.data.getD (c.cols * i + j) 0 =
          (∑ k in Finset.range 2,
            [1, 2, 3, 4].getD (2 * i + k) 0 * [5, 6, 7, 8].getD (2 * k + j) 0) % 4294967296 :=
  ⟨by decide,
   Mul_reference ⟨2, 2, [1, 2, 3, 4]⟩ ⟨2, 2, [5, 6, 7, 8]⟩ (by decide) (by decide) (by decide)
     (by decide) (by decide) (by decide) (by decide) (by decide) (by decide) (by decide)
     (by decide) (by decide)⟩

/-- C7 fails as stated. `Mul` passes `C.int(a.rows)` to the kernel, so on the well-formed
`2^31 x 1` matrix of ones and the `1 x 1` matrix `[[1]]` the row count of the kernel is `-2^31`,
its loop over the rows does not run, and `Mul` returns the zero matrix: every entry is `0`, where
the sum over `k < 1` of `a[i,k] * b[k,0]` is `1`. -/
theorem Mul_truncates_sizes :
    (Matrix.mk 2147483648 1 (List.replicate 2147483648 1)).WellFormed ∧
    (Matrix.mk 1 1 [1]).WellFormed ∧
    Mul ⟨2147483648, 1, List.replicate 2147483648 1⟩ ⟨1, 1, [1]⟩ = .ok (New 2147483648 1) ∧
    ∀ i, i < 2147483648 →
      (New 2147483648 1).data.getD (1 * i + 0) 0 = 0 ∧
      (∑ k in Finset.range 1,
        (List.replicate 2147483648 1).getD (1 * i + k) 0 * [1].getD (1 * k + 0) 0)
          % 4294967296 = 1 := by
  refine ⟨wellFormed_replicate _ _ _ _ (by decide) (by decide), by decide, ?_, fun i hi => ⟨?_, ?_⟩⟩
  · have hneg : cint ((2147483648 : Nat) : Int) ≤ 0 := by unfold cint; omega
    rw [Mul_returns _ _ (List.length_replicate _ _) (by decide) (by decide) (by decide)
      (by decide) (by decide)]
    rw [multiply_rows_nonpos _ _ _ _ _ _ hneg]
    rfl
  · exact getD_replicate_zero _ _
  · rw [Finset.sum_range_one, Nat.add_zero, Nat.one_mul,
      getD_replicate_of_lt _ _ _ hi]
    rfl

end matrix

namespace server

open matrix

/-- C6, as amended: `LWE.Answer` multiplies with the database on the right. For a non-empty
well-formed database matrix of shape `L x M` with `L, M < 2^31` and at most `2^31` entries, and a
well-formed query that is a `1 x L` matrix, it returns the `1 x M` matrix `q * DB` modulo
`2^32`. A size from `2^31` on is changed by `C.int`, and beyond `2^31` entries an index of the
kernel overflows a C `int`, which is undefined behaviour in C. -/
theorem LWE_Answer_query_times_db (db q : Matrix) (hdb : db.WellFormed) (hq : q.WellFormed)
    (hq1 : q.rows = 1) (hqL : q.cols = db.rows) (hL : 0 < db.rows) (hM : 0 < db.cols)
    (hL31 : db.rows < 2147483648) (hM31 : db.cols < 2147483648)
    (hLM : db.rows * db.cols ≤ 2147483648) :
    ∃ c, LWE.Answer db q = .ok c ∧ c.rows = 1 ∧ c.cols = db.cols ∧ c.data.length = db.cols ∧
      ∀ j, j < db.cols →
        c.data.getD j 0 =
          (∑ k in Finset.range db.rows,
            q.data.getD k 0 * db.data.getD (db.cols * k + j) 0) % 4294967296 := by
  obtain ⟨hl, hv⟩ := multiply_zero_spec q.rows q.cols db.cols q.data db.data
  refine ⟨_, Mul_ok_of_length q db hq.1 hdb.1 hqL (by omega) (by omega) hM (by omega) (by omega)
    hM31 (by rw [hq1, hqL]; omega) (by rw [hqL]; exact hLM) (by rw [hq1]; omega), hq1, rfl, ?_, ?_⟩
  · show (multiplyRef q.rows q.cols db.cols q.data db.data _).length = db.cols
    rw [hl, hq1, Nat.one_mul]
  · intro j hj
    have := hv 0 j (by omega) hj
    simp only [Nat.mul_zero, Nat.zero_add] at this
    rw [← hqL]
    exact this

/-- C6, as amended, at the database `[[1,2],[3,4]]` and the query `[5,6]`:
`[5,6] * [[1,2],[3,4]] = [23,34]`. -/
theorem LWE_Answer_query_times_db_witness :
    LWE.Answer ⟨2, 2, [1, 2, 3, 4]⟩ ⟨1, 2, [5, 6]⟩ = .ok ⟨1, 2, [23, 34]⟩ ∧
    ∃ c, LWE.Answer ⟨2, 2, [1, 2, 3, 4]⟩ ⟨1, 2, [5, 6]⟩ = .ok c ∧ c.rows = 1 ∧ c.cols = 2 ∧
      c.data.length = 2 ∧
      ∀ j, j < 2 →
        c.data.getD j 0 =
          (∑ k in Finset.range 2,
            [5, 6].getD k 0 * [1, 2, 3, 4].getD (2 * k + j) 0) % 4294967296 :=
  ⟨by decide,
   LWE_Answer_query_times_db ⟨2, 2, [1, 2, 3, 4]⟩ ⟨1, 2, [5, 6]⟩ (by decide) (by decide)
     (by decide) (by decide) (by decide) (by decide) (by decide) (by decide) (by decide)⟩

/-- C6 fails as stated. With the `1 x 2` database `[[1,2]]` and the `2 x 1` query `[3,4]` the
product `DB * q` is the `1 x 1` matrix `[11]`, but `LWE.Answer` returns the `2 x 2` matrix
`q * DB`; with the `2 x 1` database `[[1],[2]]` and the `1 x 1` query `[3]` the product `DB * q`
is `[3,6]`, but `LWE.Answer` panics with a dimension mismatch. And the product with the database
on the right is returned only for sizes that fit a C `int`: with the well-formed `1 x 2^31`
database of ones and the `1 x 1` query `[1]` the column count of the kernel is `-2^31`, and
`LWE.Answer` returns the zero matrix, every entry `0` where `q * DB` has `1`. -/
theorem LWE_Answer_not_db_times_query :
    LWE.Answer ⟨1, 2, [1, 2]⟩ ⟨2, 1, [3, 4]⟩ = .ok ⟨2, 2, [3, 6, 4, 8]⟩ ∧
    LWE.Answer ⟨1, 2, [1, 2]⟩ ⟨2, 1, [3, 4]⟩ ≠ .ok ⟨1, 1, [11]⟩ ∧
    LWE.Answer ⟨2, 1, [1, 2]⟩ ⟨1, 1, [3]⟩ = .error .dimensionMismatch ∧
    (Matrix.mk 1 2147483648 (List.replicate 2147483648 1)).WellFormed ∧
    LWE.Answer ⟨1, 2147483648, List.replicate 2147483648 1⟩ ⟨1, 1, [1]⟩
      = .ok (New 1 2147483648) ∧
    ∀ j, j < 2147483648 →
      (New 1 2147483648).data.getD j 0 = 0 ∧
      (∑ k in Finset.range 1,
        [1].getD k 0 * (List.replicate 2147483648 1).getD (2147483648 * k + j) 0)
          % 4294967296 = 1 := by
  refine ⟨by decide, by decide, by decide,
    wellFormed_replicate _ _ _ _ (by decide) (by decide), ?_, fun j hj => ⟨?_, ?_⟩⟩
  · show Mul ⟨1, 1, [1]⟩ ⟨1, 2147483648, List.replicate 2147483648 1⟩ = _
    have hneg : cint ((2147483648 : Nat) : Int) ≤ 0 := by unfold cint; omega
    rw [Mul_returns _ _ (by decide) (List.length_replicate _ _) (by decide) (by decide)
      (by decide) (by decide)]
    rw [multiply_cols_nonpos _ _ _ _ _ _ hneg]
    rfl
  · exact getD_replicate_zero _ _
  · rw [Finset.sum_range_one, Nat.mul_zero, Nat.zero_add,
      getD_replicate_of_lt _ _ _ hj]
    rfl

end server

/-! ## The matrix wire codec -/

namespace matrix


theorem ByteSliceToUint32Slice_Uint32SliceToByteSlice (ws : List Nat)
    (h : ∀ w ∈ ws, w < 4294967296) :
    ByteSliceToUint32Slice (Uint32SliceToByteSlice ws) = ws := by
  induction ws with
  | nil => rfl
  | cons w ws ih =>
    have hw := h w (List.mem_cons_self _ _)
    have ih' := ih (fun x hx => h x (List.mem_cons_of_mem _ hx))
    simp only [Uint32SliceToByteSlice, ByteSliceToUint32Slice, ih']
    congr 1
    omega

theorem Uint32SliceToByteSlice_length (ws : List Nat) :
    (Uint32SliceToByteSlice ws).length = 4 * ws.length := by
  induction ws with
  | nil => rfl
  | cons w ws ih => simp only [Uint32SliceToByteSlice, List.length_cons, ih]; omega

theorem Uint32SliceToByteSlice_getD (ws : List Nat) (i k : Nat) (hi : i < ws.length) (hk : k < 4) :
    (Uint32SliceToByteSlice ws).getD (4 * i + k) 0 = ws.getD i 0 / 256 ^ k % 256 := by
  induction ws generalizing i with
  | nil => simp at hi
  | cons w ws ih =>
    cases i with
    | zero =>
      have : k = 0 ∨ k = 1 ∨ k = 2 ∨ k = 3 := by omega
      rcases this with h | h | h | h <;> subst h <;> simp [Uint32SliceToByteSlice]
    | succ i =>
      have hi' : i < ws.length := by simpa using hi
      have e : 4 * (i + 1) + k = (4 * i + k) + 1 + 1 + 1 + 1 := by omega
      rw [e]
      simp only [Uint32SliceToByteSlice, List.getD_cons_succ]
      exact ih i hi'

theorem MatrixToBytes_eq (m : Matrix) :
    MatrixToBytes m =
      u32 m.rows / 16777216 % 256 :: u32 m.rows / 65536 % 256 :: u32 m.rows / 256 % 256
        :: u32 m.rows % 256
        :: u32 m.cols / 16777216 % 256 :: u32 m.cols / 65536 % 256 :: u32 m.cols / 256 % 256
        :: u32 m.cols % 256 :: Uint32SliceToByteSlice m.data := by
  simp [MatrixToBytes, PutUint32BE]

theorem MatrixToBytes_length (m : Matrix) : (MatrixToBytes m).length = 8 + 4 * m.data.length := by
  rw [MatrixToBytes_eq]
  simp only [List.length_cons, Uint32SliceToByteSlice_length]
  omega

/-- C8 -/
theorem BytesToMatrix_MatrixToBytes (m : Matrix) (hr : m.rows < 4294967296)
    (hc : m.cols < 4294967296) (hd : ∀ w ∈ m.data, w < 4294967296) :
    BytesToMatrix (MatrixToBytes m) = .ok m := by
  have hlen : ¬ (MatrixToBytes m).length < 8 := by rw [MatrixToBytes_length]; omega
  rw [BytesToMatrix, if_neg hlen, MatrixToBytes_eq]
  simp only [List.take_succ_cons, List.take_zero, List.drop_succ_cons, List.drop_zero, Uint32BE,
    List.getD_cons_zero, List.getD_cons_succ, ByteSliceToUint32Slice_Uint32SliceToByteSlice _ hd]
  have e1 : u32 m.rows / 16777216 % 256 * 16777216 + u32 m.rows / 65536 % 256 * 65536
      + u32 m.rows / 256 % 256 * 256 + u32 m.rows % 256 = m.rows := by
    unfold u32; omega
  have e2 : u32 m.cols / 16777216 % 256 * 16777216 + u32 m.cols / 65536 % 256 * 65536
      + u32 m.cols / 256 % 256 * 256 + u32 m.cols % 256 = m.cols := by
    unfold u32; omega
  rw [e1, e2]

theorem BytesToMatrix_MatrixToBytes_witness :
    BytesToMatrix (MatrixToBytes ⟨2, 3, [1, 2, 4294967295, 65536, 0, 77]⟩)
      = .ok ⟨2, 3, [1, 2, 4294967295, 65536, 0, 77]⟩ :=
  BytesToMatrix_MatrixToBytes ⟨2, 3, [1, 2, 4294967295, 65536, 0, 77]⟩ (by decide) (by decide)
    (by decide)

/-- C9 -/
theorem MatrixToBytes_format (m : Matrix) :
    (MatrixToBytes m).length = 8 + 4 * m.data.length ∧
    (∀ k, k < 4 → (MatrixToBytes m).getD k 0 = m.rows % 4294967296 / 256 ^ (3 - k) % 256) ∧
    (∀ k, k < 4 → (MatrixToBytes m).getD (4 + k) 0 = m.cols % 4294967296 / 256 ^ (3 - k) % 256) ∧
    (∀ i k, i < m.data.length → k < 4 →
      (MatrixToBytes m).getD (8 + 4 * i + k) 0 = m.data.getD i 0 / 256 ^ k % 256) := by
  refine ⟨MatrixToBytes_length m, ?_, ?_, ?_⟩
  · intro k hk
    rw [MatrixToBytes_eq]
    have : k = 0 ∨ k = 1 ∨ k = 2 ∨ k = 3 := by omega
    rcases this with h | h | h | h <;> subst h <;> simp [u32]
  · intro k hk
    rw [MatrixToBytes_eq]
    have : k = 0 ∨ k = 1 ∨ k = 2 ∨ k = 3 := by omega
    rcases this with h | h | h | h <;> subst h <;> simp [u32]
  · intro i k hi hk
    rw [MatrixToBytes_eq]
    have e : 8 + 4 * i + k = (4 * i + k) + 1 + 1 + 1 + 1 + 1 + 1 + 1 + 1 := by omega
    rw [e]
    simp only [List.getD_cons_succ]
    exact Uint32SliceToByteSlice_getD m.data i k hi hk



theorem copyAt_append_replicate {α : Type} (z : α) (pre src : List α) (k : Nat)
    (h : src.length ≤ k) :
    copyAt (pre ++ List.replicate k z) pre.length src
      = pre ++ src ++ List.replicate (k - src.length) z := by
  unfold copyAt
  have e1 : (pre ++ List.replicate k z).take pre.length = pre := by
    rw [List.take_append_of_le_length (Nat.le_refl _), List.take_length]
  have e2 : src.take ((pre ++ List.replicate k z).length - pre.length) = src := by
    apply List.take_of_length_le
    simp only [List.length_append, List.length_replicate]
    omega
  have e3 : (pre ++ List.replicate k z).drop (pre.length + src.length)
      = List.replicate (k - src.length) z := by
    rw [List.drop_append]
    simp
  rw [e1, e2, e3]

theorem sameShape_iff (first : Matrix) (ms : List Matrix) :
    sameShape first ms = true ↔ ∀ m ∈ ms, m.rows = first.rows ∧ m.cols = first.cols := by
  unfold sameShape
  rw [List.all_eq_true]
  constructor
  · intro h m hm
    have := h m hm
    simp only [Bool.and_eq_true, beq_iff_eq] at this
    exact ⟨this.1.symm, this.2.symm⟩
  · intro h m hm
    have := h m hm
    simp only [Bool.and_eq_true, beq_iff_eq]
    exact ⟨this.1.symm, this.2.symm⟩

theorem MatricesToBytes_fold (first : Matrix) (rest : List Matrix) (L : Nat) (pre : List Nat)
    (hL : ∀ m ∈ rest, (MatrixToBytes m).length = L) (hpre : pre.length = 4 + L) (t : Nat)
    (ht : t ≤ rest.length) :
    (List.range t).foldl (fun out i =>
        copyAt out (4 + L * (i + 1)) (MatrixToBytes ((first :: rest).getD (i + 1) first)))
      (pre ++ List.replicate (L * rest.length) 0)
    = pre ++ ((rest.take t).map MatrixToBytes).flatten ++ List.replicate (L * (rest.length - t)) 0 := by
  induction t with
  | zero => simp
  | succ t ih =>
    have ih' := ih (by omega)
    rw [List.range_succ, List.foldl_append, ih']
    simp only [List.foldl_cons, List.foldl_nil, List.getD_cons_succ]
    have hlt : t < rest.length := by omega
    have hget : rest.getD t first = rest[t] := by
      simp [List.getD_eq_getElem?_getD, List.getElem?_eq_getElem hlt]
    have hmem : rest[t] ∈ rest := List.getElem_mem hlt
    have hjl : (((rest.take t).map MatrixToBytes).flatten).length = L * t := by
      have : ∀ (l : List Matrix), (∀ m ∈ l, (MatrixToBytes m).length = L) →
          ((l.map MatrixToBytes).flatten).length = L * l.length := by
        intro l hl
        induction l with
        | nil => simp
        | cons x xs ihx =>
          simp only [List.map_cons, List.flatten_cons, List.length_append, List.length_cons]
          rw [hl x (List.mem_cons_self _ _), ihx (fun m hm => hl m (List.mem_cons_of_mem _ hm)),
            Nat.mul_succ]
          omega
      rw [this _ (fun m hm => hL m (List.mem_of_mem_take hm)), List.length_take,
        Nat.min_eq_left (by omega)]
    have hoff : 4 + L * (t + 1) = (pre ++ ((rest.take t).map MatrixToBytes).flatten).length := by
      rw [List.length_append, hjl, hpre, Nat.mul_succ]; omega
    have hk : (MatrixToBytes rest[t]).length ≤ L * (rest.length - t) := by
      rw [hL _ hmem]
      calc L = L * 1 := by omega
        _ ≤ L * (rest.length - t) := Nat.mul_le_mul_left _ (by omega)
    rw [hget, hoff, copyAt_append_replicate 0 _ _ _ hk, hL _ hmem]
    have e : L * (rest.length - t) - L = L * (rest.length - (t + 1)) := by
      have : rest.length - t = (rest.length - (t + 1)) + 1 := by omega
      rw [this, Nat.mul_succ]; omega
    rw [e, List.take_succ, List.getElem?_eq_getElem hlt]
    simp only [Option.toList_some, List.map_append, List.map_cons, List.map_nil,
      List.flatten_append, List.flatten_cons, List.flatten_nil, List.append_nil,
      List.append_assoc]

/-- C10 -/
theorem MatricesToBytes_format (first : Matrix) (rest : List Matrix) :
    ((∀ m ∈ first :: rest, m.WellFormed) →
      (∀ m ∈ rest, m.rows = first.rows ∧ m.cols = first.cols) →
      MatricesToBytes (first :: rest)
        = .ok (PutUint32BE (u32 (MatrixToBytes first).length)
            ++ ((first :: rest).map MatrixToBytes).flatten) ∧
      (PutUint32BE (u32 (MatrixToBytes first).length)
            ++ ((first :: rest).map MatrixToBytes).flatten).length
        = 4 + (MatrixToBytes first).length * (first :: rest).length) ∧
    ((∃ m ∈ rest, m.rows ≠ first.rows ∨ m.cols ≠ first.cols) →
      MatricesToBytes (first :: rest) = .error .dimensionMismatch) := by
  constructor
  · intro hwf hshape
    have hss : ¬ (sameShape first (first :: rest) = false) := by
      rw [Bool.not_eq_false, sameShape_iff]
      intro m hm
      rcases List.mem_cons.1 hm with h | h
      · subst h; exact ⟨rfl, rfl⟩
      · exact hshape m h
    have hL : ∀ m ∈ rest, (MatrixToBytes m).length = (MatrixToBytes first).length := by
      intro m hm
      rw [MatrixToBytes_length, MatrixToBytes_length,
        (hwf m (List.mem_cons_of_mem _ hm)).1, (hwf first (List.mem_cons_self _ _)).1,
        (hshape m hm).1, (hshape m hm).2]
    have hres : MatricesToBytes (first :: rest)
        = .ok (PutUint32BE (u32 (MatrixToBytes first).length)
            ++ ((first :: rest).map MatrixToBytes).flatten) := by
      simp only [MatricesToBytes, if_neg hss, List.length_cons, Nat.add_sub_cancel]
      have e0 : List.replicate (4 + (MatrixToBytes first).length * (rest.length + 1)) 0
          = ([] : List Nat) ++ List.replicate (4 + (MatrixToBytes first).length * (rest.length + 1)) 0 := by
        simp
      have h1 : copyAt (List.replicate (4 + (MatrixToBytes first).length * (rest.length + 1)) 0) 0
            (PutUint32BE (u32 (MatrixToBytes first).length))
          = PutUint32BE (u32 (MatrixToBytes first).length)
            ++ List.replicate ((MatrixToBytes first).length * (rest.length + 1)) 0 := by
        have := copyAt_append_replicate 0 ([] : List Nat)
          (PutUint32BE (u32 (MatrixToBytes first).length))
          (4 + (MatrixToBytes first).length * (rest.length + 1)) (by simp [PutUint32BE])
        simp only [List.length_nil, List.nil_append] at this
        rw [this]
        congr 1
        simp [PutUint32BE]
      have h2 : copyAt (PutUint32BE (u32 (MatrixToBytes first).length)
            ++ List.replicate ((MatrixToBytes first).length * (rest.length + 1)) 0) 4
            (MatrixToBytes first)
          = (PutUint32BE (u32 (MatrixToBytes first).length) ++ MatrixToBytes first)
            ++ List.replicate ((MatrixToBytes first).length * rest.length) 0 := by
        have := copyAt_append_replicate 0 (PutUint32BE (u32 (MatrixToBytes first).length))
          (MatrixToBytes first) ((MatrixToBytes first).length * (rest.length + 1))
          (by rw [Nat.mul_succ]; omega)
        have hl4 : (PutUint32BE (u32 (MatrixToBytes first).length)).length = 4 := by
          simp [PutUint32BE]
        have e : (MatrixToBytes first).length * (rest.length + 1) - (MatrixToBytes first).length
            = (MatrixToBytes first).length * rest.length := by
          rw [Nat.mul_succ]; omega
        rw [hl4, e] at this
        exact this
      rw [h1, h2]
      have := MatricesToBytes_fold first rest (MatrixToBytes first).length
        (PutUint32BE (u32 (MatrixToBytes first).length) ++ MatrixToBytes first) hL
        (by simp [PutUint32BE]; omega) rest.length (Nat.le_refl _)
      rw [this]
      simp
    refine ⟨hres, ?_⟩
    have : ∀ (l : List Matrix), (∀ m ∈ l, (MatrixToBytes m).length = (MatrixToBytes first).length) →
        ((l.map MatrixToBytes).flatten).length = (MatrixToBytes first).length * l.length := by
      intro l hl
      induction l with
      | nil => simp
      | cons x xs ihx =>
        simp only [List.map_cons, List.flatten_cons, List.length_append, List.length_cons]
        rw [hl x (List.mem_cons_self _ _), ihx (fun m hm => hl m (List.mem_cons_of_mem _ hm)),
          Nat.mul_succ]
        omega
    rw [List.length_append, this _ (by
      intro m hm
      rcases List.mem_cons.1 hm with h | h
      · subst h; rfl
      · exact hL m h)]
    simp [PutUint32BE]
  · rintro ⟨m, hm, hne⟩
    have hss : sameShape first (first :: rest) = false := by
      rw [← Bool.not_eq_true, sameShape_iff]
      intro h
      have := h m (List.mem_cons_of_mem _ hm)
      rcases hne with h1 | h1
      · exact h1 this.1
      · exact h1 this.2
    simp only [MatricesToBytes, if_pos hss]

theorem MatricesToBytes_format_witness :
    MatricesToBytes [⟨1, 2, [1, 2]⟩, ⟨1, 2, [3, 4]⟩]
      = .ok [0, 0, 0, 16, 0, 0, 0, 1, 0, 0, 0, 2, 1, 0, 0, 0, 2, 0, 0, 0,
             0, 0, 0, 1, 0, 0, 0, 2, 3, 0, 0, 0, 4, 0, 0, 0] ∧
    MatricesToBytes [⟨1, 2, [1, 2]⟩, ⟨2, 1, [3, 4]⟩] = .error .dimensionMismatch :=
  ⟨((MatricesToBytes_format ⟨1, 2, [1, 2]⟩ [⟨1, 2, [3, 4]⟩]).1 (by decide) (by decide)).1,
   (MatricesToBytes_format ⟨1, 2, [1, 2]⟩ [⟨2, 1, [3, 4]⟩]).2 (by decide)⟩


end matrix

/-! ## The answer engine: `multiplyAndTag` -/

namespace benchmark

theorem foldlM_ok {α β : Type} (f : β → α → Except Panic β) (g : β → α → β) (l : List α)
    (init : β) (h : ∀ x ∈ l, ∀ acc, f acc x = .ok (g acc x)) :
    l.foldlM f init = .ok (l.foldl g init) := by
  induction l generalizing init with
  | nil => rfl
  | cons x xs ih =>
    rw [List.foldlM_cons, h x (List.mem_cons_self _ _)]
    exact ih _ (fun y hy => h y (List.mem_cons_of_mem _ hy))

theorem map_range_set {F : Type} (n m : Nat) (f : Nat → F) (v : F) :
    ((List.range n).map f).set m v = (List.range n).map (fun b => if b = m then v else f b) := by
  apply List.ext_getElem?
  intro i
  rw [List.getElem?_set]
  by_cases hi : i < n
  · simp only [List.getElem?_map, List.getElem?_range hi, Option.map_some', List.length_map,
      List.length_range]
    by_cases hmi : m = i
    · subst hmi; simp [hi]
    · have : ¬ (i = m) := fun h => hmi h.symm
      simp [hmi, this]
  · have h1 : ((List.range n).map f)[i]? = none := by
      apply List.getElem?_eq_none; simp; omega
    have h2 : ((List.range n).map (fun b => if b = m then v else f b))[i]? = none := by
      apply List.getElem?_eq_none; simp; omega
    rw [h1, h2]
    split
    · simp only [List.length_map, List.length_range]
      split
      · omega
      · rfl
    · rfl

theorem getD_map_range {F : Type} [Zero F] (n b : Nat) (f : Nat → F) (hb : b < n) :
    ((List.range n).map f).getD b 0 = f b := by
  simp [List.getD_eq_getElem?_getD, List.getElem?_range hb]

theorem getD_eq_getElem {F : Type} [Zero F] (l : List F) (i : Nat) (h : i < l.length) :
    l.getD i 0 = l[i] := by
  simp [List.getD_eq_getElem?_getD, List.getElem?_eq_getElem h]

theorem set_getD_self {F : Type} [Zero F] (l : List F) (i : Nat) :
    l.set i (l.getD i 0) = l := by
  apply List.ext_getElem?
  intro k
  rw [List.getElem?_set]
  split
  · rename_i h
    subst h
    split
    · rename_i h2
      rw [getD_eq_getElem l i h2, List.getElem?_eq_getElem h2]
    · rename_i h2
      rw [List.getElem?_eq_none (by omega)]
  · rfl

variable {F : Type} [CommRing F] [DecidableEq F]

/-- The body of the inner loop of `multiplyAndTag`, for indices inside `elements` and `q`. -/
theorem tagStep_ok (elements q : List F) (bl j b : Nat) (acc : List F × F)
    (he : j * bl + b < elements.length) (hq : j * (bl + 1) + 1 + b < q.length) :
    tagStep elements bl q j acc b
      = .ok (acc.1.set b (acc.1.getD b 0
              + elements.getD (j * bl + b) 0 * q.getD (j * (bl + 1)) 0),
             acc.2 + elements.getD (j * bl + b) 0 * q.getD (j * (bl + 1) + 1 + b) 0) := by
  have hqa : j * (bl + 1) < q.length := by omega
  rw [getD_eq_getElem _ _ he, getD_eq_getElem _ _ hq, getD_eq_getElem _ _ hqa]
  simp only [tagStep, List.getElem?_eq_getElem he, List.getElem?_eq_getElem hq,
    List.getElem?_eq_getElem hqa]
  by_cases hz : elements[j * bl + b] = 0
  · rw [if_pos hz, hz]
    simp only [zero_mul, add_zero, set_getD_self]
  · rw [if_neg hz]

/-- The inner loop of `multiplyAndTag` over the positions of block `j`. -/
theorem multiplyAndTag_inner (elements q : List F) (bl j : Nat) (S : Nat → F) (T : F)
    (he : (j + 1) * bl ≤ elements.length) (hq : (j + 1) * (bl + 1) ≤ q.length) (m : Nat)
    (hm : m ≤ bl) :
    (List.range m).foldlM (tagStep elements bl q j) ((List.range bl).map S, T)
      = .ok ((List.range bl).map (fun b =>
              if b < m then S b + elements.getD (j * bl + b) 0 * q.getD (j * (bl + 1)) 0
              else S b),
             T + ∑ b in Finset.range m,
              elements.getD (j * bl + b) 0 * q.getD (j * (bl + 1) + 1 + b) 0) := by
  induction m with
  | zero => simp [pure, Except.pure]
  | succ m ih =>
    have hmb : m < bl := by omega
    have hei : j * bl + m < elements.length := by
      have : (j + 1) * bl = j * bl + bl := by ring
      omega
    have hqt : j * (bl + 1) + 1 + m < q.length := by
      have : (j + 1) * (bl + 1) = j * (bl + 1) + bl + 1 := by ring
      omega
    rw [List.range_succ, List.foldlM_append, ih (by omega)]
    simp only [bind, Except.bind, List.foldlM_cons, List.foldlM_nil, pure, Except.pure]
    rw [tagStep_ok _ _ _ _ _ _ hei hqt]
    simp only [map_range_set, getD_map_range _ _ _ hmb, Finset.sum_range_succ, add_assoc]
    congr 2
    apply List.map_congr_left
    intro b _
    by_cases h2 : b = m
    · subst h2; simp
    · by_cases h1 : b < m
      · have : b < m + 1 := by omega
        simp [h1, this, h2]
      · have : ¬ b < m + 1 := by omega
        simp [h1, this, h2]



/-- The outer loop of `multiplyAndTag` over the first `n` blocks. -/
theorem multiplyAndTag_outer (elements q : List F) (bl : Nat) (n : Nat)
    (he : n * bl ≤ elements.length) (hq : n * (bl + 1) ≤ q.length) :
    (List.range n).foldlM (fun acc j =>
        (List.range bl).foldlM (tagStep elements bl q j) acc)
        (List.replicate bl (0 : F), (0 : F))
      = .ok ((List.range bl).map (fun b =>
              ∑ j in Finset.range n, elements.getD (j * bl + b) 0 * q.getD (j * (bl + 1)) 0),
             ∑ j in Finset.range n, ∑ b in Finset.range bl,
              elements.getD (j * bl + b) 0 * q.getD (j * (bl + 1) + 1 + b) 0) := by
  induction n with
  | zero =>
    simp only [List.range_zero, List.foldlM_nil, Finset.range_zero, Finset.sum_empty, pure,
      Except.pure]
    congr 2
    rw [List.map_const', List.length_range]
  | succ n ih =>
    have he' : n * bl ≤ elements.length := by
      have : (n + 1) * bl = n * bl + bl := by ring
      omega
    have hq' : n * (bl + 1) ≤ q.length := by
      have : (n + 1) * (bl + 1) = n * (bl + 1) + bl + 1 := by ring
      omega
    rw [List.range_succ, List.foldlM_append, ih he' hq']
    simp only [bind, Except.bind, List.foldlM_cons, List.foldlM_nil, pure, Except.pure]
    rw [multiplyAndTag_inner elements q bl n _ _ he hq bl (Nat.le_refl _)]
    simp only [Finset.sum_range_succ]
    congr 2
    apply List.map_congr_left
    intro b hb
    have : b < bl := by simpa using hb
    simp [this]

/-- `multiplyAndTag` on `k` whole blocks and a query that covers them returns the reference
reply. -/
theorem multiplyAndTag_ok (elements q : List F) (bl k : Nat) (hbl : 0 < bl)
    (he : elements.length = k * bl) (hq : k * (bl + 1) ≤ q.length) :
    multiplyAndTag elements bl q = .ok (blockSums elements bl q 0 k) := by
  have hk : elements.length / bl = k := by rw [he]; exact Nat.mul_div_cancel _ hbl
  unfold multiplyAndTag
  rw [if_neg (by omega), hk, multiplyAndTag_outer elements q bl k (by omega) hq]
  simp only [blockSums, Finset.range_eq_Ico]

theorem getD_take_drop {α : Type} (l : List α) (a n i : Nat) (d : α) (hi : i < n) :
    ((l.drop a).take n).getD i d = l.getD (a + i) d := by
  simp only [List.getD_eq_getElem?_getD, List.getElem?_take, hi, if_true, List.getElem?_drop]

omit [DecidableEq F] in
theorem blockSums_slice (elements q : List F) (bl lo s n m : Nat) (hn : s * bl ≤ n)
    (hm : s * (bl + 1) ≤ m) :
    blockSums ((elements.drop (lo * bl)).take n) bl ((q.drop (lo * (bl + 1))).take m) 0 s
      = blockSums elements bl q lo (lo + s) := by
  have key : ∀ j b, j < s → b < bl →
      ((elements.drop (lo * bl)).take n).getD (j * bl + b) 0
        = elements.getD ((j + lo) * bl + b) 0 := by
    intro j b hj hb
    rw [getD_take_drop]
    · congr 1; ring
    · calc j * bl + b < j * bl + bl := by omega
        _ = (j + 1) * bl := by ring
        _ ≤ s * bl := Nat.mul_le_mul_right _ hj
        _ ≤ n := hn
  have keyq : ∀ j c, j < s → c < bl + 1 →
      ((q.drop (lo * (bl + 1))).take m).getD (j * (bl + 1) + c) 0
        = q.getD ((j + lo) * (bl + 1) + c) 0 := by
    intro j c hj hc
    rw [getD_take_drop]
    · congr 1; ring
    · calc j * (bl + 1) + c < j * (bl + 1) + (bl + 1) := by omega
        _ = (j + 1) * (bl + 1) := by ring
        _ ≤ s * (bl + 1) := Nat.mul_le_mul_right _ hj
        _ ≤ m := hm
  unfold blockSums
  congr 1
  · apply List.map_congr_left
    intro b hb
    have hb' : b < bl := by simpa using hb
    have := Finset.sum_Ico_add' (fun j => elements.getD (j * bl + b) 0 * q.getD (j * (bl + 1)) 0)
      0 s lo
    rw [Nat.zero_add, Nat.add_comm s lo] at this
    rw [← this]
    apply Finset.sum_congr rfl
    intro j hj
    have hj' : j < s := by simpa using hj
    rw [key j b hj' hb']
    have := keyq j 0 hj' (by omega)
    simp only [Nat.add_zero] at this
    rw [this]
  · congr 1
    have := Finset.sum_Ico_add' (fun j => ∑ b in Finset.range bl,
      elements.getD (j * bl + b) 0 * q.getD (j * (bl + 1) + 1 + b) 0) 0 s lo
    rw [Nat.zero_add, Nat.add_comm s lo] at this
    rw [← this]
    apply Finset.sum_congr rfl
    intro j hj
    have hj' : j < s := by simpa using hj
    apply Finset.sum_congr rfl
    intro b hb
    have hb' : b < bl := by simpa using hb
    rw [key j b hj' hb']
    have := keyq j (1 + b) hj' (by omega)
    rw [← Nat.add_assoc, ← Nat.add_assoc] at this
    rw [this]


end benchmark

/-! ## The answer engine: the reference reply and claim C2 -/

namespace benchmark

variable {F : Type} [CommRing F] [DecidableEq F]

omit [DecidableEq F] in
theorem blockSums_length (elements q : List F) (bl lo hi : Nat) :
    (blockSums elements bl q lo hi).length = bl + 1 := by
  simp [blockSums]

omit [DecidableEq F] in
theorem blockSums_getD_lt (elements q : List F) (bl lo hi b : Nat) (hb : b < bl) :
    (blockSums elements bl q lo hi).getD b 0
      = ∑ j in Finset.Ico lo hi, elements.getD (j * bl + b) 0 * q.getD (j * (bl + 1)) 0 := by
  unfold blockSums
  rw [List.getD_append _ _ _ _ (by simpa using hb)]
  exact getD_map_range bl b _ hb

omit [DecidableEq F] in
theorem blockSums_getD_last (elements q : List F) (bl lo hi : Nat) :
    (blockSums elements bl q lo hi).getD bl 0
      = ∑ j in Finset.Ico lo hi, ∑ b in Finset.range bl,
          elements.getD (j * bl + b) 0 * q.getD (j * (bl + 1) + 1 + b) 0 := by
  unfold blockSums
  rw [List.getD_append_right _ _ _ _ (by simp)]
  simp

omit [DecidableEq F] in
theorem blockSums_empty (elements q : List F) (bl lo : Nat) :
    blockSums elements bl q lo lo = List.replicate (bl + 1) 0 := by
  simp only [blockSums, Finset.Ico_self, Finset.sum_empty, List.map_const', List.length_range]
  rw [List.replicate_succ']

theorem zipWith_same {α β : Type} (f : α → α → β) (l : List α) :
    List.zipWith f l l = l.map (fun x => f x x) := by
  induction l with
  | nil => rfl
  | cons x xs ih => simp [ih]

omit [DecidableEq F] in
theorem zipWith_blockSums (elements q : List F) (bl lo mid hi : Nat) (h1 : lo ≤ mid)
    (h2 : mid ≤ hi) :
    List.zipWith (fun x y => x + y) (blockSums elements bl q lo mid)
        (blockSums elements bl q mid hi)
      = blockSums elements bl q lo hi := by
  unfold blockSums
  rw [List.zipWith_append _ _ _ _ _ (by simp)]
  congr 1
  · rw [List.zipWith_map, zipWith_same]
    apply List.map_congr_left
    intro b _
    exact Finset.sum_Ico_consecutive _ h1 h2
  · simp only [List.zipWith_cons_cons, List.zipWith_nil_right]
    congr 1
    exact Finset.sum_Ico_consecutive _ h1 h2

omit [DecidableEq F] in
theorem addReply_blockSums (elements q : List F) (bl lo mid hi : Nat) (h1 : lo ≤ mid)
    (h2 : mid ≤ hi) :
    addReply (blockSums elements bl q lo mid) (blockSums elements bl q mid hi)
      = .ok (blockSums elements bl q lo hi) := by
  unfold addReply
  rw [if_pos (by simp [blockSums_length]), zipWith_blockSums _ _ _ _ _ _ h1 h2]
  congr 1
  rw [List.drop_of_length_le (by simp [blockSums_length])]
  simp

/-- C2 (`multiplyAndTag` reference semantics): for `blockLen >= 1`, elements of length
`k * blockLen` and a query of length `k * (blockLen + 1)`, `multiplyAndTag` returns a vector of
length `blockLen + 1` whose entry `b < blockLen` is the sum over the blocks `j < k` of
`elements[j*blockLen+b] * q[j*(blockLen+1)]` and whose last entry is the sum over `j < k` and
`b < blockLen` of `elements[j*blockLen+b] * q[j*(blockLen+1)+1+b]`. -/
theorem multiplyAndTag_reference (elements q : List F) (blockLen k : Nat) (hbl : 1 ≤ blockLen)
    (he : elements.length = k * blockLen) (hq : q.length = k * (blockLen + 1)) :
    ∃ v, multiplyAndTag elements blockLen q = .ok v ∧ v.length = blockLen + 1 ∧
      (∀ b, b < blockLen →
        v.getD b 0 = ∑ j in Finset.range k,
          elements.getD (j * blockLen + b) 0 * q.getD (j * (blockLen + 1)) 0) ∧
      v.getD blockLen 0 = ∑ j in Finset.range k, ∑ b in Finset.range blockLen,
          elements.getD (j * blockLen + b) 0 * q.getD (j * (blockLen + 1) + 1 + b) 0 := by
  refine ⟨_, multiplyAndTag_ok elements q blockLen k hbl he (by omega), blockSums_length _ _ _ _ _,
    fun b hb => ?_, ?_⟩
  · rw [blockSums_getD_lt _ _ _ _ _ _ hb, Finset.range_eq_Ico]
  · rw [blockSums_getD_last, Finset.range_eq_Ico]

/-- C2 at the row of scenario S1, blocks `[1,2][3,4][5,6][7,8]`, with a query that selects block
`2` and tags it with `(10, 100)`: the reply is `[5, 6, 5*10 + 6*100]`. -/
theorem multiplyAndTag_reference_witness :
    multiplyAndTag ([1, 2, 3, 4, 5, 6, 7, 8] : List (ZMod 2147483647)) 2
        [0, 0, 0, 0, 0, 0, 1, 10, 100, 0, 0, 0] = .ok [5, 6, 650] ∧
    ∃ v, multiplyAndTag ([1, 2, 3, 4, 5, 6, 7, 8] : List (ZMod 2147483647)) 2
        [0, 0, 0, 0, 0, 0, 1, 10, 100, 0, 0, 0] = .ok v ∧ v.length = 2 + 1 ∧
      (∀ b, b < 2 →
        v.getD b 0 = ∑ j in Finset.range 4,
          ([1, 2, 3, 4, 5, 6, 7, 8] : List (ZMod 2147483647)).getD (j * 2 + b) 0
            * ([0, 0, 0, 0, 0, 0, 1, 10, 100, 0, 0, 0] : List (ZMod 2147483647)).getD
                (j * (2 + 1)) 0) ∧
      v.getD 2 0 = ∑ j in Finset.range 4, ∑ b in Finset.range 2,
          ([1, 2, 3, 4, 5, 6, 7, 8] : List (ZMod 2147483647)).getD (j * 2 + b) 0
            * ([0, 0, 0, 0, 0, 0, 1, 10, 100, 0, 0, 0] : List (ZMod 2147483647)).getD
                (j * (2 + 1) + 1 + b) 0 :=
  ⟨by decide,
   multiplyAndTag_reference _ _ 2 4 (by decide) (by decide) (by decide)⟩

end benchmark

/-! ## The answer engine: the column-split branch -/

namespace benchmark

variable {F : Type} [CommRing F] [DecidableEq F]

theorem slice_ok {α : Type} (s : List α) (lo hi : Nat) (h1 : lo ≤ hi) (h2 : hi ≤ s.length) :
    slice s lo hi = .ok ((s.drop lo).take (hi - lo)) := by
  unfold slice
  rw [if_pos ⟨h1, h2⟩]

theorem computeChunkIndices_eq (ind step max mult : Nat) :
    computeChunkIndices ind step max mult
      = (if ind + step > max then max - ind else step, ind * mult,
         (ind + (if ind + step > max then max - ind else step)) * mult) := rfl

/-- One chunk of columns through `multiplyAndTag`: the reference reply of its columns. -/
theorem multiplyAndTag_chunk (elements q : List F) (bl lo s : Nat) (hbl : 0 < bl)
    (he : (lo + s) * bl ≤ elements.length) (hq : (lo + s) * (bl + 1) ≤ q.length) :
    multiplyAndTag ((elements.drop (lo * bl)).take ((lo + s) * bl - lo * bl)) bl
        ((q.drop (lo * (bl + 1))).take ((lo + s) * (bl + 1) - lo * (bl + 1)))
      = .ok (blockSums elements bl q lo (lo + s)) := by
  have e1 : (lo + s) * bl - lo * bl = s * bl := by
    rw [Nat.add_mul]; omega
  have e2 : (lo + s) * (bl + 1) - lo * (bl + 1) = s * (bl + 1) := by
    rw [Nat.add_mul]; omega
  rw [e1, e2]
  have hl : ((elements.drop (lo * bl)).take (s * bl)).length = s * bl := by
    rw [List.length_take, List.length_drop]
    have : (lo + s) * bl = lo * bl + s * bl := by ring
    omega
  have hlq : s * (bl + 1) ≤ ((q.drop (lo * (bl + 1))).take (s * (bl + 1))).length := by
    rw [List.length_take, List.length_drop]
    have : (lo + s) * (bl + 1) = lo * (bl + 1) + s * (bl + 1) := by ring
    omega
  rw [multiplyAndTag_ok _ _ bl s hbl hl hlq, blockSums_slice _ _ _ _ _ _ _ (Nat.le_refl _)
    (Nat.le_refl _)]

/-- The column loop of `answer` from column `j` on, for a single row that satisfies the layout
invariant: the replies of the chunks add up to the reference reply of the row. -/
theorem columnChunks_ok (db : DB F) (q : List F) (hbs : 0 < db.BlockSize)
    (he : db.Entries.length = db.NumColumns * db.BlockSize)
    (hq : q.length = db.NumColumns * (db.BlockSize + 1)) (fuel : Nat) :
    ∀ j step, j ≤ db.NumColumns → db.NumColumns - j ≤ fuel → (j < db.NumColumns → 1 ≤ step) →
      ∃ replies, columnChunks db q fuel j step = .ok replies ∧
        replies.foldlM addReply (blockSums db.Entries db.BlockSize q 0 j)
          = .ok (blockSums db.Entries db.BlockSize q 0 db.NumColumns) := by
  induction fuel with
  | zero =>
    intro j step hj hf _
    have : j = db.NumColumns := by omega
    subst this
    refine ⟨[], ?_, rfl⟩
    simp [columnChunks]
  | succ fuel ih =>
    intro j step hj hf hstep
    by_cases hlt : j < db.NumColumns
    · have hs := hstep hlt
      obtain ⟨s, hsdef⟩ : ∃ s, s = (if j + step > db.NumColumns then db.NumColumns - j else step) :=
        ⟨_, rfl⟩
      have hs1 : 1 ≤ s := by rw [hsdef]; split <;> omega
      have hs2 : j + s ≤ db.NumColumns := by rw [hsdef]; split <;> omega
      have hE : (j + s) * db.BlockSize ≤ db.Entries.length := by
        rw [he]; exact Nat.mul_le_mul_right _ hs2
      have hQ : (j + s) * (db.BlockSize + 1) ≤ q.length := by
        rw [hq]; exact Nat.mul_le_mul_right _ hs2
      obtain ⟨rest, hrest, hfold⟩ := ih (j + s) s hs2 (by omega) (fun _ => hs1)
      refine ⟨blockSums db.Entries db.BlockSize q j (j + s) :: rest, ?_, ?_⟩
      · rw [columnChunks, if_pos hlt, computeChunkIndices_eq]
        simp only [← hsdef]
        rw [slice_ok _ _ _ (Nat.mul_le_mul_right _ (by omega)) hE,
          slice_ok _ _ _ (Nat.mul_le_mul_right _ (by omega)) hQ]
        simp only [bind, Except.bind, processRowChunk]
        rw [multiplyAndTag_chunk _ _ _ _ _ hbs hE hQ]
        simp only [hrest]
      · rw [List.foldlM_cons, addReply_blockSums _ _ _ _ _ _ (Nat.zero_le _) (by omega)]
        exact hfold
    · have : j = db.NumColumns := by omega
      subst this
      refine ⟨[], ?_, rfl⟩
      simp [columnChunks]

theorem divideAndRoundUp_pos (n w : Nat) (hn : 0 < n) (hw : 1 ≤ w) :
    1 ≤ divideAndRoundUp n w := by
  unfold divideAndRoundUp
  exact (Nat.le_div_iff_mul_le (by omega)).2 (by omega)

omit [CommRing F] [DecidableEq F] in
theorem DB.row_zero_of_one_row (db : DB F) (he : db.Entries.length = db.NumColumns * db.BlockSize) :
    db.row 0 = db.Entries := by
  unfold DB.row
  simp only [Nat.zero_mul, List.drop_zero]
  apply List.take_of_length_le
  rw [he, Nat.mul_comm]

/-- The `NumRows == 1` branch of `answer` returns the reference answer. -/
theorem answer_single_row (sb : Nat) (q : List F) (db : DB F) (workers : Nat)
    (hlay : db.Layout) (hq : q.length = db.NumColumns * (db.BlockSize + 1))
    (hbs : 0 < db.BlockSize) (hsb : db.BlockSize ≠ sb) (hW : 1 ≤ workers)
    (hrow : db.NumRows = 1) :
    answer sb q db workers = .ok (answerRef q db) := by
  have he : db.Entries.length = db.NumColumns * db.BlockSize := by
    have := hlay
    unfold DB.Layout at this
    rw [this, hrow, Nat.one_mul]
  obtain ⟨replies, hrep, hfold⟩ := columnChunks_ok db q hbs he hq db.NumColumns 0
    (divideAndRoundUp db.NumColumns workers) (Nat.zero_le _) (by omega)
    (fun h => divideAndRoundUp_pos _ _ h hW)
  unfold answer
  rw [if_neg hsb, if_pos hrow]
  simp only [bind, Except.bind, hrep, combineChunkResults]
  rw [← blockSums_empty db.Entries q db.BlockSize 0, hfold]
  have hr1 : List.range 1 = [0] := rfl
  simp only [answerRef, hrow, hr1, List.map_cons, List.map_nil, List.flatten_cons,
    List.flatten_nil, List.append_nil, DB.row_zero_of_one_row db he]

end benchmark

/-! ## The answer engine: the row-split branch -/

namespace benchmark

variable {F : Type} [CommRing F] [DecidableEq F]

theorem take_drop_take_drop {α : Type} (l : List α) (a m c n : Nat) (h : c + n ≤ m) :
    (((l.drop a).take m).drop c).take n = (l.drop (a + c)).take n := by
  apply List.ext_getElem?
  intro k
  simp only [List.getElem?_take, List.getElem?_drop]
  by_cases hk : k < n
  · have : c + k < m := by omega
    simp only [hk, this, if_true, Nat.add_assoc]
  · simp only [hk, if_false]

omit [CommRing F] [DecidableEq F] in
theorem DB.row_length (db : DB F) (hlay : db.Layout) (r : Nat) (hr : r < db.NumRows) :
    (db.row r).length = db.NumColumns * db.BlockSize := by
  unfold DB.row
  unfold DB.Layout at hlay
  rw [List.length_take, List.length_drop, hlay]
  have h1 : (r + 1) * (db.BlockSize * db.NumColumns) ≤ db.NumRows * (db.BlockSize * db.NumColumns) :=
    Nat.mul_le_mul_right _ hr
  have h2 : (r + 1) * (db.BlockSize * db.NumColumns)
      = r * (db.BlockSize * db.NumColumns) + db.BlockSize * db.NumColumns := by ring
  have h3 : db.NumRows * db.NumColumns * db.BlockSize
      = db.NumRows * (db.BlockSize * db.NumColumns) := by ring
  have h4 : db.NumColumns * db.BlockSize = db.BlockSize * db.NumColumns := by ring
  omega

omit [DecidableEq F] in
theorem flatten_replies_length (q : List F) (db : DB F) (r : Nat) :
    (((List.range r).map (fun i =>
      blockSums (db.row i) db.BlockSize q 0 db.NumColumns)).flatten).length
      = r * (db.BlockSize + 1) := by
  induction r with
  | zero => simp
  | succ r ih =>
    rw [List.range_succ, List.map_append, List.flatten_append, List.length_append, ih]
    simp only [List.map_cons, List.map_nil, List.flatten_cons, List.flatten_nil, List.append_nil,
      blockSums_length]
    ring

omit [DecidableEq F] in
theorem partialAnswer_length (q : List F) (db : DB F) (r : Nat) (hr : r ≤ db.NumRows) :
    (partialAnswer q db r).length = db.NumRows * (db.BlockSize + 1) := by
  unfold partialAnswer
  rw [List.length_append, flatten_replies_length, List.length_replicate, ← Nat.add_mul]
  congr 1
  omega

omit [DecidableEq F] in
theorem copyAt_partialAnswer (q : List F) (db : DB F) (r : Nat) (hr : r < db.NumRows) :
    copyAt (partialAnswer q db r) (r * (db.BlockSize + 1))
        (blockSums (db.row r) db.BlockSize q 0 db.NumColumns)
      = partialAnswer q db (r + 1) := by
  unfold partialAnswer
  have hk : (blockSums (db.row r) db.BlockSize q 0 db.NumColumns).length
      ≤ (db.NumRows - r) * (db.BlockSize + 1) := by
    rw [blockSums_length]
    calc db.BlockSize + 1 = 1 * (db.BlockSize + 1) := by omega
      _ ≤ (db.NumRows - r) * (db.BlockSize + 1) := Nat.mul_le_mul_right _ (by omega)
  have := matrix.copyAt_append_replicate (0 : F)
    (((List.range r).map (fun i =>
      blockSums (db.row i) db.BlockSize q 0 db.NumColumns)).flatten)
    (blockSums (db.row r) db.BlockSize q 0 db.NumColumns) _ hk
  rw [flatten_replies_length] at this
  rw [this, blockSums_length, List.range_succ, List.map_append, List.flatten_append]
  simp only [List.map_cons, List.map_nil, List.flatten_cons, List.flatten_nil, List.append_nil]
  congr 2
  have : db.NumRows - r = (db.NumRows - (r + 1)) + 1 := by omega
  rw [this, Nat.add_mul]
  omega

/-- `processRows` on the chunk of rows `j <= r < j + s`: each row's reply lands in its segment. -/
theorem processRows_ok (db : DB F) (q : List F) (hlay : db.Layout) (hbs : 0 < db.BlockSize)
    (hnc : 0 < db.NumColumns) (hq : q.length = db.NumColumns * (db.BlockSize + 1))
    (j s : Nat) (hjs : j + s ≤ db.NumRows) :
    processRows ((db.Entries.drop (j * db.BlockSize * db.NumColumns)).take
        ((j + s) * db.BlockSize * db.NumColumns - j * db.BlockSize * db.NumColumns))
      db.BlockSize db.NumColumns q (partialAnswer q db j) (j * (db.BlockSize + 1))
      = .ok (partialAnswer q db (j + s)) := by
  have hn : 0 < db.BlockSize * db.NumColumns := Nat.mul_pos hbs hnc
  have hE : db.Entries.length = db.NumRows * (db.BlockSize * db.NumColumns) := by
    have := hlay
    unfold DB.Layout at this
    rw [this]; ring
  have e1 : (j + s) * db.BlockSize * db.NumColumns - j * db.BlockSize * db.NumColumns
      = s * (db.BlockSize * db.NumColumns) := by
    have : (j + s) * db.BlockSize * db.NumColumns
        = j * db.BlockSize * db.NumColumns + s * (db.BlockSize * db.NumColumns) := by ring
    omega
  have e0 : j * db.BlockSize * db.NumColumns = j * (db.BlockSize * db.NumColumns) := by ring
  rw [e1, e0]
  have hlen : ((db.Entries.drop (j * (db.BlockSize * db.NumColumns))).take
      (s * (db.BlockSize * db.NumColumns))).length = s * (db.BlockSize * db.NumColumns) := by
    rw [List.length_take, List.length_drop, hE]
    have h1 : (j + s) * (db.BlockSize * db.NumColumns)
        ≤ db.NumRows * (db.BlockSize * db.NumColumns) := Nat.mul_le_mul_right _ hjs
    have h2 : (j + s) * (db.BlockSize * db.NumColumns)
        = j * (db.BlockSize * db.NumColumns) + s * (db.BlockSize * db.NumColumns) := by ring
    omega
  unfold processRows
  simp only []
  rw [if_neg (by omega), hlen, Nat.mul_div_cancel _ hn]
  have key : ∀ t, t ≤ s →
      (List.range t).foldlM (fun m i => do
        let row ← slice ((db.Entries.drop (j * (db.BlockSize * db.NumColumns))).take
            (s * (db.BlockSize * db.NumColumns)))
          (i * (db.BlockSize * db.NumColumns)) ((i + 1) * (db.BlockSize * db.NumColumns))
        let res ← multiplyAndTag row db.BlockSize q
        if j * (db.BlockSize + 1) + (i + 1) * (db.BlockSize + 1) ≤ m.length then
          Except.ok (copyAt m (j * (db.BlockSize + 1) + i * (db.BlockSize + 1)) res)
        else Except.error Panic.indexOutOfRange) (partialAnswer q db j)
      = .ok (partialAnswer q db (j + t)) := by
    intro t
    induction t with
    | zero => intro _; rfl
    | succ t ih =>
      intro ht
      rw [List.range_succ, List.foldlM_append, ih (by omega)]
      simp only [bind, Except.bind, List.foldlM_cons, List.foldlM_nil, pure, Except.pure]
      have hsl : slice ((db.Entries.drop (j * (db.BlockSize * db.NumColumns))).take
            (s * (db.BlockSize * db.NumColumns)))
          (t * (db.BlockSize * db.NumColumns)) ((t + 1) * (db.BlockSize * db.NumColumns))
          = .ok (db.row (j + t)) := by
        rw [slice_ok _ _ _ (Nat.mul_le_mul_right _ (by omega))
          (by rw [hlen]; exact Nat.mul_le_mul_right _ ht)]
        have e2 : (t + 1) * (db.BlockSize * db.NumColumns) - t * (db.BlockSize * db.NumColumns)
            = db.BlockSize * db.NumColumns := by
          rw [Nat.add_mul]; omega
        rw [e2, take_drop_take_drop]
        · unfold DB.row
          rw [Nat.add_mul]
        · calc t * (db.BlockSize * db.NumColumns) + db.BlockSize * db.NumColumns
              = (t + 1) * (db.BlockSize * db.NumColumns) := by ring
            _ ≤ s * (db.BlockSize * db.NumColumns) := Nat.mul_le_mul_right _ ht
      rw [hsl]
      simp only []
      rw [multiplyAndTag_ok _ _ _ db.NumColumns hbs (DB.row_length db hlay _ (by omega))
        (by omega)]
      simp only []
      rw [partialAnswer_length _ _ _ (by omega)]
      have hb : j * (db.BlockSize + 1) + (t + 1) * (db.BlockSize + 1)
          ≤ db.NumRows * (db.BlockSize + 1) := by
        rw [← Nat.add_mul]; exact Nat.mul_le_mul_right _ (by omega)
      rw [if_pos hb, ← Nat.add_mul, copyAt_partialAnswer _ _ _ (by omega)]
      rfl
  exact key s (Nat.le_refl _)

/-- The row loop of `answer` from row `j` on. -/
theorem rowChunks_ok (db : DB F) (q : List F) (hlay : db.Layout) (hbs : 0 < db.BlockSize)
    (hnc : 0 < db.NumColumns) (hq : q.length = db.NumColumns * (db.BlockSize + 1))
    (fuel : Nat) :
    ∀ j step, j ≤ db.NumRows → db.NumRows - j ≤ fuel → (j < db.NumRows → 1 ≤ step) →
      rowChunks db q fuel j step (partialAnswer q db j)
        = .ok (partialAnswer q db db.NumRows) := by
  induction fuel with
  | zero =>
    intro j step hj hf _
    have : j = db.NumRows := by omega
    subst this
    simp [rowChunks]
  | succ fuel ih =>
    intro j step hj hf hstep
    by_cases hlt : j < db.NumRows
    · have hs := hstep hlt
      obtain ⟨s, hsdef⟩ : ∃ s, s = (if j + step > db.NumRows then db.NumRows - j else step) :=
        ⟨_, rfl⟩
      have hs1 : 1 ≤ s := by rw [hsdef]; split <;> omega
      have hs2 : j + s ≤ db.NumRows := by rw [hsdef]; split <;> omega
      have hE : (j + s) * db.BlockSize * db.NumColumns ≤ db.Entries.length := by
        have := hlay
        unfold DB.Layout at this
        rw [this]
        have : (j + s) * db.BlockSize * db.NumColumns
            = (j + s) * db.NumColumns * db.BlockSize := by ring
        rw [this]
        exact Nat.mul_le_mul_right _ (Nat.mul_le_mul_right _ hs2)
      rw [rowChunks, if_pos hlt, computeChunkIndices_eq]
      simp only [← hsdef]
      rw [slice_ok _ _ _ (Nat.mul_le_mul_right _ (Nat.mul_le_mul_right _ (by omega))) hE,
        slice_ok _ _ _ (Nat.mul_le_mul_right _ (by omega))
          (by rw [partialAnswer_length _ _ _ hj]; exact Nat.mul_le_mul_right _ hs2)]
      simp only [bind, Except.bind]
      rw [processRows_ok db q hlay hbs hnc hq j s hs2]
      simp only []
      exact ih (j + s) s hs2 (by omega) (fun _ => hs1)
    · have : j = db.NumRows := by omega
      subst this
      simp [rowChunks]

/-- The `NumRows != 1` branch of `answer` returns the reference answer. -/
theorem answer_many_rows (sb : Nat) (q : List F) (db : DB F) (workers : Nat)
    (hlay : db.Layout) (hq : q.length = db.NumColumns * (db.BlockSize + 1))
    (hbs : 0 < db.BlockSize) (hsb : db.BlockSize ≠ sb) (hW : 1 ≤ workers)
    (hrow : db.NumRows ≠ 1) (hnc : 0 < db.NumColumns) :
    answer sb q db workers = .ok (answerRef q db) := by
  have := rowChunks_ok db q hlay hbs hnc hq db.NumRows 0
    (divideAndRoundUp db.NumRows workers) (Nat.zero_le _) (by omega)
    (fun h => divideAndRoundUp_pos _ _ h hW)
  unfold answer
  rw [if_neg hsb, if_neg hrow]
  simp only []
  have h0 : List.replicate (db.NumRows * (db.BlockSize + 1)) (0 : F) = partialAnswer q db 0 := by
    simp [partialAnswer]
  rw [h0, this]
  simp [partialAnswer, answerRef]

/-- The multi-element engine returns the reference answer of section 4.4, whatever the number of
workers. -/
theorem answer_ok (sb : Nat) (q : List F) (db : DB F) (workers : Nat)
    (hlay : db.Layout) (hq : q.length = db.NumColumns * (db.BlockSize + 1))
    (hbs : 0 < db.BlockSize) (hsb : db.BlockSize ≠ sb) (hW : 1 ≤ workers)
    (hcols : db.NumRows = 1 ∨ 0 < db.NumColumns) :
    answer sb q db workers = .ok (answerRef q db) := by
  by_cases hrow : db.NumRows = 1
  · exact answer_single_row sb q db workers hlay hq hbs hsb hW hrow
  · rcases hcols with h | h
    · exact absurd h hrow
    · exact answer_many_rows sb q db workers hlay hq hbs hsb hW hrow h

end benchmark

/-! ## The answer engine: reconstruction (claim C3) -/

namespace benchmark

variable {F : Type} [CommRing F] [DecidableEq F]

omit [DecidableEq F] in
theorem answerRef_length (q : List F) (db : DB F) :
    (answerRef q db).length = db.NumRows * (db.BlockSize + 1) :=
  flatten_replies_length q db db.NumRows

omit [DecidableEq F] in
theorem flatten_replies_segment (q : List F) (db : DB F) (r i : Nat) (hi : i < r) :
    ((((List.range r).map (fun i =>
        blockSums (db.row i) db.BlockSize q 0 db.NumColumns)).flatten).drop
          (i * (db.BlockSize + 1))).take (db.BlockSize + 1)
      = blockSums (db.row i) db.BlockSize q 0 db.NumColumns := by
  induction r with
  | zero => omega
  | succ r ih =>
    rw [List.range_succ, List.map_append, List.flatten_append]
    simp only [List.map_cons, List.map_nil, List.flatten_cons, List.flatten_nil, List.append_nil]
    by_cases h : i < r
    · have hle : (i + 1) * (db.BlockSize + 1) ≤ r * (db.BlockSize + 1) :=
        Nat.mul_le_mul_right _ h
      have hexp : (i + 1) * (db.BlockSize + 1) = i * (db.BlockSize + 1) + (db.BlockSize + 1) := by
        ring
      rw [List.drop_append_of_le_length (by rw [flatten_replies_length]; omega),
        List.take_append_of_le_length (by
          rw [List.length_drop, flatten_replies_length]; omega)]
      exact ih h
    · have : i = r := by omega
      subst this
      have hl := flatten_replies_length q db i
      rw [List.drop_append_of_le_length (by omega), List.drop_of_length_le (by omega),
        List.nil_append]
      apply List.take_of_length_le
      rw [blockSums_length]

omit [DecidableEq F] in
theorem answerRef_segment (q : List F) (db : DB F) (i : Nat) (hi : i < db.NumRows) :
    ((answerRef q db).drop (i * (db.BlockSize + 1))).take (db.BlockSize + 1)
      = blockSums (db.row i) db.BlockSize q 0 db.NumColumns :=
  flatten_replies_segment q db db.NumRows i hi

omit [DecidableEq F] in
theorem answerRef_getD (q : List F) (db : DB F) (i b : Nat)
    (hi : i < db.NumRows) (hb : b < db.BlockSize) :
    (answerRef q db).getD (i * (db.BlockSize + 1) + b) 0
      = ∑ j in Finset.range db.NumColumns,
          db.Entries.getD ((i * db.NumColumns + j) * db.BlockSize + b) 0
            * q.getD (j * (db.BlockSize + 1)) 0 := by
  rw [← getD_take_drop (answerRef q db) (i * (db.BlockSize + 1)) (db.BlockSize + 1) b 0 (by omega),
    answerRef_segment q db i hi, blockSums_getD_lt _ _ _ _ _ _ hb, Finset.range_eq_Ico]
  apply Finset.sum_congr rfl
  intro j hj
  have hj' : j < db.NumColumns := by simpa using hj
  congr 1
  unfold DB.row
  rw [getD_take_drop]
  · congr 1; ring
  · calc j * db.BlockSize + b < j * db.BlockSize + db.BlockSize := by omega
      _ = db.BlockSize * (j + 1) := by ring
      _ ≤ db.BlockSize * db.NumColumns := Nat.mul_le_mul_left _ hj'

omit [DecidableEq F] in
theorem sum_map_weighted (qs : List (List F)) (n : Nat) (c : Nat → F) (pos : Nat → Nat) :
    (qs.map (fun q => ∑ j in Finset.range n, c j * q.getD (pos j) 0)).sum
      = ∑ j in Finset.range n, c j * (qs.map (fun q => q.getD (pos j) 0)).sum := by
  induction qs with
  | nil => simp
  | cons q qs ih =>
    simp only [List.map_cons, List.sum_cons, ih, mul_add, Finset.sum_add_distrib]

/-- C3 (IT-VPIR correctness): for a database with the layout invariant and multi-element blocks,
a worker count `W >= 1`, a target `(iStar, jStar)` and a finite family `qs` of query vectors of
length `NumColumns * (BlockSize + 1)` whose elementwise sum has message scalar `1` at column
`jStar` and `0` at every other column, every server answers, and the elementwise sum of the
answers holds the block `DB[iStar, jStar]` in the first `BlockSize` elements of the segment of row
`iStar`. (The condition on the tag scalars is not needed for the block.) -/
theorem answer_reconstructs (sb : Nat) (db : DB F) (workers : Nat) (qs : List (List F))
    (iStar jStar : Nat) (hlay : db.Layout) (hbs : 0 < db.BlockSize) (hsb : db.BlockSize ≠ sb)
    (hW : 1 ≤ workers) (hi : iStar < db.NumRows) (hj : jStar < db.NumColumns)
    (hlen : ∀ q ∈ qs, q.length = db.NumColumns * (db.BlockSize + 1))
    (hmsg : ∀ j, j < db.NumColumns →
      (qs.map (fun q => q.getD (j * (db.BlockSize + 1)) 0)).sum = if j = jStar then 1 else 0) :
    ∃ answers : List (List F),
      List.Forall₂ (fun q a => answer sb q db workers = .ok a) qs answers ∧
      ∀ b, b < db.BlockSize →
        (answers.map (fun a => a.getD (iStar * (db.BlockSize + 1) + b) 0)).sum
          = db.Entries.getD ((iStar * db.NumColumns + jStar) * db.BlockSize + b) 0 := by
  refine ⟨qs.map (fun q => answerRef q db), ?_, ?_⟩
  · have : ∀ l : List (List F), (∀ q ∈ l, q.length = db.NumColumns * (db.BlockSize + 1)) →
        List.Forall₂ (fun q a => answer sb q db workers = .ok a) l
          (l.map (fun q => answerRef q db)) := by
      intro l hl
      induction l with
      | nil => exact List.Forall₂.nil
      | cons q l ih =>
        exact List.Forall₂.cons
          (answer_ok sb q db workers hlay (hl q (List.mem_cons_self _ _)) hbs hsb hW
            (Or.inr (by omega)))
          (ih (fun x hx => hl x (List.mem_cons_of_mem _ hx)))
    exact this qs hlen
  · intro b hb
    rw [List.map_map]
    have e : ((fun a : List F => a.getD (iStar * (db.BlockSize + 1) + b) 0) ∘
        fun q => answerRef q db)
        = fun q => ∑ j in Finset.range db.NumColumns,
            db.Entries.getD ((iStar * db.NumColumns + j) * db.BlockSize + b) 0
              * q.getD (j * (db.BlockSize + 1)) 0 := by
      funext q
      exact answerRef_getD q db iStar b hi hb
    rw [e, sum_map_weighted qs db.NumColumns
      (fun j => db.Entries.getD ((iStar * db.NumColumns + j) * db.BlockSize + b) 0)
      (fun j => j * (db.BlockSize + 1))]
    rw [Finset.sum_eq_single jStar]
    · rw [hmsg jStar hj, if_pos rfl, mul_one]
    · intro j hjr hne
      rw [hmsg j (by simpa using hjr), if_neg hne, mul_zero]
    · intro h
      exact absurd (Finset.mem_range.2 hj) h

/-- C3 at scenario S1: one row of blocks `[1,2][3,4][5,6][7,8]`, target column `2`, two servers
whose queries are the shares `r` and `e - r`; the answers add up to `[5, 6]`. -/
theorem answer_reconstructs_witness :
    (answer 0 ([3, 1, 4, 1, 5, 9, 2, 6, 5, 3, 5, 8] : List (ZMod 2147483647))
        ⟨[1, 2, 3, 4, 5, 6, 7, 8], 1, 4, 2⟩ 3 = .ok [37, 46, 219]) ∧
    (answer 0 ([-3, -1, -4, -1, -5, -9, -1, -6, -5, -3, -5, -8] : List (ZMod 2147483647))
        ⟨[1, 2, 3, 4, 5, 6, 7, 8], 1, 4, 2⟩ 3 = .ok [-32, -40, -219]) ∧
    ∃ answers : List (List (ZMod 2147483647)),
      List.Forall₂ (fun q a => answer 0 q
          (⟨[1, 2, 3, 4, 5, 6, 7, 8], 1, 4, 2⟩ : DB (ZMod 2147483647)) 3 = .ok a)
        [[3, 1, 4, 1, 5, 9, 2, 6, 5, 3, 5, 8], [-3, -1, -4, -1, -5, -9, -1, -6, -5, -3, -5, -8]]
        answers ∧
      ∀ b, b < 2 →
        (answers.map (fun a => a.getD (0 * (2 + 1) + b) 0)).sum
          = ([1, 2, 3, 4, 5, 6, 7, 8] : List (ZMod 2147483647)).getD ((0 * 4 + 2) * 2 + b) 0 :=
  ⟨by decide, by decide,
   answer_reconstructs 0 (⟨[1, 2, 3, 4, 5, 6, 7, 8], 1, 4, 2⟩ : DB (ZMod 2147483647)) 3
     [[3, 1, 4, 1, 5, 9, 2, 6, 5, 3, 5, 8], [-3, -1, -4, -1, -5, -9, -1, -6, -5, -3, -5, -8]]
     0 2 (by decide) (by decide) (by decide) (by decide) (by decide) (by decide) (by decide)
     (by decide)⟩

end benchmark

/-! ## The answer engine: shape and worker independence (claims C5 and C4) -/

namespace benchmark

variable {F : Type} [CommRing F] [DecidableEq F]

/-- C5, as amended (answer shape): for a database with the layout invariant and multi-element
blocks that has a single row or at least one column, a valid query and `W >= 1`, `answer` returns
exactly `NumRows * (BlockSize + 1)` elements, and for each row `i` the segment
`[i*(BlockSize+1), (i+1)*(BlockSize+1))` is `multiplyAndTag` of row `i` and the whole query. -/
theorem answer_shape (sb : Nat) (q : List F) (db : DB F) (workers : Nat) (hlay : db.Layout)
    (hq : q.length = db.NumColumns * (db.BlockSize + 1)) (hbs : 0 < db.BlockSize)
    (hsb : db.BlockSize ≠ sb) (hW : 1 ≤ workers)
    (hcols : db.NumRows = 1 ∨ 0 < db.NumColumns) :
    ∃ v, answer sb q db workers = .ok v ∧ v.length = db.NumRows * (db.BlockSize + 1) ∧
      ∀ i, i < db.NumRows →
        multiplyAndTag (db.row i) db.BlockSize q
          = .ok ((v.drop (i * (db.BlockSize + 1))).take (db.BlockSize + 1)) := by
  refine ⟨_, answer_ok sb q db workers hlay hq hbs hsb hW hcols, answerRef_length q db,
    fun i hi => ?_⟩
  rw [answerRef_segment q db i hi]
  exact multiplyAndTag_ok _ _ _ db.NumColumns hbs (DB.row_length db hlay i hi) (by omega)

/-- C5, as amended, at a database of two rows `[1,2][3,4]` and `[5,6][7,8]`. -/
theorem answer_shape_witness :
    answer 0 ([0, 0, 0, 1, 2, 3] : List (ZMod 2147483647))
        ⟨[1, 2, 3, 4, 5, 6, 7, 8], 2, 2, 2⟩ 3 = .ok [3, 4, 18, 7, 8, 38] ∧
    ∃ v, answer 0 ([0, 0, 0, 1, 2, 3] : List (ZMod 2147483647))
        ⟨[1, 2, 3, 4, 5, 6, 7, 8], 2, 2, 2⟩ 3 = .ok v ∧ v.length = 2 * (2 + 1) ∧
      ∀ i, i < 2 →
        multiplyAndTag ((⟨[1, 2, 3, 4, 5, 6, 7, 8], 2, 2, 2⟩ : DB (ZMod 2147483647)).row i) 2
            [0, 0, 0, 1, 2, 3]
          = .ok ((v.drop (i * (2 + 1))).take (2 + 1)) :=
  ⟨by decide,
   answer_shape 0 ([0, 0, 0, 1, 2, 3] : List (ZMod 2147483647))
     ⟨[1, 2, 3, 4, 5, 6, 7, 8], 2, 2, 2⟩ 3 (by decide) (by decide) (by decide) (by decide)
     (by decide) (by decide)⟩

/-- C5 fails as stated. The database with two rows, no column and blocks of two elements
satisfies the layout invariant (its storage is empty) and the empty query is valid for it, but
`answer` panics, whatever the single-bit block length other than `2`: `processRows` divides by
`numElementsInRow = 0`. -/
theorem answer_shape_fails_without_columns :
    (⟨[], 2, 0, 2⟩ : DB (ZMod 2147483647)).Layout ∧
    ([] : List (ZMod 2147483647)).length = 0 * (2 + 1) ∧
    (∀ sb, sb ≠ 2 →
      answer sb ([] : List (ZMod 2147483647)) ⟨[], 2, 0, 2⟩ 1 = .error .divideByZero) ∧
    ¬ ∃ v, answer 0 ([] : List (ZMod 2147483647)) ⟨[], 2, 0, 2⟩ 1 = .ok v ∧
        v.length = 2 * (2 + 1) := by
  have h : ∀ sb, sb ≠ 2 →
      answer sb ([] : List (ZMod 2147483647)) ⟨[], 2, 0, 2⟩ 1 = .error .divideByZero := by
    intro sb hsb
    unfold answer
    rw [if_neg (fun e => hsb e.symm)]
    rfl
  refine ⟨by decide, by decide, h, ?_⟩
  rintro ⟨v, hv, _⟩
  rw [h 0 (by decide)] at hv
  exact Except.noConfusion hv

/-- The first chunk of the row loop panics when a row holds no element. -/
theorem rowChunks_divideByZero (db : DB F) (q : List F)
    (hn : db.BlockSize * db.NumColumns = 0) (hr : 0 < db.NumRows) (fuel step : Nat) :
    rowChunks db q (fuel + 1) 0 step
        (List.replicate (db.NumRows * (db.BlockSize + 1)) (0 : F))
      = .error .divideByZero := by
  obtain ⟨s, hsdef⟩ : ∃ s, s = (if 0 + step > db.NumRows then db.NumRows - 0 else step) :=
    ⟨_, rfl⟩
  have hs2 : s ≤ db.NumRows := by rw [hsdef]; split <;> omega
  have hE : (0 + s) * db.BlockSize * db.NumColumns ≤ db.Entries.length := by
    have : (0 + s) * db.BlockSize * db.NumColumns = s * (db.BlockSize * db.NumColumns) := by ring
    rw [this, hn]; omega
  rw [rowChunks, if_pos hr, computeChunkIndices_eq]
  simp only [← hsdef]
  rw [slice_ok _ _ _ (Nat.mul_le_mul_right _ (Nat.mul_le_mul_right _ (by omega))) hE,
    slice_ok _ _ _ (Nat.mul_le_mul_right _ (by omega))
      (by rw [List.length_replicate]; exact Nat.mul_le_mul_right _ (by omega))]
  simp only [bind, Except.bind, processRows, hn, if_true]

/-- The first chunk of the column loop panics when a block holds no element. -/
theorem columnChunks_divideByZero (db : DB F) (q : List F) (hbs : db.BlockSize = 0)
    (hq : q.length = db.NumColumns * (db.BlockSize + 1)) (hc : 0 < db.NumColumns)
    (fuel step : Nat) :
    columnChunks db q (fuel + 1) 0 step = .error .divideByZero := by
  obtain ⟨s, hsdef⟩ : ∃ s, s = (if 0 + step > db.NumColumns then db.NumColumns - 0 else step) :=
    ⟨_, rfl⟩
  have hs2 : s ≤ db.NumColumns := by rw [hsdef]; split <;> omega
  rw [columnChunks, if_pos hc, computeChunkIndices_eq]
  simp only [← hsdef]
  rw [slice_ok _ _ _ (Nat.mul_le_mul_right _ (by omega)) (by rw [hbs]; omega),
    slice_ok _ _ _ (Nat.mul_le_mul_right _ (by omega))
      (by rw [hq]; exact Nat.mul_le_mul_right _ (by omega))]
  simp only [bind, Except.bind, processRowChunk, multiplyAndTag, hbs, if_true]

/-- C4 (IT-VPIR parallel determinism): for a database with the layout invariant, a query of
length `NumColumns * (BlockSize + 1)` and worker counts `W, W' >= 1`, `answer q db W` and
`answer q db W'` are the same result, element for element (and the same panic when the database
is degenerate), in the column-split and in the row-split branch. -/
theorem answer_workers_irrelevant (sb : Nat) (q : List F) (db : DB F) (w w' : Nat)
    (hlay : db.Layout) (hq : q.length = db.NumColumns * (db.BlockSize + 1))
    (hw : 1 ≤ w) (hw' : 1 ≤ w') :
    answer sb q db w = answer sb q db w' := by
  by_cases hsb : db.BlockSize = sb
  · unfold answer
    rw [if_pos hsb, if_pos hsb]
  by_cases hrow : db.NumRows = 1
  · by_cases hbs : 0 < db.BlockSize
    · rw [answer_single_row sb q db w hlay hq hbs hsb hw hrow,
        answer_single_row sb q db w' hlay hq hbs hsb hw' hrow]
    · have hbs0 : db.BlockSize = 0 := by omega
      unfold answer
      rw [if_neg hsb, if_pos hrow, if_neg hsb, if_pos hrow]
      by_cases hc : 0 < db.NumColumns
      · obtain ⟨n, hn⟩ : ∃ n, db.NumColumns = n + 1 := ⟨db.NumColumns - 1, by omega⟩
        have h1 := columnChunks_divideByZero db q hbs0 hq hc n (divideAndRoundUp db.NumColumns w)
        have h2 := columnChunks_divideByZero db q hbs0 hq hc n (divideAndRoundUp db.NumColumns w')
        rw [← hn] at h1 h2
        simp only [h1, h2]
      · have hc0 : db.NumColumns = 0 := by omega
        simp only [hc0, columnChunks, Nat.lt_irrefl, if_false]
  · by_cases hn : 0 < db.BlockSize * db.NumColumns
    · have hbs : 0 < db.BlockSize := Nat.pos_of_mul_pos_right hn
      have hnc : 0 < db.NumColumns := Nat.pos_of_mul_pos_left hn
      rw [answer_many_rows sb q db w hlay hq hbs hsb hw hrow hnc,
        answer_many_rows sb q db w' hlay hq hbs hsb hw' hrow hnc]
    · have hn0 : db.BlockSize * db.NumColumns = 0 := by omega
      unfold answer
      rw [if_neg hsb, if_neg hrow, if_neg hsb, if_neg hrow]
      by_cases hr : 0 < db.NumRows
      · obtain ⟨n, hn'⟩ : ∃ n, db.NumRows = n + 1 := ⟨db.NumRows - 1, by omega⟩
        simp only []
        have h1 := rowChunks_divideByZero db q hn0 hr n (divideAndRoundUp db.NumRows w)
        have h2 := rowChunks_divideByZero db q hn0 hr n (divideAndRoundUp db.NumRows w')
        rw [← hn'] at h1 h2
        rw [h1, h2]
      · have hr0 : db.NumRows = 0 := by omega
        simp only [hr0, rowChunks, Nat.lt_irrefl, if_false]

/-- C4 at the two-row database `[1,2][3,4]`, `[5,6][7,8]`: one worker and three workers. -/
theorem answer_workers_irrelevant_witness :
    answer 0 ([0, 0, 0, 1, 2, 3] : List (ZMod 2147483647))
        ⟨[1, 2, 3, 4, 5, 6, 7, 8], 2, 2, 2⟩ 1 = .ok [3, 4, 18, 7, 8, 38] ∧
    answer 0 ([0, 0, 0, 1, 2, 3] : List (ZMod 2147483647))
        ⟨[1, 2, 3, 4, 5, 6, 7, 8], 2, 2, 2⟩ 1
      = answer 0 ([0, 0, 0, 1, 2, 3] : List (ZMod 2147483647))
        ⟨[1, 2, 3, 4, 5, 6, 7, 8], 2, 2, 2⟩ 3 :=
  ⟨by decide,
   answer_workers_irrelevant 0 ([0, 0, 0, 1, 2, 3] : List (ZMod 2147483647))
     ⟨[1, 2, 3, 4, 5, 6, 7, 8], 2, 2, 2⟩ 1 3 (by decide) (by decide) (by decide) (by decide)⟩

end benchmark

/-! ## The distributed point function: bits and correction words -/

namespace dpf

theorem getD_set_list {α : Type} (l : List α) (p q : Nat) (v d : α) :
    (l.set q v).getD p d = if p = q ∧ q < l.length then v else l.getD p d := by
  simp only [List.getD_eq_getElem?_getD, List.getElem?_set]
  by_cases h : q = p
  · subst h
    by_cases h2 : q < l.length
    · simp [h2]
    · simp [h2]
      rw [List.getElem?_eq_none (by omega)]
      rfl
  · have : ¬ (p = q) := fun h' => h h'.symm
    simp [h, this]

theorem range16 : List.range 16 = [0, 1, 2, 3, 4, 5, 6, 7, 8, 9, 10, 11, 12, 13, 14, 15] := by
  decide

/-- The seed bytes of a correction word. -/
theorem correctionWord_getD_lt (o0 o1 : List Nat) (aBit j : Nat) (hj : j < 16) :
    (correctionWord o0 o1 aBit).getD j 0
      = o0.getD ((if aBit = 0 then 16 + 1 else 0) + j) 0
          ^^^ o1.getD ((if aBit = 0 then 16 + 1 else 0) + j) 0 := by
  unfold correctionWord
  simp only []
  rw [List.getD_append _ _ _ _ (by simpa using hj)]
  exact benchmark.getD_map_range 16 j _ hj

theorem correctionWord_getD_16 (o0 o1 : List Nat) (aBit : Nat) :
    (correctionWord o0 o1 aBit).getD 16 0
      = o0.getD 16 0 % 2 ^^^ o1.getD 16 0 % 2 ^^^ aBit ^^^ 1 := by
  unfold correctionWord
  simp only []
  rw [List.getD_append_right _ _ _ _ (by simp)]
  simp

theorem correctionWord_getD_17 (o0 o1 : List Nat) (aBit : Nat) :
    (correctionWord o0 o1 aBit).getD 17 0
      = o0.getD 33 0 % 2 ^^^ o1.getD 33 0 % 2 ^^^ aBit := by
  unfold correctionWord
  simp only []
  rw [List.getD_append_right _ _ _ _ (by simp)]
  simp

/-- The bit arithmetic of one level on the keep side: the two `t` bits stay bits and keep
differing. -/
theorem tbits_keep :
    ∀ u, u < 2 → ∀ v, v < 2 → ∀ t0, t0 < 2 → ∀ t1, t1 < 2 → t0 ^^^ t1 = 1 →
      (u ^^^ ((u ^^^ v ^^^ 1) * t0)) < 2 ∧ (v ^^^ ((u ^^^ v ^^^ 1) * t1)) < 2 ∧
      (u ^^^ ((u ^^^ v ^^^ 1) * t0)) ^^^ (v ^^^ ((u ^^^ v ^^^ 1) * t1)) = 1 := by
  intro u hu v hv t0 h0 t1 h1 h
  interval_cases u <;> interval_cases v <;> interval_cases t0 <;> interval_cases t1 <;>
    first
    | exact absurd h (by decide)
    | decide

/-- The bit arithmetic of one level on the lose side: the two `t` bits become equal. -/
theorem tbits_lose :
    ∀ u, u < 2 → ∀ v, v < 2 → ∀ t0, t0 < 2 → ∀ t1, t1 < 2 → t0 ^^^ t1 = 1 →
      u ^^^ (t0 * (u ^^^ v)) = v ^^^ (t1 * (u ^^^ v)) := by
  decide

/-- The seed arithmetic of one level on the lose side: the two seeds become equal. -/
theorem seed_lose (y z : Nat) :
    ∀ t0, t0 < 2 → ∀ t1, t1 < 2 → t0 ^^^ t1 = 1 →
      y ^^^ (t0 * (y ^^^ z)) = z ^^^ (t1 * (y ^^^ z)) := by
  intro t0 h0 t1 h1 h
  have h01 : (t0 = 0 ∧ t1 = 1) ∨ (t0 = 1 ∧ t1 = 0) := by
    revert h
    revert t1
    revert t0
    decide
  rcases h01 with ⟨rfl, rfl⟩ | ⟨rfl, rfl⟩
  · simp only [Nat.zero_mul, Nat.xor_zero, Nat.one_mul]
    rw [Nat.xor_comm y z, ← Nat.xor_assoc, Nat.xor_self, Nat.zero_xor]
  · simp only [Nat.zero_mul, Nat.xor_zero, Nat.one_mul]
    rw [← Nat.xor_assoc, Nat.xor_self, Nat.zero_xor]

theorem getBit_lt_two (n pos N : Nat) : getBit n pos N < 2 := by
  unfold getBit
  omega

/-- A number below `2^n` is determined by its `n` bits, read most significant first. -/
theorem eq_of_getBit_eq (f : Fss) (a x : Nat) (hN : f.NumBits ≤ f.N) (ha : a < 2 ^ f.NumBits)
    (hx : x < 2 ^ f.NumBits)
    (h : ∀ i, i < f.NumBits →
      getBit x (f.N - f.NumBits + i + 1) f.N = getBit a (f.N - f.NumBits + i + 1) f.N) :
    x = a := by
  apply Nat.eq_of_testBit_eq
  intro k
  by_cases hk : k < f.NumBits
  · have := h (f.NumBits - 1 - k) (by omega)
    have e : f.N - (f.N - f.NumBits + (f.NumBits - 1 - k) + 1) = k := by omega
    unfold getBit at this
    rw [e] at this
    simp only [Nat.testBit, Nat.shiftRight_eq_div_pow, Nat.one_and_eq_mod_two, this]
  · have hle : 2 ^ f.NumBits ≤ 2 ^ k := Nat.pow_le_pow_right (by omega) (by omega)
    rw [Nat.testBit_lt_two_pow (by omega), Nat.testBit_lt_two_pow (by omega)]

end dpf

/-! ## The distributed point function: one level -/

namespace dpf

/-- One level of key generation keeps the two `t` bits different, and writes the same correction
word into both keys. -/
theorem genLevel_inv (prf : List Nat → List Nat) (f : Fss) (a : Nat) (g : GenState) (i n : Nat)
    (h0 : g.tCurr0 < 2) (h1 : g.tCurr1 < 2) (hx : g.tCurr0 ^^^ g.tCurr1 = 1)
    (hl : g.CW0.length = n) (hc : g.CW1 = g.CW0) :
    (genLevel prf f a g i).tCurr0 < 2 ∧ (genLevel prf f a g i).tCurr1 < 2 ∧
    (genLevel prf f a g i).tCurr0 ^^^ (genLevel prf f a g i).tCurr1 = 1 ∧
    (genLevel prf f a g i).CW0.length = n ∧
    (genLevel prf f a g i).CW1 = (genLevel prf f a g i).CW0 := by
  have hab := getBit_lt_two a (f.N - f.NumBits + i + 1) f.N
  refine ⟨?_, ?_, ?_, ?_, ?_⟩
  case refine_4 => simp only [genLevel, List.length_set, hl]
  case refine_5 => simp only [genLevel, hc]
  all_goals
    simp only [genLevel]
    generalize getBit a (f.N - f.NumBits + i + 1) f.N = ab at hab ⊢
    interval_cases ab
    · simp only [if_true, correctionWord_getD_16, Nat.zero_add, Nat.xor_zero,
        show ¬ ((0 : Nat) = 16 + 1) by decide, if_false]
      first
      | exact (tbits_keep _ (Nat.mod_lt _ (by decide)) _ (Nat.mod_lt _ (by decide)) _ h0 _ h1 hx).1
      | exact (tbits_keep _ (Nat.mod_lt _ (by decide)) _ (Nat.mod_lt _ (by decide)) _ h0 _ h1 hx).2.1
      | exact (tbits_keep _ (Nat.mod_lt _ (by decide)) _ (Nat.mod_lt _ (by decide)) _ h0 _ h1 hx).2.2
    · simp only [show ¬ ((1 : Nat) = 0) by decide, if_false, if_true, correctionWord_getD_17]
      first
      | exact (tbits_keep _ (Nat.mod_lt _ (by decide)) _ (Nat.mod_lt _ (by decide)) _ h0 _ h1 hx).1
      | exact (tbits_keep _ (Nat.mod_lt _ (by decide)) _ (Nat.mod_lt _ (by decide)) _ h0 _ h1 hx).2.1
      | exact (tbits_keep _ (Nat.mod_lt _ (by decide)) _ (Nat.mod_lt _ (by decide)) _ h0 _ h1 hx).2.2

/-- On the path to `a`, one level of evaluation with party 0's state is the level of key
generation. -/
theorem evalLevel_onpath0 {F : Type} (prf : List Nat → List Nat) (f : Fss) (a x : Nat)
    (k : FssKeyEq2P F) (g : GenState) (i : Nat)
    (hbit : getBit x (f.N - f.NumBits + i + 1) f.N = getBit a (f.N - f.NumBits + i + 1) f.N)
    (hcw : k.CW.getD i [] = correctionWord (prf g.sCurr0) (prf g.sCurr1)
      (getBit a (f.N - f.NumBits + i + 1) f.N)) :
    evalLevel prf f k x (g.sCurr0, g.tCurr0) i
      = ((genLevel prf f a g i).sCurr0, (genLevel prf f a g i).tCurr0) := by
  have hab := getBit_lt_two a (f.N - f.NumBits + i + 1) f.N
  simp only [evalLevel, genLevel, hbit, hcw]
  generalize getBit a (f.N - f.NumBits + i + 1) f.N = ab at hab ⊢
  interval_cases ab
  · simp only [if_true, show ¬ ((0 : Nat) = 16 + 1) by decide, if_false, Nat.mul_comm]
  · simp only [show ¬ ((1 : Nat) = 0) by decide, if_false, if_true, Nat.mul_comm]

/-- On the path to `a`, one level of evaluation with party 1's state is the level of key
generation. -/
theorem evalLevel_onpath1 {F : Type} (prf : List Nat → List Nat) (f : Fss) (a x : Nat)
    (k : FssKeyEq2P F) (g : GenState) (i : Nat)
    (hbit : getBit x (f.N - f.NumBits + i + 1) f.N = getBit a (f.N - f.NumBits + i + 1) f.N)
    (hcw : k.CW.getD i [] = correctionWord (prf g.sCurr0) (prf g.sCurr1)
      (getBit a (f.N - f.NumBits + i + 1) f.N)) :
    evalLevel prf f k x (g.sCurr1, g.tCurr1) i
      = ((genLevel prf f a g i).sCurr1, (genLevel prf f a g i).tCurr1) := by
  have hab := getBit_lt_two a (f.N - f.NumBits + i + 1) f.N
  simp only [evalLevel, genLevel, hbit, hcw]
  generalize getBit a (f.N - f.NumBits + i + 1) f.N = ab at hab ⊢
  interval_cases ab
  · simp only [if_true, show ¬ ((0 : Nat) = 16 + 1) by decide, if_false, Nat.mul_comm]
  · simp only [show ¬ ((1 : Nat) = 0) by decide, if_false, if_true, Nat.mul_comm]

/-- Where `x` leaves the path to `a`, the correction word makes the two parties' states equal. -/
theorem evalLevel_diverge {F : Type} (prf : List Nat → List Nat) (f : Fss) (a x : Nat)
    (k0 k1 : FssKeyEq2P F) (g : GenState) (i : Nat)
    (h0 : g.tCurr0 < 2) (h1 : g.tCurr1 < 2) (hx : g.tCurr0 ^^^ g.tCurr1 = 1)
    (hbit : getBit x (f.N - f.NumBits + i + 1) f.N ≠ getBit a (f.N - f.NumBits + i + 1) f.N)
    (hcw0 : k0.CW.getD i [] = correctionWord (prf g.sCurr0) (prf g.sCurr1)
      (getBit a (f.N - f.NumBits + i + 1) f.N))
    (hcw1 : k1.CW.getD i [] = correctionWord (prf g.sCurr0) (prf g.sCurr1)
      (getBit a (f.N - f.NumBits + i + 1) f.N)) :
    evalLevel prf f k0 x (g.sCurr0, g.tCurr0) i = evalLevel prf f k1 x (g.sCurr1, g.tCurr1) i := by
  have hab := getBit_lt_two a (f.N - f.NumBits + i + 1) f.N
  have hxb := getBit_lt_two x (f.N - f.NumBits + i + 1) f.N
  simp only [evalLevel, hcw0, hcw1]
  generalize getBit a (f.N - f.NumBits + i + 1) f.N = ab at hab hbit ⊢
  generalize getBit x (f.N - f.NumBits + i + 1) f.N = xb at hxb hbit ⊢
  interval_cases ab <;> interval_cases xb
  · exact absurd rfl hbit
  · simp only [show ¬ ((1 : Nat) = 0) by decide, if_false, Nat.reduceAdd, correctionWord_getD_17,
      Nat.xor_zero]
    congr 1
    · apply List.map_congr_left
      intro j hj
      have hj' : j < 16 := by simpa using hj
      rw [correctionWord_getD_lt _ _ _ _ hj']
      simp only [if_true]
      exact seed_lose _ _ _ h0 _ h1 hx
    · exact tbits_lose _ (Nat.mod_lt _ (by decide)) _ (Nat.mod_lt _ (by decide)) _ h0 _ h1 hx
  · simp only [if_true, Nat.reduceAdd, Nat.zero_add, correctionWord_getD_16]
    congr 1
    · apply List.map_congr_left
      intro j hj
      have hj' : j < 16 := by simpa using hj
      rw [correctionWord_getD_lt _ _ _ _ hj']
      simp only [show ¬ ((1 : Nat) = 0) by decide, if_false, Nat.zero_add]
      exact seed_lose _ _ _ h0 _ h1 hx
    · have e : ∀ u v : Nat, u ^^^ v ^^^ 1 ^^^ 1 = u ^^^ v := by
        intro u v
        rw [Nat.xor_assoc (u ^^^ v), Nat.xor_self, Nat.xor_zero]
      rw [e]
      exact tbits_lose _ (Nat.mod_lt _ (by decide)) _ (Nat.mod_lt _ (by decide)) _ h0 _ h1 hx
  · exact absurd rfl hbit

/-- One level of evaluation reads a key only through its correction words. -/
theorem evalLevel_congr {F : Type} (prf : List Nat → List Nat) (f : Fss) (x : Nat)
    (k0 k1 : FssKeyEq2P F) (h : k0.CW = k1.CW) (st : List Nat × Nat) (i : Nat) :
    evalLevel prf f k0 x st i = evalLevel prf f k1 x st i := by
  simp only [evalLevel, h]

end dpf

/-! ## The distributed point function: correctness (claim C1) -/

namespace dpf

/-- The invariant of the level loop of key generation. -/
theorem genLoop_inv (prf : List Nat → List Nat) (f : Fss) (a : Nat) (st0 : GenState) (n : Nat)
    (h0 : st0.tCurr0 < 2) (h1 : st0.tCurr1 < 2) (hx : st0.tCurr0 ^^^ st0.tCurr1 = 1)
    (hl : st0.CW0.length = n) (hc : st0.CW1 = st0.CW0) (i : Nat) :
    ((List.range i).foldl (genLevel prf f a) st0).tCurr0 < 2 ∧
    ((List.range i).foldl (genLevel prf f a) st0).tCurr1 < 2 ∧
    ((List.range i).foldl (genLevel prf f a) st0).tCurr0
      ^^^ ((List.range i).foldl (genLevel prf f a) st0).tCurr1 = 1 ∧
    ((List.range i).foldl (genLevel prf f a) st0).CW0.length = n ∧
    ((List.range i).foldl (genLevel prf f a) st0).CW1
      = ((List.range i).foldl (genLevel prf f a) st0).CW0 := by
  induction i with
  | zero => exact ⟨h0, h1, hx, hl, hc⟩
  | succ i ih =>
    rw [List.range_succ, List.foldl_append]
    simp only [List.foldl_cons, List.foldl_nil]
    exact genLevel_inv prf f a _ i n ih.1 ih.2.1 ih.2.2.1 ih.2.2.2.1 ih.2.2.2.2

/-- The correction word of level `i` in the finished key is the one level `i` computed. -/
theorem genLoop_CW (prf : List Nat → List Nat) (f : Fss) (a : Nat) (st0 : GenState) (n : Nat)
    (h0 : st0.tCurr0 < 2) (h1 : st0.tCurr1 < 2) (hx : st0.tCurr0 ^^^ st0.tCurr1 = 1)
    (hl : st0.CW0.length = n) (hc : st0.CW1 = st0.CW0) (m i : Nat) (hi : i < m) (hm : m ≤ n) :
    ((List.range m).foldl (genLevel prf f a) st0).CW0.getD i []
      = correctionWord (prf ((List.range i).foldl (genLevel prf f a) st0).sCurr0)
          (prf ((List.range i).foldl (genLevel prf f a) st0).sCurr1)
          (getBit a (f.N - f.NumBits + i + 1) f.N) := by
  induction m with
  | zero => omega
  | succ m ih =>
    rw [List.range_succ, List.foldl_append]
    simp only [List.foldl_cons, List.foldl_nil]
    have hlen := (genLoop_inv prf f a st0 n h0 h1 hx hl hc m).2.2.2.1
    show (List.set _ m _).getD i [] = _
    rw [getD_set_list]
    by_cases him : i = m
    · subst him
      rw [if_pos ⟨rfl, by omega⟩]
    · rw [if_neg (fun h => him h.1)]
      exact ih (by omega) (by omega)

/-- The state of the two evaluations after `i` levels: on the path to `a` they are the states of
key generation, off the path they are equal. -/
theorem evalLoop_inv {F : Type} (prf : List Nat → List Nat) (f : Fss) (a x : Nat)
    (st0 : GenState) (k0 k1 : FssKeyEq2P F)
    (h0 : st0.tCurr0 < 2) (h1 : st0.tCurr1 < 2) (hx : st0.tCurr0 ^^^ st0.tCurr1 = 1)
    (hl : st0.CW0.length = f.NumBits) (hc : st0.CW1 = st0.CW0)
    (hk0 : k0.CW = ((List.range f.NumBits).foldl (genLevel prf f a) st0).CW0)
    (hk1 : k1.CW = ((List.range f.NumBits).foldl (genLevel prf f a) st0).CW0)
    (i : Nat) (hi : i ≤ f.NumBits) :
    ((∀ l, l < i →
        getBit x (f.N - f.NumBits + l + 1) f.N = getBit a (f.N - f.NumBits + l + 1) f.N) →
      (List.range i).foldl (evalLevel prf f k0 x) (st0.sCurr0, st0.tCurr0)
          = (((List.range i).foldl (genLevel prf f a) st0).sCurr0,
             ((List.range i).foldl (genLevel prf f a) st0).tCurr0) ∧
      (List.range i).foldl (evalLevel prf f k1 x) (st0.sCurr1, st0.tCurr1)
          = (((List.range i).foldl (genLevel prf f a) st0).sCurr1,
             ((List.range i).foldl (genLevel prf f a) st0).tCurr1)) ∧
    (¬ (∀ l, l < i →
        getBit x (f.N - f.NumBits + l + 1) f.N = getBit a (f.N - f.NumBits + l + 1) f.N) →
      (List.range i).foldl (evalLevel prf f k0 x) (st0.sCurr0, st0.tCurr0)
        = (List.range i).foldl (evalLevel prf f k1 x) (st0.sCurr1, st0.tCurr1)) := by
  induction i with
  | zero =>
    refine ⟨fun _ => ⟨rfl, rfl⟩, fun h => ?_⟩
    exact absurd (fun l hl => absurd hl (Nat.not_lt_zero l)) h
  | succ i ih =>
    obtain ⟨ihOn, ihOff⟩ := ih (by omega)
    have hinv := genLoop_inv prf f a st0 f.NumBits h0 h1 hx hl hc i
    have hcw := genLoop_CW prf f a st0 f.NumBits h0 h1 hx hl hc f.NumBits i (by omega)
      (Nat.le_refl _)
    have hcw0 := hcw
    have hcw1 := hcw
    rw [← hk0] at hcw0
    rw [← hk1] at hcw1
    simp only [List.range_succ, List.foldl_append, List.foldl_cons, List.foldl_nil]
    constructor
    · intro hall
      obtain ⟨e0, e1⟩ := ihOn (fun l hl => hall l (by omega))
      rw [e0, e1]
      exact ⟨evalLevel_onpath0 prf f a x k0 _ i (hall i (by omega)) hcw0,
        evalLevel_onpath1 prf f a x k1 _ i (hall i (by omega)) hcw1⟩
    · intro hnot
      by_cases hpre : ∀ l, l < i →
          getBit x (f.N - f.NumBits + l + 1) f.N = getBit a (f.N - f.NumBits + l + 1) f.N
      · obtain ⟨e0, e1⟩ := ihOn hpre
        rw [e0, e1]
        have hbit : getBit x (f.N - f.NumBits + i + 1) f.N
            ≠ getBit a (f.N - f.NumBits + i + 1) f.N := by
          intro hb
          apply hnot
          intro l hl
          by_cases hli : l = i
          · subst hli; exact hb
          · exact hpre l (by omega)
        exact evalLevel_diverge prf f a x k0 k1 _ i hinv.1 hinv.2.1 hinv.2.2.1 hbit hcw0 hcw1
      · rw [ihOff hpre]
        exact evalLevel_congr prf f x k0 k1 (by rw [hk0, hk1]) _ i

theorem copyAt_fresh16 (l : List Nat) (h : l.length = 16) :
    copyAt (List.replicate 16 0) 0 l = l := by
  unfold copyAt
  simp only [List.take_zero, List.nil_append, List.length_replicate, Nat.sub_zero, Nat.zero_add]
  rw [List.take_of_length_le (by omega), List.drop_of_length_le (by simp [h]), List.append_nil]

theorem tInit_bits (t : Nat) (h : t < 2) : t ^^^ 1 < 2 ∧ t ^^^ (t ^^^ 1) = 1 := by
  interval_cases t <;> decide

/-- C1, as amended (FSS correctness): for a bit width `NumBits <= N`, every target `a` and input
`x` below `2^NumBits`, every field element `b`, every expander, conversion and random bytes, the
keys `(K_0, K_1)` of `GenerateTreePF(a, b)` satisfy `Eval(K_0, x) + Eval(K_1, x) = b` if `x = a`
and `0` otherwise, where `Eval` is the signed per-party output
`(-1)^party * (convert(S_final) + T_final * FinalCW)` of section 4.3. -/
theorem Eval_sum {F : Type} [CommRing F] (prf : List Nat → List Nat) (SetBytes : List Nat → F)
    (rnd : Nat → Nat) (f : Fss) (a x : Nat) (b : F) (hN : f.NumBits ≤ f.N)
    (ha : a < 2 ^ f.NumBits) (hx : x < 2 ^ f.NumBits) :
    Eval prf SetBytes f 0 (GenerateTreePF prf SetBytes rnd f a b).1 x
      + Eval prf SetBytes f 1 (GenerateTreePF prf SetBytes rnd f a b).2 x
      = if x = a then b else 0 := by
  have hlen0 : (((List.range (16 + 1)).map rnd).take 16).length = 16 := by simp
  have hlen1 : ((List.range 16).map (fun j => rnd (16 + 1 + j))).length = 16 := by simp
  have hbits := tInit_bits (((List.range (16 + 1)).map rnd).getD 16 0 % 2)
    (Nat.mod_lt _ (by decide))
  obtain ⟨st0, hst0⟩ : ∃ st0 : GenState, st0 =
      { sCurr0 := ((List.range (16 + 1)).map rnd).take 16
        sCurr1 := (List.range 16).map (fun j => rnd (16 + 1 + j))
        tCurr0 := ((List.range (16 + 1)).map rnd).getD 16 0 % 2
        tCurr1 := ((List.range (16 + 1)).map rnd).getD 16 0 % 2 ^^^ 1
        CW0 := List.replicate f.NumBits (List.replicate (16 + 2) 0)
        CW1 := List.replicate f.NumBits (List.replicate (16 + 2) 0) } := ⟨_, rfl⟩
  have h0 : st0.tCurr0 < 2 := by rw [hst0]; exact Nat.mod_lt _ (by decide)
  have h1 : st0.tCurr1 < 2 := by rw [hst0]; exact hbits.1
  have hxr : st0.tCurr0 ^^^ st0.tCurr1 = 1 := by rw [hst0]; exact hbits.2
  have hl : st0.CW0.length = f.NumBits := by rw [hst0]; simp
  have hc : st0.CW1 = st0.CW0 := by rw [hst0]
  have hinv := genLoop_inv prf f a st0 f.NumBits h0 h1 hxr hl hc f.NumBits
  simp only [GenerateTreePF, Eval, copyAt_fresh16 _ hlen0, copyAt_fresh16 _ hlen1]
  rw [← hst0]
  have hs0 : ((List.range (16 + 1)).map rnd).take 16 = st0.sCurr0 := by rw [hst0]
  have hs1 : (List.range 16).map (fun j => rnd (16 + 1 + j)) = st0.sCurr1 := by rw [hst0]
  have ht0 : ((List.range (16 + 1)).map rnd).getD 16 0 % 2 = st0.tCurr0 := by rw [hst0]
  have ht1 : ((List.range (16 + 1)).map rnd).getD 16 0 % 2 ^^^ 1 = st0.tCurr1 := by rw [hst0]
  rw [hs0, hs1, ht1, ht0]
  obtain ⟨hOn, hOff⟩ := evalLoop_inv (F := F) prf f a x st0
    { SInit := st0.sCurr0, TInit := st0.tCurr0,
      CW := ((List.range f.NumBits).foldl (genLevel prf f a) st0).CW0,
      FinalCW := if ((List.range f.NumBits).foldl (genLevel prf f a) st0).tCurr1 = 1 then
          -(0 + -SetBytes ((List.range f.NumBits).foldl (genLevel prf f a) st0).sCurr0
            + SetBytes ((List.range f.NumBits).foldl (genLevel prf f a) st0).sCurr1 + b)
        else 0 + -SetBytes ((List.range f.NumBits).foldl (genLevel prf f a) st0).sCurr0
            + SetBytes ((List.range f.NumBits).foldl (genLevel prf f a) st0).sCurr1 + b }
    { SInit := st0.sCurr1, TInit := st0.tCurr1,
      CW := ((List.range f.NumBits).foldl (genLevel prf f a) st0).CW1,
      FinalCW := if ((List.range f.NumBits).foldl (genLevel prf f a) st0).tCurr1 = 1 then
          -(0 + -SetBytes ((List.range f.NumBits).foldl (genLevel prf f a) st0).sCurr0
            + SetBytes ((List.range f.NumBits).foldl (genLevel prf f a) st0).sCurr1 + b)
        else 0 + -SetBytes ((List.range f.NumBits).foldl (genLevel prf f a) st0).sCurr0
            + SetBytes ((List.range f.NumBits).foldl (genLevel prf f a) st0).sCurr1 + b }
    h0 h1 hxr hl hc rfl hinv.2.2.2.2 f.NumBits (Nat.le_refl _)
  by_cases hxa : x = a
  · subst hxa
    obtain ⟨e0, e1⟩ := hOn (fun _ _ => rfl)
    rw [if_pos rfl, e0, e1]
    simp only []
    obtain ⟨g0, g1, gx, _, _⟩ := hinv
    generalize ((List.range f.NumBits).foldl (genLevel prf f x) st0).tCurr0 = t0 at g0 gx ⊢
    generalize ((List.range f.NumBits).foldl (genLevel prf f x) st0).tCurr1 = t1 at g1 gx ⊢
    interval_cases t0 <;> interval_cases t1
    · exact absurd gx (by decide)
    · simp only [if_true, Nat.cast_zero, Nat.cast_one]
      ring
    · simp only [show ¬ ((0 : Nat) = 1) by decide, if_false, Nat.cast_zero, Nat.cast_one]
      ring
    · exact absurd gx (by decide)
  · have hne : ¬ (∀ l, l < f.NumBits →
        getBit x (f.N - f.NumBits + l + 1) f.N = getBit a (f.N - f.NumBits + l + 1) f.N) :=
      fun h => hxa (eq_of_getBit_eq f a x hN ha hx h)
    rw [if_neg hxa, hOff hne]
    ring



/-- C1, as amended, at scenario S2 (`n = 8`, `a = 0xA5`, `b = 1234`) with the stand-in expander
and conversion over `F_p`, `p = 2^31 - 1`: on the target `x = 0xA5` and off it at `x = 0x5A`. -/
theorem Eval_sum_witness :
    (Eval (F := ZMod 2147483647) sampleExpand sampleSetBytes ⟨8, 64⟩ 0
        (GenerateTreePF sampleExpand sampleSetBytes (fun i => i * 37 % 256) ⟨8, 64⟩ 165 1234).1 165
      + Eval sampleExpand sampleSetBytes ⟨8, 64⟩ 1
        (GenerateTreePF sampleExpand sampleSetBytes (fun i => i * 37 % 256) ⟨8, 64⟩ 165 1234).2 165
      = if 165 = 165 then 1234 else 0) ∧
    (Eval (F := ZMod 2147483647) sampleExpand sampleSetBytes ⟨8, 64⟩ 0
        (GenerateTreePF sampleExpand sampleSetBytes (fun i => i * 37 % 256) ⟨8, 64⟩ 165 1234).1 90
      + Eval sampleExpand sampleSetBytes ⟨8, 64⟩ 1
        (GenerateTreePF sampleExpand sampleSetBytes (fun i => i * 37 % 256) ⟨8, 64⟩ 165 1234).2 90
      = if 90 = 165 then 1234 else 0) :=
  ⟨Eval_sum sampleExpand sampleSetBytes (fun i => i * 37 % 256) ⟨8, 64⟩ 165 165 1234
     (by decide) (by decide) (by decide),
   Eval_sum sampleExpand sampleSetBytes (fun i => i * 37 % 256) ⟨8, 64⟩ 165 90 1234
     (by decide) (by decide) (by decide)⟩

/-- C1 fails as stated. At scenario S2 (`n = 8`, `a = 0xA5`, `b = 1234`, `p = 2^31 - 1`) with the
stand-in expander and conversion, the difference `Eval(K_0, x) - Eval(K_1, x)` of the signed
outputs is not `1234` at `x = 0xA5` and is not `0` at `x = 0x5A`: the signed outputs add up to the
point function, so their difference is off by twice party 1's output. -/
theorem Eval_difference_fails :
    (Eval (F := ZMod 2147483647) sampleExpand sampleSetBytes ⟨8, 64⟩ 0
        (GenerateTreePF sampleExpand sampleSetBytes (fun i => i * 37 % 256) ⟨8, 64⟩ 165 1234).1 165
      - Eval sampleExpand sampleSetBytes ⟨8, 64⟩ 1
        (GenerateTreePF sampleExpand sampleSetBytes (fun i => i * 37 % 256) ⟨8, 64⟩ 165 1234).2 165
      ≠ 1234) ∧
    (Eval (F := ZMod 2147483647) sampleExpand sampleSetBytes ⟨8, 64⟩ 0
        (GenerateTreePF sampleExpand sampleSetBytes (fun i => i * 37 % 256) ⟨8, 64⟩ 165 1234).1 90
      - Eval sampleExpand sampleSetBytes ⟨8, 64⟩ 1
        (GenerateTreePF sampleExpand sampleSetBytes (fun i => i * 37 % 256) ⟨8, 64⟩ 165 1234).2 90
      ≠ 0) := by
  decide

end dpf

/-! ## The LWE server: `AnswerBytes` (claims C11 and C12) and the precondition of `Mul` (C13) -/

namespace server

open matrix

/-- `AnswerBytes` on a query that decodes and is answered. -/
theorem AnswerBytes_of_ok (db m a : Matrix) (q : List Nat) (hq : BytesToMatrix q = .ok m)
    (ha : LWE.Answer db m = .ok a) :
    LWE.AnswerBytes db q = .ok (MatrixToBytes a, none) := by
  simp only [LWE.AnswerBytes, hq, ha]

/-- C11 (`AnswerBytes` is decode, dispatch, encode): for a byte string that is the encoding of a
well-formed matrix `m` compatible with the database (non-empty, with as many columns as the
database has rows), the decoder returns `m`, `Answer` returns a matrix `a`, and
`LWE.AnswerBytes` returns `MatrixToBytes a` with no error. -/
theorem AnswerBytes_decode_dispatch_encode (db m : Matrix) (hdb : db.WellFormed)
    (hm : m.WellFormed) (hr : m.rows < 4294967296) (hc : m.cols < 4294967296)
    (hcompat : m.cols = db.rows) (hr0 : 0 < m.rows) (hc0 : 0 < m.cols) (hd0 : 0 < db.cols) :
    ∃ a, BytesToMatrix (MatrixToBytes m) = .ok m ∧ LWE.Answer db m = .ok a ∧
      LWE.AnswerBytes db (MatrixToBytes m) = .ok (MatrixToBytes a, none) := by
  have h1 : BytesToMatrix (MatrixToBytes m) = .ok m := by
    have hlen : ¬ (MatrixToBytes m).length < 8 := by rw [MatrixToBytes_length]; omega
    rw [BytesToMatrix, if_neg hlen, MatrixToBytes_eq]
    simp only [List.take_succ_cons, List.take_zero, List.drop_succ_cons, List.drop_zero,
      Uint32BE, List.getD_cons_zero, List.getD_cons_succ,
      ByteSliceToUint32Slice_Uint32SliceToByteSlice _ hm.2]
    have e1 : u32 m.rows / 16777216 % 256 * 16777216 + u32 m.rows / 65536 % 256 * 65536
        + u32 m.rows / 256 % 256 * 256 + u32 m.rows % 256 = m.rows := by
      unfold u32; omega
    have e2 : u32 m.cols / 16777216 % 256 * 16777216 + u32 m.cols / 65536 % 256 * 65536
        + u32 m.cols / 256 % 256 * 256 + u32 m.cols % 256 = m.cols := by
      unfold u32; omega
    rw [e1, e2]
  have h2 := Mul_returns m db hm.1 hdb.1 hcompat hr0 hc0 hd0
  exact ⟨_, h1, h2, AnswerBytes_of_ok db m _ _ h1 h2⟩

/-- C11 at the database `[[1,2],[3,4]]` and the encoding of the query `[5,6]`. -/
theorem AnswerBytes_decode_dispatch_encode_witness :
    LWE.AnswerBytes ⟨2, 2, [1, 2, 3, 4]⟩ (MatrixToBytes ⟨1, 2, [5, 6]⟩)
      = .ok ([0, 0, 0, 1, 0, 0, 0, 2, 23, 0, 0, 0, 34, 0, 0, 0], none) ∧
    ∃ a, BytesToMatrix (MatrixToBytes ⟨1, 2, [5, 6]⟩) = .ok ⟨1, 2, [5, 6]⟩ ∧
      LWE.Answer ⟨2, 2, [1, 2, 3, 4]⟩ ⟨1, 2, [5, 6]⟩ = .ok a ∧
      LWE.AnswerBytes ⟨2, 2, [1, 2, 3, 4]⟩ (MatrixToBytes ⟨1, 2, [5, 6]⟩)
        = .ok (MatrixToBytes a, none) :=
  ⟨by decide,
   AnswerBytes_decode_dispatch_encode ⟨2, 2, [1, 2, 3, 4]⟩ ⟨1, 2, [5, 6]⟩ (by decide) (by decide)
     (by decide) (by decide) (by decide) (by decide) (by decide) (by decide)⟩

/-- C12, as amended (malformed LWE queries abort the call): a query of fewer than eight bytes
makes `LWE.AnswerBytes` panic on a slice bound; a query that decodes to a matrix whose column
count differs from the database's row count makes it panic with a dimension mismatch; and
whenever `LWE.AnswerBytes` returns, the error it returns is `nil`. -/
theorem AnswerBytes_malformed (db : Matrix) (q : List Nat) :
    (q.length < 8 → LWE.AnswerBytes db q = .error .indexOutOfRange) ∧
    (∀ m, BytesToMatrix q = .ok m → m.cols ≠ db.rows →
      LWE.AnswerBytes db q = .error .dimensionMismatch) ∧
    (∀ out err, LWE.AnswerBytes db q = .ok (out, err) → err = none) := by
  refine ⟨fun h => ?_, fun m hm hne => ?_, fun out err h => ?_⟩
  · simp only [LWE.AnswerBytes, BytesToMatrix, if_pos h]
  · simp only [LWE.AnswerBytes, hm, LWE.Answer, matrix.Mul, ne_eq, hne, not_false_eq_true, if_true]
  · unfold LWE.AnswerBytes at h
    split at h
    · exact Except.noConfusion h
    · split at h
      · exact Except.noConfusion h
      · have := Except.ok.inj h
        exact (congrArg Prod.snd this).symm

/-- C12, as amended, at the database `[[1],[2]]`: the empty query, and the encoding of a `1 x 1`
matrix. -/
theorem AnswerBytes_malformed_witness :
    LWE.AnswerBytes ⟨2, 1, [1, 2]⟩ [] = .error .indexOutOfRange ∧
    LWE.AnswerBytes ⟨2, 1, [1, 2]⟩ (MatrixToBytes ⟨1, 1, [3]⟩) = .error .dimensionMismatch :=
  ⟨(AnswerBytes_malformed ⟨2, 1, [1, 2]⟩ []).1 (by decide),
   (AnswerBytes_malformed ⟨2, 1, [1, 2]⟩ (MatrixToBytes ⟨1, 1, [3]⟩)).2.1 ⟨1, 1, [3]⟩
     (by decide) (by decide)⟩

/-- C12 fails as stated: no malformed query is answered with an error value. At the database
`[[1],[2]]` the empty query and the query `1 x 1` of incompatible dimensions abort the call with a
panic, and the query with header `1 x 2` and a payload of three words (twelve bytes, not eight) is
answered, with a `nil` error. -/
theorem AnswerBytes_returns_no_error :
    LWE.AnswerBytes ⟨2, 1, [1, 2]⟩ [] = .error .indexOutOfRange ∧
    LWE.AnswerBytes ⟨2, 1, [1, 2]⟩ [0, 0, 0, 1, 0, 0, 0, 1, 3, 0, 0, 0]
      = .error .dimensionMismatch ∧
    LWE.AnswerBytes ⟨2, 1, [1, 2]⟩
        [0, 0, 0, 1, 0, 0, 0, 2, 3, 0, 0, 0, 4, 0, 0, 0, 5, 0, 0, 0]
      = .ok ([0, 0, 0, 1, 0, 0, 0, 1, 11, 0, 0, 0], none) := by
  decide

end server

namespace matrix

/-- The precondition of `Mul` where it is the only one: on well-formed matrices none of which is
empty, `Mul` returns a result when `a.cols = b.rows`; and on all matrices it fails with a
dimension mismatch when `a.cols != b.rows`. -/
theorem Mul_precondition (a b : Matrix) :
    (a.WellFormed → b.WellFormed → a.cols = b.rows → 0 < a.rows → 0 < a.cols → 0 < b.cols →
      ∃ c, Mul a b = .ok c) ∧
    (a.cols ≠ b.rows → Mul a b = .error .dimensionMismatch) := by
  refine ⟨fun ha hb hab hr hn hc => ⟨_, Mul_returns a b ha.1 hb.1 hab hr hn hc⟩, fun h => ?_⟩
  simp only [Mul, ne_eq, h, not_false_eq_true, if_true]

/-- C13 at its failing inputs: with `a.cols = b.rows`, `Mul` panics with an index out of range
when an operand is empty: `&a.data[0]` on the `0 x 2` matrix, `&b.data[0]` on the `2 x 0`
matrix, and both for the `2 x 0` by `0 x 3` pair. -/
theorem Mul_empty_operand_panics :
    Mul (New 0 2) (New 2 3) = .error .indexOutOfRange ∧
    Mul (New 3 2) (New 2 0) = .error .indexOutOfRange ∧
    Mul (New 2 0) (New 0 3) = .error .indexOutOfRange ∧
    (New 0 2).WellFormed ∧ (New 2 3).WellFormed ∧ (New 0 2).cols = (New 2 3).rows := by
  decide

end matrix

/-! ## `Add` and `Sub` (claim C14) -/

namespace matrix

theorem addLoop_spec (la : List Nat) :
    ∀ lb : List Nat, la.length ≤ lb.length →
      (addLoop la lb).2 = .ok () ∧ (addLoop la lb).1.length = la.length ∧
      ∀ i, i < la.length →
        (addLoop la lb).1.getD i 0 = (la.getD i 0 + lb.getD i 0) % 4294967296 := by
  induction la with
  | nil =>
    intro lb _
    refine ⟨rfl, rfl, fun i hi => ?_⟩
    simp at hi
  | cons x xs ih =>
    intro lb hl
    cases lb with
    | nil => simp at hl
    | cons y ys =>
      obtain ⟨h1, h2, h3⟩ := ih ys (by simpa using hl)
      refine ⟨by simp only [addLoop, h1], by simp only [addLoop, List.length_cons, h2],
        fun i hi => ?_⟩
      cases i with
      | zero => simp [addLoop, u32]
      | succ i =>
        simp only [addLoop, List.getD_cons_succ]
        exact h3 i (by simpa using hi)

theorem subLoop_spec (la : List Nat) :
    ∀ lb : List Nat, la.length ≤ lb.length →
      (subLoop la lb).2 = .ok () ∧ (subLoop la lb).1.length = la.length ∧
      ∀ i, i < la.length →
        (subLoop la lb).1.getD i 0
          = (la.getD i 0 + 4294967296 - lb.getD i 0 % 4294967296) % 4294967296 := by
  induction la with
  | nil =>
    intro lb _
    refine ⟨rfl, rfl, fun i hi => ?_⟩
    simp at hi
  | cons x xs ih =>
    intro lb hl
    cases lb with
    | nil => simp at hl
    | cons y ys =>
      obtain ⟨h1, h2, h3⟩ := ih ys (by simpa using hl)
      refine ⟨by simp only [subLoop, h1], by simp only [subLoop, List.length_cons, h2],
        fun i hi => ?_⟩
      cases i with
      | zero => simp [subLoop, u32]
      | succ i =>
        simp only [subLoop, List.getD_cons_succ]
        exact h3 i (by simpa using hi)

theorem getD_lt_of_wf (m : Matrix) (h : m.WellFormed) (i : Nat) : m.data.getD i 0 < 4294967296 := by
  by_cases hi : i < m.data.length
  · rw [List.getD_eq_getElem _ _ hi]
    exact h.2 _ (List.getElem_mem hi)
  · rw [List.getD_eq_default _ _ (by omega)]
    decide

/-- `a.Add(b)` on matrices of one shape whose data have one length. -/
theorem Add_ok (a b : Matrix) (hr : a.rows = b.rows) (hc : a.cols = b.cols)
    (hl : a.data.length = b.data.length) :
    (a.Add b).2.2 = .ok () ∧ (a.Add b).2.1 = b ∧ (a.Add b).1.rows = a.rows ∧
    (a.Add b).1.cols = a.cols ∧ (a.Add b).1.data.length = a.data.length ∧
    ∀ i, i < a.data.length →
      (a.Add b).1.data.getD i 0 = (a.data.getD i 0 + b.data.getD i 0) % 4294967296 := by
  have hcond : ¬ (a.cols ≠ b.cols ∨ a.rows ≠ b.rows) := by
    intro h
    rcases h with h | h
    · exact h hc
    · exact h hr
  obtain ⟨h1, h2, h3⟩ := addLoop_spec a.data b.data (by omega)
  unfold Matrix.Add
  rw [if_neg hcond]
  exact ⟨h1, rfl, rfl, rfl, h2, h3⟩

/-- `a.Sub(b)` on matrices of one shape whose data have one length. -/
theorem Sub_ok (a b : Matrix) (hr : a.rows = b.rows) (hc : a.cols = b.cols)
    (hl : a.data.length = b.data.length) :
    (a.Sub b).2.2 = .ok () ∧ (a.Sub b).2.1 = b ∧ (a.Sub b).1.rows = a.rows ∧
    (a.Sub b).1.cols = a.cols ∧ (a.Sub b).1.data.length = a.data.length ∧
    ∀ i, i < a.data.length →
      (a.Sub b).1.data.getD i 0
        = (a.data.getD i 0 + 4294967296 - b.data.getD i 0 % 4294967296) % 4294967296 := by
  have hcond : ¬ (a.cols ≠ b.cols ∨ a.rows ≠ b.rows) := by
    intro h
    rcases h with h | h
    · exact h hc
    · exact h hr
  obtain ⟨h1, h2, h3⟩ := subLoop_spec a.data b.data (by omega)
  unfold Matrix.Sub
  rw [if_neg hcond]
  exact ⟨h1, rfl, rfl, rfl, h2, h3⟩

/-- C14 (`Add` and `Sub` are element-wise modulo `2^32` and shape-checked): for well-formed
matrices `a`, `b` of equal shape, `a.Add(b)` returns normally with every `a.data[i]` replaced by
`(a.data[i] + b.data[i]) mod 2^32` and `a.Sub(b)` with `(a.data[i] - b.data[i]) mod 2^32`, the
shape of `a` and all of `b` unchanged; when the shapes differ both panic with a dimension
mismatch and `a` is unchanged. -/
theorem Add_Sub_elementwise (a b : Matrix) :
    (a.WellFormed → b.WellFormed → a.rows = b.rows → a.cols = b.cols →
      ((a.Add b).2.2 = .ok () ∧ (a.Add b).2.1 = b ∧ (a.Add b).1.rows = a.rows ∧
        (a.Add b).1.cols = a.cols ∧ (a.Add b).1.data.length = a.data.length ∧
        ∀ i, i < a.data.length →
          (a.Add b).1.data.getD i 0 = (a.data.getD i 0 + b.data.getD i 0) % 4294967296) ∧
      ((a.Sub b).2.2 = .ok () ∧ (a.Sub b).2.1 = b ∧ (a.Sub b).1.rows = a.rows ∧
        (a.Sub b).1.cols = a.cols ∧ (a.Sub b).1.data.length = a.data.length ∧
        ∀ i, i < a.data.length →
          (((a.Sub b).1.data.getD i 0 : Nat) : Int)
            = ((a.data.getD i 0 : Int) - (b.data.getD i 0 : Int)) % 4294967296)) ∧
    ((a.rows ≠ b.rows ∨ a.cols ≠ b.cols) →
      a.Add b = (a, b, .error .dimensionMismatch) ∧
      a.Sub b = (a, b, .error .dimensionMismatch)) := by
  constructor
  · intro ha hb hr hc
    have hl : a.data.length = b.data.length := by rw [ha.1, hb.1, hr, hc]
    refine ⟨Add_ok a b hr hc hl, ?_⟩
    obtain ⟨h1, h2, h3, h4, h5, h6⟩ := Sub_ok a b hr hc hl
    refine ⟨h1, h2, h3, h4, h5, fun i hi => ?_⟩
    rw [h6 i hi]
    have hx := getD_lt_of_wf a ha i
    have hy := getD_lt_of_wf b hb i
    omega
  · intro h
    have hcond : a.cols ≠ b.cols ∨ a.rows ≠ b.rows := by
      rcases h with h | h
      · exact Or.inr h
      · exact Or.inl h
    simp only [Matrix.Add, Matrix.Sub, if_pos hcond, and_self]

/-- C14 at `a = [[4294967295, 7]]`, `b = [[2, 9]]`, and at matrices of different shapes. -/
theorem Add_Sub_elementwise_witness :
    Matrix.Add ⟨1, 2, [4294967295, 7]⟩ ⟨1, 2, [2, 9]⟩
      = (⟨1, 2, [1, 16]⟩, ⟨1, 2, [2, 9]⟩, .ok ()) ∧
    Matrix.Sub ⟨1, 2, [4294967295, 7]⟩ ⟨1, 2, [2, 9]⟩
      = (⟨1, 2, [4294967293, 4294967294]⟩, ⟨1, 2, [2, 9]⟩, .ok ()) ∧
    (Matrix.Add ⟨1, 2, [4294967295, 7]⟩ ⟨1, 2, [2, 9]⟩).2.2 = .ok () ∧
    (Matrix.Add ⟨1, 2, [1, 2]⟩ ⟨2, 1, [3, 4]⟩
      = (⟨1, 2, [1, 2]⟩, ⟨2, 1, [3, 4]⟩, .error .dimensionMismatch) ∧
     Matrix.Sub ⟨1, 2, [1, 2]⟩ ⟨2, 1, [3, 4]⟩
      = (⟨1, 2, [1, 2]⟩, ⟨2, 1, [3, 4]⟩, .error .dimensionMismatch)) :=
  ⟨by decide, by decide,
   ((Add_Sub_elementwise ⟨1, 2, [4294967295, 7]⟩ ⟨1, 2, [2, 9]⟩).1 (by decide) (by decide)
     (by decide) (by decide)).1.1,
   (Add_Sub_elementwise ⟨1, 2, [1, 2]⟩ ⟨2, 1, [3, 4]⟩).2 (by decide)⟩

end matrix

/-! ## The LWE reconstruction identity (claim C18) -/

namespace matrix

/-- The product of a matrix by a column: entry `i` of the result. -/
theorem multiply_column (aRows aCols : Nat) (a b : List Nat) (i : Nat) (hi : i < aRows) :
    (multiplyRef aRows aCols 1 a b (List.replicate (aRows * 1) 0)).getD i 0
      = (∑ k in Finset.range aCols, a.getD (aCols * i + k) 0 * b.getD k 0) % 4294967296 := by
  have := (multiply_zero_spec aRows aCols 1 a b).2 i 0 hi (by decide)
  simp only [Nat.one_mul, Nat.add_zero] at this
  rw [this]

/-- The identity behind the LWE reconstruction, in the ring of integers modulo `2^32`. -/
theorem reconstruction_ring (M N j : Nat) (hj : j < M) (d e : Nat → ZMod 4294967296)
    (A : Nat → Nat → ZMod 4294967296) (s : Nat → ZMod 4294967296) (delta : ZMod 4294967296) :
    (∑ k in Finset.range M,
        d k * ((∑ n in Finset.range N, A k n * s n) + e k + (if k = j then delta else 0)))
      - ∑ n in Finset.range N, (∑ k in Finset.range M, d k * A k n) * s n
      = (∑ k in Finset.range M, d k * e k) + delta * d j := by
  have h1 : ∑ k in Finset.range M, d k * (if k = j then delta else 0) = delta * d j := by
    rw [Finset.sum_eq_single j]
    · rw [if_pos rfl, mul_comm]
    · intro k _ hne
      rw [if_neg hne, mul_zero]
    · intro h
      exact absurd (Finset.mem_range.2 hj) h
  have h2 : ∑ n in Finset.range N, (∑ k in Finset.range M, d k * A k n) * s n
      = ∑ k in Finset.range M, d k * ∑ n in Finset.range N, A k n * s n := by
    simp only [Finset.sum_mul, Finset.mul_sum]
    rw [Finset.sum_comm]
    apply Finset.sum_congr rfl
    intro k _
    apply Finset.sum_congr rfl
    intro n _
    ring
  simp only [mul_add, Finset.sum_add_distrib, h1, h2]
  ring

end matrix

namespace matrix

/-- The reconstruction identity on non-empty matrices: every product, sum and difference of the
computation returns, and entry `i` of `Mul(DB, query) - Mul(D, s)` is entry `i` of `Mul(DB, e)`
plus `2^31 * DB[i][j]` modulo `2^32`. -/
theorem reconstruction_nonempty (DB A s e : Matrix) (j : Nat)
    (hDB : DB.WellFormed) (hA : A.WellFormed) (hs : s.WellFormed) (he : e.WellFormed)
    (hDA : DB.cols = A.rows) (hAs : A.cols = s.rows) (hs1 : s.cols = 1)
    (heM : e.rows = A.rows) (he1 : e.cols = 1)
    (hL : 0 < DB.rows) (hM : 0 < DB.cols) (hN : 0 < A.cols) (hj : j < DB.cols)
    (hL31 : DB.rows < 2147483648) (hM31 : DB.cols < 2147483648) (hN31 : A.cols < 2147483648)
    (hLM : DB.rows * DB.cols ≤ 2147483648) (hMN : DB.cols * A.cols ≤ 2147483648)
    (hLN : DB.rows * A.cols ≤ 2147483648) :
    ∃ As D ans Ds DBe : Matrix,
      Mul A s = .ok As ∧ Mul DB A = .ok D ∧
      (As.Add e).2.2 = .ok () ∧
      ((As.Add e).1.Add (scaledUnit 2147483648 DB.cols j)).2.2 = .ok () ∧
      Mul DB ((As.Add e).1.Add (scaledUnit 2147483648 DB.cols j)).1 = .ok ans ∧
      Mul D s = .ok Ds ∧ Mul DB e = .ok DBe ∧
      (ans.Sub Ds).2.2 = .ok () ∧ (ans.Sub Ds).1.rows = DB.rows ∧ (ans.Sub Ds).1.cols = 1 ∧
      ∀ i, i < DB.rows →
        (ans.Sub Ds).1.data.getD i 0
          = (DBe.data.getD i 0 + 2147483648 * DB.data.getD (DB.cols * i + j) 0)
              % 4294967296 := by
  have hMA : 0 < A.rows := by omega
  -- the five products and the two sums
  have hAs' := Mul_ok_of_length A s hA.1 hs.1 hAs hMA hN (by omega) (by omega) hN31 (by omega)
    (by rw [← hDA]; exact hMN) (by rw [hs1, Nat.mul_one]; omega)
    (by rw [hs1, Nat.mul_one]; omega)
  have hD' := Mul_ok_of_length DB A hDB.1 hA.1 hDA hL hM hN hL31 hM31 hN31 hLM hMN hLN
  have hDBe' := Mul_ok_of_length DB e hDB.1 he.1 (by omega) hL hM (by omega) hL31 hM31
    (by omega) hLM (by rw [he1, Nat.mul_one]; omega) (by rw [he1, Nat.mul_one]; omega)
  obtain ⟨As, hAsdef⟩ : ∃ As : Matrix, As = Matrix.mk A.rows s.cols
      (multiplyRef A.rows A.cols s.cols A.data s.data
        (List.replicate (A.rows * s.cols) 0)) := ⟨_, rfl⟩
  obtain ⟨D, hDdef⟩ : ∃ D : Matrix, D = Matrix.mk DB.rows A.cols
      (multiplyRef DB.rows DB.cols A.cols DB.data A.data
        (List.replicate (DB.rows * A.cols) 0)) := ⟨_, rfl⟩
  obtain ⟨DBe, hDBedef⟩ : ∃ DBe : Matrix, DBe = Matrix.mk DB.rows e.cols
      (multiplyRef DB.rows DB.cols e.cols DB.data e.data
        (List.replicate (DB.rows * e.cols) 0)) := ⟨_, rfl⟩
  rw [← hAsdef] at hAs'
  rw [← hDdef] at hD'
  rw [← hDBedef] at hDBe'
  have hAsr : As.rows = A.rows := by rw [hAsdef]
  have hAsc : As.cols = 1 := by rw [hAsdef]; exact hs1
  have hAsl : As.data.length = A.rows := by
    rw [hAsdef]
    show (multiplyRef A.rows A.cols s.cols A.data s.data _).length = A.rows
    rw [(multiply_zero_spec A.rows A.cols s.cols A.data s.data).1, hs1, Nat.mul_one]
  have hAsv : ∀ k, k < A.rows → As.data.getD k 0
      = (∑ n in Finset.range A.cols, A.data.getD (A.cols * k + n) 0 * s.data.getD n 0)
          % 4294967296 := by
    intro k hk
    rw [hAsdef]
    show (multiplyRef A.rows A.cols s.cols A.data s.data _).getD k 0 = _
    rw [hs1]
    exact multiply_column A.rows A.cols A.data s.data k hk
  have hel : e.data.length = A.rows := by rw [he.1, heM, he1, Nat.mul_one]
  obtain ⟨q1ok, _, q1r, q1c, q1l, q1v⟩ := Add_ok As e (by omega) (by omega) (by omega)
  have hul : (scaledUnit 2147483648 DB.cols j).data.length = DB.cols := by
    simp [scaledUnit]
  obtain ⟨qok, _, qr, qc, ql, qv⟩ := Add_ok (As.Add e).1 (scaledUnit 2147483648 DB.cols j)
    (by rw [q1r, hAsr]; exact hDA.symm) (by rw [q1c, hAsc]; rfl) (by rw [q1l, hAsl, hul]; omega)
  obtain ⟨Q, hQdef⟩ : ∃ Q : Matrix,
      Q = ((As.Add e).1.Add (scaledUnit 2147483648 DB.cols j)).1 := ⟨_, rfl⟩
  rw [← hQdef] at qr qc ql qv
  have hQr : Q.rows = DB.cols := by rw [qr, q1r, hAsr]; exact hDA.symm
  have hQc : Q.cols = 1 := by rw [qc, q1c, hAsc]
  have hQl : Q.data.length = DB.cols := by rw [ql, q1l, hAsl]; exact hDA.symm
  have hQv : ∀ k, k < DB.cols → Q.data.getD k 0
      = (((∑ n in Finset.range A.cols, A.data.getD (A.cols * k + n) 0 * s.data.getD n 0)
            % 4294967296 + e.data.getD k 0) % 4294967296
          + (if k = j then 2147483648 else 0)) % 4294967296 := by
    intro k hk
    rw [qv k (by rw [q1l, hAsl]; omega), q1v k (by rw [hAsl]; omega), hAsv k (by omega)]
    congr 2
    simp only [scaledUnit]
    exact benchmark.getD_map_range DB.cols k _ hk
  have hans' := Mul_ok_of_length DB Q hDB.1 (by rw [hQl, hQr, hQc, Nat.mul_one]) hQr.symm hL hM
    (by omega) hL31 hM31 (by omega) hLM (by rw [hQc, Nat.mul_one]; omega)
    (by rw [hQc, Nat.mul_one]; omega)
  have hDl : D.data.length = D.rows * D.cols := by
    rw [hDdef]
    exact (multiply_zero_spec DB.rows DB.cols A.cols DB.data A.data).1
  have hDs' := Mul_ok_of_length D s hDl hs.1 (by rw [hDdef]; exact hAs) (by rw [hDdef]; exact hL)
    (by rw [hDdef]; exact hN) (by omega) (by rw [hDdef]; exact hL31) (by rw [hDdef]; exact hN31)
    (by omega) (by rw [hDdef]; exact hLN) (by rw [hDdef, hs1]; show A.cols * 1 ≤ _; omega)
    (by rw [hDdef, hs1]; show DB.rows * 1 ≤ _; omega)
  obtain ⟨ans, hansdef⟩ : ∃ ans : Matrix, ans = Matrix.mk DB.rows Q.cols
      (multiplyRef DB.rows DB.cols Q.cols DB.data Q.data
        (List.replicate (DB.rows * Q.cols) 0)) := ⟨_, rfl⟩
  obtain ⟨Ds, hDsdef⟩ : ∃ Ds : Matrix, Ds = Matrix.mk D.rows s.cols
      (multiplyRef D.rows D.cols s.cols D.data s.data
        (List.replicate (D.rows * s.cols) 0)) := ⟨_, rfl⟩
  rw [← hansdef] at hans'
  rw [← hDsdef] at hDs'
  have hDr : D.rows = DB.rows := by rw [hDdef]
  have hDc : D.cols = A.cols := by rw [hDdef]
  have hansl : ans.data.length = DB.rows := by
    rw [hansdef]
    show (multiplyRef DB.rows DB.cols Q.cols DB.data Q.data _).length = DB.rows
    rw [(multiply_zero_spec DB.rows DB.cols Q.cols DB.data Q.data).1, hQc, Nat.mul_one]
  have hDsl : Ds.data.length = DB.rows := by
    rw [hDsdef]
    show (multiplyRef D.rows D.cols s.cols D.data s.data _).length = DB.rows
    rw [(multiply_zero_spec D.rows D.cols s.cols D.data s.data).1, hs1, Nat.mul_one, hDr]
  have hansv : ∀ i, i < DB.rows → ans.data.getD i 0
      = (∑ k in Finset.range DB.cols, DB.data.getD (DB.cols * i + k) 0 * Q.data.getD k 0)
          % 4294967296 := by
    intro i hi
    rw [hansdef]
    show (multiplyRef DB.rows DB.cols Q.cols DB.data Q.data _).getD i 0 = _
    rw [hQc]
    exact multiply_column DB.rows DB.cols DB.data Q.data i hi
  have hDv : ∀ i n, i < DB.rows → n < A.cols → D.data.getD (A.cols * i + n) 0
      = (∑ k in Finset.range DB.cols,
          DB.data.getD (DB.cols * i + k) 0 * A.data.getD (A.cols * k + n) 0) % 4294967296 := by
    intro i n hi hn
    rw [hDdef]
    exact (multiply_zero_spec DB.rows DB.cols A.cols DB.data A.data).2 i n hi hn
  have hDsv : ∀ i, i < DB.rows → Ds.data.getD i 0
      = (∑ n in Finset.range A.cols, D.data.getD (A.cols * i + n) 0 * s.data.getD n 0)
          % 4294967296 := by
    intro i hi
    rw [hDsdef]
    show (multiplyRef D.rows D.cols s.cols D.data s.data _).getD i 0 = _
    rw [hs1, hDc]
    exact multiply_column D.rows A.cols D.data s.data i (by omega)
  have hDBev : ∀ i, i < DB.rows → DBe.data.getD i 0
      = (∑ k in Finset.range DB.cols, DB.data.getD (DB.cols * i + k) 0 * e.data.getD k 0)
          % 4294967296 := by
    intro i hi
    rw [hDBedef]
    show (multiplyRef DB.rows DB.cols e.cols DB.data e.data _).getD i 0 = _
    rw [he1]
    exact multiply_column DB.rows DB.cols DB.data e.data i hi
  obtain ⟨sok, _, sr, sc, _, sv⟩ := Sub_ok ans Ds (by rw [hansdef, hDsdef, hDr])
    (by rw [hansdef, hDsdef]; show Q.cols = s.cols; omega) (by omega)
  refine ⟨As, D, ans, Ds, DBe, hAs', hD', q1ok, qok, ?_, hDs', hDBe', sok, ?_, ?_, ?_⟩
  · rw [← hQdef]; exact hans'
  · rw [sr, hansdef]
  · rw [sc, hansdef]; exact hQc
  · intro i hi
    rw [sv i (by omega), hansv i hi, hDsv i hi, hDBev i hi]
    apply (ZMod.natCast_eq_natCast_iff' _ _ 4294967296).1
    have hle : (∑ n in Finset.range A.cols, D.data.getD (A.cols * i + n) 0 * s.data.getD n 0)
        % 4294967296 % 4294967296
        ≤ (∑ k in Finset.range DB.cols, DB.data.getD (DB.cols * i + k) 0 * Q.data.getD k 0)
            % 4294967296 + 4294967296 := by
      have : (∑ n in Finset.range A.cols, D.data.getD (A.cols * i + n) 0 * s.data.getD n 0)
          % 4294967296 % 4294967296 < 4294967296 := Nat.mod_lt _ (by decide)
      omega
    rw [Nat.cast_sub hle]
    simp only [Nat.cast_add, Nat.cast_mul, Nat.cast_sum, ZMod.natCast_mod, ZMod.natCast_self,
      add_zero]
    have e1 : ∀ k ∈ Finset.range DB.cols,
        ((DB.data.getD (DB.cols * i + k) 0 : Nat) : ZMod 4294967296) * (Q.data.getD k 0 : Nat)
        = (DB.data.getD (DB.cols * i + k) 0 : Nat) *
            ((∑ n in Finset.range A.cols,
                ((A.data.getD (A.cols * k + n) 0 : Nat) : ZMod 4294967296)
                  * (s.data.getD n 0 : Nat))
              + (e.data.getD k 0 : Nat)
              + (if k = j then ((2147483648 : Nat) : ZMod 4294967296) else 0)) := by
      intro k hk
      rw [hQv k (Finset.mem_range.1 hk)]
      simp only [Nat.cast_add, Nat.cast_mul, Nat.cast_sum, ZMod.natCast_mod, Nat.cast_ite,
        Nat.cast_zero]
    have e2 : ∀ n ∈ Finset.range A.cols,
        ((D.data.getD (A.cols * i + n) 0 : Nat) : ZMod 4294967296) * (s.data.getD n 0 : Nat)
        = (∑ k in Finset.range DB.cols,
            ((DB.data.getD (DB.cols * i + k) 0 : Nat) : ZMod 4294967296)
              * (A.data.getD (A.cols * k + n) 0 : Nat)) * (s.data.getD n 0 : Nat) := by
      intro n hn
      rw [hDv i n hi (Finset.mem_range.1 hn)]
      simp only [Nat.cast_mul, Nat.cast_sum, ZMod.natCast_mod]
    rw [Finset.sum_congr rfl e1, Finset.sum_congr rfl e2]
    exact reconstruction_ring DB.cols A.cols j hj
      (fun k => ((DB.data.getD (DB.cols * i + k) 0 : Nat) : ZMod 4294967296))
      (fun k => ((e.data.getD k 0 : Nat) : ZMod 4294967296))
      (fun k n => ((A.data.getD (A.cols * k + n) 0 : Nat) : ZMod 4294967296))
      (fun n => ((s.data.getD n 0 : Nat) : ZMod 4294967296))
      ((2147483648 : Nat) : ZMod 4294967296)

/-- A product that `Mul` returns has non-empty well-formed operands. -/
theorem Mul_ok_pos (a b c : Matrix) (ha : a.WellFormed) (hb : b.WellFormed)
    (h : Mul a b = .ok c) : 0 < a.rows ∧ 0 < a.cols ∧ 0 < b.rows ∧ 0 < b.cols := by
  unfold Mul at h
  split at h
  · exact Except.noConfusion h
  · simp only [] at h
    split at h
    · exact Except.noConfusion h
    · rename_i hne
      have h1 : a.data ≠ [] := fun e => hne (Or.inl e)
      have h2 : b.data ≠ [] := fun e => hne (Or.inr (Or.inl e))
      have l1 : 0 < a.rows * a.cols := by
        rw [← ha.1]; exact List.length_pos.2 h1
      have l2 : 0 < b.rows * b.cols := by
        rw [← hb.1]; exact List.length_pos.2 h2
      exact ⟨Nat.pos_of_mul_pos_right l1, Nat.pos_of_mul_pos_left l1,
        Nat.pos_of_mul_pos_right l2, Nat.pos_of_mul_pos_left l2⟩

/-- C18, as amended (LWE reconstruction identity over the matrix package): for all well-formed
matrices `DB` (`L x M`), `A` (`M x N`), `s` (`N x 1`), `e` (`M x 1`) with `L, M, N < 2^31` and
`L*M, M*N, L*N <= 2^31`, every column `j < M` and `Delta = 2^31`, with
`query = Mul(A, s) + e + Delta * u_j` and the digest `D = Mul(DB, A)`: whenever the products are
returned, the sums and the difference go through and `Mul(DB, query) - Mul(D, s)` is
`Mul(DB, e) + Delta * (column j of DB)` entry by entry modulo `2^32`; and the products are
returned when `L >= 1` and `N >= 1`. A size from `2^31` on is changed by `C.int`, and beyond
`2^31` entries an index of the kernel overflows a C `int`, which is undefined behaviour in C. -/
theorem LWE_reconstruction_identity (DB A s e : Matrix) (j : Nat)
    (hDB : DB.WellFormed) (hA : A.WellFormed) (hs : s.WellFormed) (he : e.WellFormed)
    (hDA : DB.cols = A.rows) (hAs : A.cols = s.rows) (hs1 : s.cols = 1)
    (heM : e.rows = A.rows) (he1 : e.cols = 1) (hj : j < DB.cols)
    (hL31 : DB.rows < 2147483648) (hM31 : DB.cols < 2147483648) (hN31 : A.cols < 2147483648)
    (hLM : DB.rows * DB.cols ≤ 2147483648) (hMN : DB.cols * A.cols ≤ 2147483648)
    (hLN : DB.rows * A.cols ≤ 2147483648) :
    (0 < DB.rows → 0 < A.cols →
      ∃ As D ans Ds DBe : Matrix,
        Mul A s = .ok As ∧ Mul DB A = .ok D ∧
        Mul DB ((As.Add e).1.Add (scaledUnit 2147483648 DB.cols j)).1 = .ok ans ∧
        Mul D s = .ok Ds ∧ Mul DB e = .ok DBe) ∧
    ∀ As D ans Ds DBe : Matrix,
      Mul A s = .ok As → Mul DB A = .ok D →
      Mul DB ((As.Add e).1.Add (scaledUnit 2147483648 DB.cols j)).1 = .ok ans →
      Mul D s = .ok Ds → Mul DB e = .ok DBe →
      (As.Add e).2.2 = .ok () ∧
      ((As.Add e).1.Add (scaledUnit 2147483648 DB.cols j)).2.2 = .ok () ∧
      (ans.Sub Ds).2.2 = .ok () ∧ (ans.Sub Ds).1.rows = DB.rows ∧ (ans.Sub Ds).1.cols = 1 ∧
      ∀ i, i < DB.rows →
        (ans.Sub Ds).1.data.getD i 0
          = (DBe.data.getD i 0 + 2147483648 * DB.data.getD (DB.cols * i + j) 0)
              % 4294967296 := by
  constructor
  · intro hL hN
    obtain ⟨As, D, ans, Ds, DBe, h1, h2, _, _, h5, h6, h7, _⟩ :=
      reconstruction_nonempty DB A s e j hDB hA hs he hDA hAs hs1 heM he1 hL (by omega) hN hj
        hL31 hM31 hN31 hLM hMN hLN
    exact ⟨As, D, ans, Ds, DBe, h1, h2, h5, h6, h7⟩
  · intro As D ans Ds DBe g1 g2 g5 g6 g7
    have hpos := Mul_ok_pos DB A D hDB hA g2
    obtain ⟨As', D', ans', Ds', DBe', h1, h2, h3, h4, h5, h6, h7, h8, h9, h10, h11⟩ :=
      reconstruction_nonempty DB A s e j hDB hA hs he hDA hAs hs1 heM he1 hpos.1 hpos.2.1
        hpos.2.2.2 hj hL31 hM31 hN31 hLM hMN hLN
    rw [g1] at h1
    have e1 : As = As' := Except.ok.inj h1
    subst e1
    rw [g2] at h2
    have e2 : D = D' := Except.ok.inj h2
    subst e2
    rw [g5] at h5
    have e5 : ans = ans' := Except.ok.inj h5
    subst e5
    rw [g6] at h6
    have e6 : Ds = Ds' := Except.ok.inj h6
    subst e6
    rw [g7] at h7
    have e7 : DBe = DBe' := Except.ok.inj h7
    subst e7
    exact ⟨h3, h4, h8, h9, h10, h11⟩

end matrix

namespace matrix

/-- C18, as amended, at `DB = [[1,3],[2,5]]`, `A = [[5,6],[7,8]]`, `s = (9,10)`, `e = (1, 2^32 - 1)` and
`j = 1`: the difference is `(2^31 - 2, 2^31 - 3)`, that is `DB e = (-2, -3)` plus `2^31` times
the odd entries `3` and `5` modulo `2^32`. -/
theorem LWE_reconstruction_identity_witness :
    (do
      let As ← Mul ⟨2, 2, [5, 6, 7, 8]⟩ ⟨2, 1, [9, 10]⟩
      let D ← Mul ⟨2, 2, [1, 3, 2, 5]⟩ ⟨2, 2, [5, 6, 7, 8]⟩
      let ans ← Mul ⟨2, 2, [1, 3, 2, 5]⟩
        ((As.Add ⟨2, 1, [1, 4294967295]⟩).1.Add (scaledUnit 2147483648 2 1)).1
      let Ds ← Mul D ⟨2, 1, [9, 10]⟩
      pure (ans.Sub Ds).1.data) = (.ok [2147483646, 2147483645] : Except Panic (List Nat)) ∧
    Mul ⟨2, 2, [1, 3, 2, 5]⟩ ⟨2, 1, [1, 4294967295]⟩
      = .ok ⟨2, 1, [4294967294, 4294967293]⟩ ∧
    ((0 < (Matrix.mk 2 2 [1, 3, 2, 5]).rows → 0 < (Matrix.mk 2 2 [5, 6, 7, 8]).cols →
      ∃ As D ans Ds DBe : Matrix,
        Mul ⟨2, 2, [5, 6, 7, 8]⟩ ⟨2, 1, [9, 10]⟩ = .ok As ∧
        Mul ⟨2, 2, [1, 3, 2, 5]⟩ ⟨2, 2, [5, 6, 7, 8]⟩ = .ok D ∧
        Mul ⟨2, 2, [1, 3, 2, 5]⟩ ((As.Add ⟨2, 1, [1, 4294967295]⟩).1.Add
          (scaledUnit 2147483648 (Matrix.mk 2 2 [1, 3, 2, 5]).cols 1)).1 = .ok ans ∧
        Mul D ⟨2, 1, [9, 10]⟩ = .ok Ds ∧
        Mul ⟨2, 2, [1, 3, 2, 5]⟩ ⟨2, 1, [1, 4294967295]⟩ = .ok DBe) ∧
    ∀ As D ans Ds DBe : Matrix,
      Mul ⟨2, 2, [5, 6, 7, 8]⟩ ⟨2, 1, [9, 10]⟩ = .ok As →
      Mul ⟨2, 2, [1, 3, 2, 5]⟩ ⟨2, 2, [5, 6, 7, 8]⟩ = .ok D →
      Mul ⟨2, 2, [1, 3, 2, 5]⟩ ((As.Add ⟨2, 1, [1, 4294967295]⟩).1.Add
        (scaledUnit 2147483648 (Matrix.mk 2 2 [1, 3, 2, 5]).cols 1)).1 = .ok ans →
      Mul D ⟨2, 1, [9, 10]⟩ = .ok Ds →
      Mul ⟨2, 2, [1, 3, 2, 5]⟩ ⟨2, 1, [1, 4294967295]⟩ = .ok DBe →
      (As.Add ⟨2, 1, [1, 4294967295]⟩).2.2 = .ok () ∧
      ((As.Add ⟨2, 1, [1, 4294967295]⟩).1.Add
        (scaledUnit 2147483648 (Matrix.mk 2 2 [1, 3, 2, 5]).cols 1)).2.2 = .ok () ∧
      (ans.Sub Ds).2.2 = .ok () ∧ (ans.Sub Ds).1.rows = (Matrix.mk 2 2 [1, 3, 2, 5]).rows ∧
      (ans.Sub Ds).1.cols = 1 ∧
      ∀ i, i < (Matrix.mk 2 2 [1, 3, 2, 5]).rows →
        (ans.Sub Ds).1.data.getD i 0
          = (DBe.data.getD i 0 + 2147483648 *
              (Matrix.mk 2 2 [1, 3, 2, 5]).data.getD
                ((Matrix.mk 2 2 [1, 3, 2, 5]).cols * i + 1) 0) % 4294967296) :=
  ⟨by decide, by decide,
   LWE_reconstruction_identity ⟨2, 2, [1, 3, 2, 5]⟩ ⟨2, 2, [5, 6, 7, 8]⟩ ⟨2, 1, [9, 10]⟩
    ⟨2, 1, [1, 4294967295]⟩ 1 (by decide) (by decide) (by decide) (by decide) (by decide)
    (by decide) (by decide) (by decide) (by decide) (by decide) (by decide) (by decide)
    (by decide) (by decide) (by decide) (by decide)⟩

/-- A product whose left operand has a row count that is zero or negative as a C `int` is the
zero matrix. -/
theorem Mul_of_rows_nonpos (a b : Matrix) (ha : a.data.length = a.rows * a.cols)
    (hb : b.data.length = b.rows * b.cols) (hab : a.cols = b.rows)
    (hr : 0 < a.rows) (hn : 0 < a.cols) (hc : 0 < b.cols) (h : cint a.rows ≤ 0) :
    Mul a b = .ok (New a.rows b.cols) := by
  rw [Mul_returns a b ha hb hab hr hn hc, multiply_rows_nonpos _ _ _ _ _ _ h]
  rfl

/-- C18 fails as stated. For the well-formed `2^31 x 1` database of ones, `A = [[1]]`,
`s = [[1]]`, `e = [[0]]` and `j = 0`, the query is `[[2^31 + 1]]`, and the three products with
the database on the left and the product `Mul(D, s)` are returned as zero matrices, because
`C.int(2^31)` is negative and the kernel does not run. So every entry of
`Mul(DB, query) - Mul(D, s)` is `0`, where `Mul(DB, e) + Delta * (column 0 of DB)` has `2^31`. -/
theorem LWE_reconstruction_truncates :
    (Matrix.mk 2147483648 1 (List.replicate 2147483648 1)).WellFormed ∧
    Mul ⟨1, 1, [1]⟩ ⟨1, 1, [1]⟩ = .ok ⟨1, 1, [1]⟩ ∧
    (((Matrix.mk 1 1 [1]).Add ⟨1, 1, [0]⟩).1.Add (scaledUnit 2147483648 1 0)).1
      = ⟨1, 1, [2147483649]⟩ ∧
    Mul ⟨2147483648, 1, List.replicate 2147483648 1⟩ ⟨1, 1, [1]⟩ = .ok (New 2147483648 1) ∧
    Mul ⟨2147483648, 1, List.replicate 2147483648 1⟩ ⟨1, 1, [2147483649]⟩
      = .ok (New 2147483648 1) ∧
    Mul (New 2147483648 1) ⟨1, 1, [1]⟩ = .ok (New 2147483648 1) ∧
    Mul ⟨2147483648, 1, List.replicate 2147483648 1⟩ ⟨1, 1, [0]⟩ = .ok (New 2147483648 1) ∧
    ∀ i, i < 2147483648 →
      ((New 2147483648 1).Sub (New 2147483648 1)).2.2 = .ok () ∧
      ((New 2147483648 1).Sub (New 2147483648 1)).1.data.getD i 0 = 0 ∧
      ((New 2147483648 1).data.getD i 0
        + 2147483648 * (List.replicate 2147483648 1).getD (1 * i + 0) 0) % 4294967296
          = 2147483648 := by
  have hneg : cint ((2147483648 : Nat) : Int) ≤ 0 := by unfold cint; omega
  have h0 : ∀ i, (New 2147483648 1).data.getD i 0 = 0 := fun i => getD_replicate_zero _ i
  refine ⟨wellFormed_replicate _ _ _ _ (by decide) (by decide), by decide, by decide,
    Mul_of_rows_nonpos _ _ (List.length_replicate _ _) (by decide) (by decide) (by decide)
      (by decide) (by decide) hneg,
    Mul_of_rows_nonpos _ _ (List.length_replicate _ _) (by decide) (by decide) (by decide)
      (by decide) (by decide) hneg,
    Mul_of_rows_nonpos _ _ (List.length_replicate _ _) (by decide) (by decide) (by decide)
      (by decide) (by decide) hneg,
    Mul_of_rows_nonpos _ _ (List.length_replicate _ _) (by decide) (by decide) (by decide)
      (by decide) (by decide) hneg, fun i hi => ?_⟩
  obtain ⟨sok, _, _, _, _, sv⟩ := Sub_ok (New 2147483648 1) (New 2147483648 1) rfl rfl rfl
  have hlen : (New 2147483648 1).data.length = 2147483648 * 1 := List.length_replicate _ _
  refine ⟨sok, ?_, ?_⟩
  · rw [sv i (by rw [hlen]; omega), h0 i]
  · rw [h0 i, Nat.one_mul, Nat.add_zero, getD_replicate_of_lt _ _ _ hi]

end matrix

/-! ## Key generation: the shape of the keys and the correction words (claims C15, C16, C17) -/

namespace dpf

/-- A loop that succeeds at every element collects the results. -/
theorem mapM_ok_of_forall {α β : Type} (g : α → Except Panic β) (h : α → β) (l : List α)
    (hg : ∀ x ∈ l, g x = .ok (h x)) : l.mapM g = .ok (l.map h) := by
  induction l with
  | nil => rfl
  | cons x xs ih =>
    rw [List.mapM_cons, hg x (List.mem_cons_self x xs),
      ih (fun y hy => hg y (List.mem_cons_of_mem x hy))]
    rfl

theorem genInit_inv (rnd : Nat → Nat) (f : Fss) :
    (genInit rnd f).tCurr0 < 2 ∧ (genInit rnd f).tCurr1 < 2 ∧
    (genInit rnd f).tCurr0 ^^^ (genInit rnd f).tCurr1 = 1 ∧
    (genInit rnd f).CW0.length = f.NumBits ∧ (genInit rnd f).CW1 = (genInit rnd f).CW0 := by
  have hbits := tInit_bits (((List.range (16 + 1)).map rnd).getD 16 0 % 2)
    (Nat.mod_lt _ (by decide))
  exact ⟨Nat.mod_lt _ (by decide), hbits.1, hbits.2, List.length_replicate _ _, rfl⟩

/-- The invariant of the level loop, from the initial state of key generation. -/
theorem genState_inv (prf : List Nat → List Nat) (rnd : Nat → Nat) (f : Fss) (a i : Nat) :
    (genState prf rnd f a i).tCurr0 < 2 ∧ (genState prf rnd f a i).tCurr1 < 2 ∧
    (genState prf rnd f a i).tCurr0 ^^^ (genState prf rnd f a i).tCurr1 = 1 ∧
    (genState prf rnd f a i).CW0.length = f.NumBits ∧
    (genState prf rnd f a i).CW1 = (genState prf rnd f a i).CW0 :=
  genLoop_inv prf f a (genInit rnd f) f.NumBits (genInit_inv rnd f).1 (genInit_inv rnd f).2.1
    (genInit_inv rnd f).2.2.1 (genInit_inv rnd f).2.2.2.1 (genInit_inv rnd f).2.2.2.2 i

/-- The correction word of level `i` after the whole loop is the one level `i` computed. -/
theorem genState_CW (prf : List Nat → List Nat) (rnd : Nat → Nat) (f : Fss) (a i : Nat)
    (hi : i < f.NumBits) :
    (genState prf rnd f a f.NumBits).CW0.getD i []
      = correctionWord (prf (genState prf rnd f a i).sCurr0) (prf (genState prf rnd f a i).sCurr1)
          (getBit a (f.N - f.NumBits + i + 1) f.N) :=
  genLoop_CW prf f a (genInit rnd f) f.NumBits (genInit_inv rnd f).1 (genInit_inv rnd f).2.1
    (genInit_inv rnd f).2.2.1 (genInit_inv rnd f).2.2.2.1 (genInit_inv rnd f).2.2.2.2
    f.NumBits i hi (Nat.le_refl _)

theorem correctionWord_length (o0 o1 : List Nat) (aBit : Nat) :
    (correctionWord o0 o1 aBit).length = 18 := by
  simp [correctionWord]

/-- The two seeds are sixteen bytes long at every level. -/
theorem genState_seed_length (prf : List Nat → List Nat) (rnd : Nat → Nat) (f : Fss) (a i : Nat) :
    (genState prf rnd f a i).sCurr0.length = 16 ∧ (genState prf rnd f a i).sCurr1.length = 16 := by
  cases i with
  | zero =>
    constructor
    · show (copyAt (List.replicate 16 0) 0 (((List.range (16 + 1)).map rnd).take 16)).length = 16
      rw [copyAt_fresh16 _ (by simp)]; simp
    · show (copyAt (List.replicate 16 0) 0
        ((List.range 16).map (fun j => rnd (16 + 1 + j)))).length = 16
      rw [copyAt_fresh16 _ (by simp)]; simp
  | succ i =>
    unfold genState
    rw [List.range_succ, List.foldl_append]
    simp only [List.foldl_cons, List.foldl_nil]
    constructor <;> simp [genLevel]

/-- `GenerateTreePF` in terms of the state after the level loop. -/
theorem GenerateTreePF_eq {F : Type} [CommRing F] (prf : List Nat → List Nat)
    (SetBytes : List Nat → F) (rnd : Nat → Nat) (f : Fss) (a : Nat) (b : F) :
    GenerateTreePF prf SetBytes rnd f a b
      = ({ SInit := ((List.range (16 + 1)).map rnd).take 16
           TInit := ((List.range (16 + 1)).map rnd).getD 16 0 % 2
           CW := (genState prf rnd f a f.NumBits).CW0
           FinalCW := if (genState prf rnd f a f.NumBits).tCurr1 = 1
             then - (0 + (- SetBytes (genState prf rnd f a f.NumBits).sCurr0)
                    + SetBytes (genState prf rnd f a f.NumBits).sCurr1 + b)
             else 0 + (- SetBytes (genState prf rnd f a f.NumBits).sCurr0)
                    + SetBytes (genState prf rnd f a f.NumBits).sCurr1 + b },
         { SInit := (List.range 16).map (fun j => rnd (16 + 1 + j))
           TInit := ((List.range (16 + 1)).map rnd).getD 16 0 % 2 ^^^ 1
           CW := (genState prf rnd f a f.NumBits).CW1
           FinalCW := if (genState prf rnd f a f.NumBits).tCurr1 = 1
             then - (0 + (- SetBytes (genState prf rnd f a f.NumBits).sCurr0)
                    + SetBytes (genState prf rnd f a f.NumBits).sCurr1 + b)
             else 0 + (- SetBytes (genState prf rnd f a f.NumBits).sCurr0)
                    + SetBytes (genState prf rnd f a f.NumBits).sCurr1 + b }) :=
  rfl

/-- `GenerateTreePFVector` returns when the PRG delivers the `len(b)` elements asked for; the
final correction vector is then computed coordinate by coordinate from the two vectors drawn with
the final seeds. -/
theorem GenerateTreePFVector_eq {F : Type} [CommRing F] (prf : List Nat → List Nat)
    (RandomVectorPointers : List Nat → Nat → List F) (rnd : Nat → Nat) (f : Fss) (a : Nat)
    (b : List F) (hRV : ∀ key, (RandomVectorPointers key b.length).length = b.length) :
    GenerateTreePFVector prf RandomVectorPointers rnd f a b
      = .ok ({ SInit := ((List.range (16 + 1)).map rnd).take 16
               TInit := ((List.range (16 + 1)).map rnd).getD 16 0 % 2
               CW := (genState prf rnd f a f.NumBits).CW0
               FinalCW := (List.range b.length).map (fun i =>
                 if (genState prf rnd f a f.NumBits).tCurr1 = 1
                 then - (0 + (- (RandomVectorPointers
                          (genState prf rnd f a f.NumBits).sCurr0 b.length).getD i 0)
                        + (RandomVectorPointers
                          (genState prf rnd f a f.NumBits).sCurr1 b.length).getD i 0
                        + b.getD i 0)
                 else 0 + (- (RandomVectorPointers
                          (genState prf rnd f a f.NumBits).sCurr0 b.length).getD i 0)
                        + (RandomVectorPointers
                          (genState prf rnd f a f.NumBits).sCurr1 b.length).getD i 0
                        + b.getD i 0) },
             { SInit := (List.range 16).map (fun j => rnd (16 + 1 + j))
               TInit := ((List.range (16 + 1)).map rnd).getD 16 0 % 2 ^^^ 1
               CW := (genState prf rnd f a f.NumBits).CW1
               FinalCW := (List.range b.length).map (fun i =>
                 if (genState prf rnd f a f.NumBits).tCurr1 = 1
                 then - (0 + (- (RandomVectorPointers
                          (genState prf rnd f a f.NumBits).sCurr0 b.length).getD i 0)
                        + (RandomVectorPointers
                          (genState prf rnd f a f.NumBits).sCurr1 b.length).getD i 0
                        + b.getD i 0)
                 else 0 + (- (RandomVectorPointers
                          (genState prf rnd f a f.NumBits).sCurr0 b.length).getD i 0)
                        + (RandomVectorPointers
                          (genState prf rnd f a f.NumBits).sCurr1 b.length).getD i 0
                        + b.getD i 0) }) := by
  have hs := genState_seed_length prf rnd f a f.NumBits
  have hm := mapM_ok_of_forall
    (finalCWAt (RandomVectorPointers (genState prf rnd f a f.NumBits).sCurr0 b.length)
      (RandomVectorPointers (genState prf rnd f a f.NumBits).sCurr1 b.length) b
      (genState prf rnd f a f.NumBits).tCurr1)
    (fun i =>
      if (genState prf rnd f a f.NumBits).tCurr1 = 1
      then - (0 + (- (RandomVectorPointers
              (genState prf rnd f a f.NumBits).sCurr0 b.length).getD i 0)
            + (RandomVectorPointers (genState prf rnd f a f.NumBits).sCurr1 b.length).getD i 0
            + b.getD i 0)
      else 0 + (- (RandomVectorPointers
              (genState prf rnd f a f.NumBits).sCurr0 b.length).getD i 0)
            + (RandomVectorPointers (genState prf rnd f a f.NumBits).sCurr1 b.length).getD i 0
            + b.getD i 0)
    (List.range b.length)
    (by
      intro i hi
      have hi' : i < b.length := List.mem_range.1 hi
      have h0 : i < (RandomVectorPointers (genState prf rnd f a f.NumBits).sCurr0
          b.length).length := by rw [hRV]; exact hi'
      have h1 : i < (RandomVectorPointers (genState prf rnd f a f.NumBits).sCurr1
          b.length).length := by rw [hRV]; exact hi'
      unfold finalCWAt
      rw [List.getElem?_eq_getElem h0, List.getElem?_eq_getElem h1,
        List.getElem?_eq_getElem hi']
      simp only [List.getD_eq_getElem _ _ h0, List.getD_eq_getElem _ _ h1,
        List.getD_eq_getElem _ _ hi'])
  unfold GenerateTreePFVector
  simp only []
  have e : (List.range f.NumBits).foldl (genLevel prf f a) (genInit rnd f)
      = genState prf rnd f a f.NumBits := rfl
  rw [e, copyAt_fresh16 _ hs.1, copyAt_fresh16 _ hs.2, hm]

end dpf

namespace dpf

/-- C15 (the two FSS keys differ only in their initial state): for every `a`, `b`, bit width `n`
and random bytes, the keys of `GenerateTreePF` have `K_0.CW[i] = K_1.CW[i]` for every `i < n`,
`K_0.FinalCW = K_1.FinalCW`, exactly `n` correction words of 18 bytes each, `TInit` in `{0,1}`
and `K_1.TInit = K_0.TInit xor 1`; `GenerateTreePFVector` returns keys with the same properties
when the PRG delivers the `len(b)` elements asked for. -/
theorem keys_differ_only_in_initial_state {F : Type} [CommRing F] (prf : List Nat → List Nat)
    (SetBytes : List Nat → F) (RandomVectorPointers : List Nat → Nat → List F)
    (rnd : Nat → Nat) (f : Fss) (a : Nat) (b : F) (bv : List F)
    (hRV : ∀ key, (RandomVectorPointers key bv.length).length = bv.length) :
    ((GenerateTreePF prf SetBytes rnd f a b).1.CW = (GenerateTreePF prf SetBytes rnd f a b).2.CW ∧
     (GenerateTreePF prf SetBytes rnd f a b).1.FinalCW
        = (GenerateTreePF prf SetBytes rnd f a b).2.FinalCW ∧
     (GenerateTreePF prf SetBytes rnd f a b).1.CW.length = f.NumBits ∧
     (GenerateTreePF prf SetBytes rnd f a b).2.CW.length = f.NumBits ∧
     (∀ i, i < f.NumBits →
        (GenerateTreePF prf SetBytes rnd f a b).1.CW.getD i []
          = (GenerateTreePF prf SetBytes rnd f a b).2.CW.getD i [] ∧
        ((GenerateTreePF prf SetBytes rnd f a b).1.CW.getD i []).length = 18) ∧
     (GenerateTreePF prf SetBytes rnd f a b).1.TInit < 2 ∧
     (GenerateTreePF prf SetBytes rnd f a b).2.TInit < 2 ∧
     (GenerateTreePF prf SetBytes rnd f a b).2.TInit
        = (GenerateTreePF prf SetBytes rnd f a b).1.TInit ^^^ 1) ∧
    ∃ K0 K1, GenerateTreePFVector prf RandomVectorPointers rnd f a bv = .ok (K0, K1) ∧
      K0.CW = K1.CW ∧ K0.FinalCW = K1.FinalCW ∧
      K0.CW.length = f.NumBits ∧ K1.CW.length = f.NumBits ∧
      (∀ i, i < f.NumBits →
        K0.CW.getD i [] = K1.CW.getD i [] ∧ (K0.CW.getD i []).length = 18) ∧
      K0.TInit < 2 ∧ K1.TInit < 2 ∧ K1.TInit = K0.TInit ^^^ 1 := by
  have hinv := genState_inv prf rnd f a f.NumBits
  have hbits := tInit_bits (((List.range (16 + 1)).map rnd).getD 16 0 % 2)
    (Nat.mod_lt _ (by decide))
  have hcw : ∀ i, i < f.NumBits →
      (genState prf rnd f a f.NumBits).CW0.getD i []
        = (genState prf rnd f a f.NumBits).CW1.getD i [] ∧
      ((genState prf rnd f a f.NumBits).CW0.getD i []).length = 18 := by
    intro i hi
    refine ⟨by rw [hinv.2.2.2.2], ?_⟩
    rw [genState_CW prf rnd f a i hi]
    exact correctionWord_length _ _ _
  constructor
  · rw [GenerateTreePF_eq]
    exact ⟨hinv.2.2.2.2.symm, rfl, hinv.2.2.2.1, by rw [hinv.2.2.2.2]; exact hinv.2.2.2.1,
      hcw, Nat.mod_lt _ (by decide), hbits.1, rfl⟩
  · exact ⟨_, _, GenerateTreePFVector_eq prf RandomVectorPointers rnd f a bv hRV,
      hinv.2.2.2.2.symm, rfl, hinv.2.2.2.1, by rw [hinv.2.2.2.2]; exact hinv.2.2.2.1,
      hcw, Nat.mod_lt _ (by decide), hbits.1, rfl⟩

/-- C16 (final correction word): with `S_0`, `S_1` the field conversions of the two seeds after
the last level and `T_1` party 1's control bit after the last level, `T_1` is `0` or `1`,
`GenerateTreePF` sets `FinalCW = b - S_0 + S_1` when `T_1 = 0` and `-(b - S_0 + S_1)` when
`T_1 = 1`; `GenerateTreePFVector` does the same coordinate by coordinate for a target of length
`k`, with `S_party` the `k` elements drawn from the PRG seeded with the party's final seed, and
its `FinalCW` has length exactly `k`. -/
theorem finalCW_formula {F : Type} [CommRing F] (prf : List Nat → List Nat)
    (SetBytes : List Nat → F) (RandomVectorPointers : List Nat → Nat → List F)
    (rnd : Nat → Nat) (f : Fss) (a : Nat) (b : F) (bv : List F)
    (hRV : ∀ key, (RandomVectorPointers key bv.length).length = bv.length) :
    ((genState prf rnd f a f.NumBits).tCurr1 = 0 ∨ (genState prf rnd f a f.NumBits).tCurr1 = 1) ∧
    ((genState prf rnd f a f.NumBits).tCurr1 = 0 →
      (GenerateTreePF prf SetBytes rnd f a b).1.FinalCW
        = b - SetBytes (genState prf rnd f a f.NumBits).sCurr0
            + SetBytes (genState prf rnd f a f.NumBits).sCurr1 ∧
      (GenerateTreePF prf SetBytes rnd f a b).2.FinalCW
        = b - SetBytes (genState prf rnd f a f.NumBits).sCurr0
            + SetBytes (genState prf rnd f a f.NumBits).sCurr1) ∧
    ((genState prf rnd f a f.NumBits).tCurr1 = 1 →
      (GenerateTreePF prf SetBytes rnd f a b).1.FinalCW
        = - (b - SetBytes (genState prf rnd f a f.NumBits).sCurr0
              + SetBytes (genState prf rnd f a f.NumBits).sCurr1) ∧
      (GenerateTreePF prf SetBytes rnd f a b).2.FinalCW
        = - (b - SetBytes (genState prf rnd f a f.NumBits).sCurr0
              + SetBytes (genState prf rnd f a f.NumBits).sCurr1)) ∧
    ∃ K0 K1, GenerateTreePFVector prf RandomVectorPointers rnd f a bv = .ok (K0, K1) ∧
      K0.FinalCW.length = bv.length ∧ K1.FinalCW = K0.FinalCW ∧
      ∀ i, i < bv.length →
        ((genState prf rnd f a f.NumBits).tCurr1 = 0 →
          K0.FinalCW.getD i 0
            = bv.getD i 0
              - (RandomVectorPointers (genState prf rnd f a f.NumBits).sCurr0 bv.length).getD i 0
              + (RandomVectorPointers (genState prf rnd f a f.NumBits).sCurr1 bv.length).getD i 0)
        ∧
        ((genState prf rnd f a f.NumBits).tCurr1 = 1 →
          K0.FinalCW.getD i 0
            = - (bv.getD i 0
              - (RandomVectorPointers (genState prf rnd f a f.NumBits).sCurr0 bv.length).getD i 0
              + (RandomVectorPointers (genState prf rnd f a f.NumBits).sCurr1
                  bv.length).getD i 0)) := by
  have hinv := genState_inv prf rnd f a f.NumBits
  refine ⟨by omega, ?_, ?_, ?_⟩
  · intro h0
    rw [GenerateTreePF_eq]
    simp only [h0, show ¬ ((0 : Nat) = 1) by decide, if_false]
    constructor <;> ring
  · intro h1
    rw [GenerateTreePF_eq]
    simp only [h1, if_true]
    constructor <;> ring
  · refine ⟨_, _, GenerateTreePFVector_eq prf RandomVectorPointers rnd f a bv hRV, ?_, rfl, ?_⟩
    · simp
    · intro i hi
      constructor
      · intro h0
        simp only []
        rw [benchmark.getD_map_range bv.length i _ hi]
        simp only [h0, show ¬ ((0 : Nat) = 1) by decide, if_false]
        ring
      · intro h1
        simp only []
        rw [benchmark.getD_map_range bv.length i _ hi]
        simp only [h1, if_true]
        ring

/-- C17 (per-level correction word): at every level `i < n` of `GenerateTreePF`, with `o_p` the
expansion of party `p`'s seed at the start of the level (`sL` in bytes `0..15`, `tL` the low bit
of byte `16`, `sR` in bytes `17..32`, `tR` the low bit of byte `33`) and `aBit` the level's bit
of `a`, both keys hold the same 18-byte `CW[i]`; its 16 seed bytes are `sLose_0 xor sLose_1`,
where lose is the right half when `aBit = 0` and the left half when `aBit = 1`; byte 16 is
`tL_0 xor tL_1 xor aBit xor 1`, byte 17 is `tR_0 xor tR_1 xor aBit`, and both are in `{0,1}`. -/
theorem correction_word_per_level {F : Type} [CommRing F] (prf : List Nat → List Nat)
    (SetBytes : List Nat → F) (rnd : Nat → Nat) (f : Fss) (a : Nat) (b : F) (i : Nat)
    (hi : i < f.NumBits) :
    (GenerateTreePF prf SetBytes rnd f a b).2.CW.getD i []
      = (GenerateTreePF prf SetBytes rnd f a b).1.CW.getD i [] ∧
    ((GenerateTreePF prf SetBytes rnd f a b).1.CW.getD i []).length = 18 ∧
    (∀ j, j < 16 →
      ((GenerateTreePF prf SetBytes rnd f a b).1.CW.getD i []).getD j 0
        = (prf (genState prf rnd f a i).sCurr0).getD
            ((if getBit a (f.N - f.NumBits + i + 1) f.N = 0 then 16 + 1 else 0) + j) 0
          ^^^ (prf (genState prf rnd f a i).sCurr1).getD
            ((if getBit a (f.N - f.NumBits + i + 1) f.N = 0 then 16 + 1 else 0) + j) 0) ∧
    ((GenerateTreePF prf SetBytes rnd f a b).1.CW.getD i []).getD 16 0
      = (prf (genState prf rnd f a i).sCurr0).getD 16 0 % 2
        ^^^ (prf (genState prf rnd f a i).sCurr1).getD 16 0 % 2
        ^^^ getBit a (f.N - f.NumBits + i + 1) f.N ^^^ 1 ∧
    ((GenerateTreePF prf SetBytes rnd f a b).1.CW.getD i []).getD 17 0
      = (prf (genState prf rnd f a i).sCurr0).getD 33 0 % 2
        ^^^ (prf (genState prf rnd f a i).sCurr1).getD 33 0 % 2
        ^^^ getBit a (f.N - f.NumBits + i + 1) f.N ∧
    ((GenerateTreePF prf SetBytes rnd f a b).1.CW.getD i []).getD 16 0 < 2 ∧
    ((GenerateTreePF prf SetBytes rnd f a b).1.CW.getD i []).getD 17 0 < 2 := by
  have hinv := genState_inv prf rnd f a f.NumBits
  have hab := getBit_lt_two a (f.N - f.NumBits + i + 1) f.N
  have hx : ∀ x y : Nat, x < 2 → y < 2 → x ^^^ y < 2 := fun x y hx hy =>
    Nat.xor_lt_two_pow (n := 1) hx hy
  have hm : ∀ x : Nat, x % 2 < 2 := fun x => Nat.mod_lt _ (by decide)
  rw [GenerateTreePF_eq]
  simp only []
  rw [hinv.2.2.2.2, genState_CW prf rnd f a i hi]
  refine ⟨rfl, correctionWord_length _ _ _, fun j hj => correctionWord_getD_lt _ _ _ j hj,
    correctionWord_getD_16 _ _ _, correctionWord_getD_17 _ _ _, ?_, ?_⟩
  · rw [correctionWord_getD_16]
    exact hx _ _ (hx _ _ (hx _ _ (hm _) (hm _)) hab) (by decide)
  · rw [correctionWord_getD_17]
    exact hx _ _ (hx _ _ (hm _) (hm _)) hab

end dpf

namespace dpf

/-- C15 at scenario S2 (`n = 8`, `a = 0xA5`, `b = 1234`, vector target `(1234, 5, 6)`) with the
stand-in expander, conversion and PRG over `F_p`, `p = 2^31 - 1`. -/
theorem keys_differ_only_in_initial_state_witness :
    ((GenerateTreePF (F := ZMod 2147483647) sampleExpand sampleSetBytes
        (fun i => i * 37 % 256) ⟨8, 64⟩ 165 1234).1.CW = (GenerateTreePF (F := ZMod 2147483647) sampleExpand sampleSetBytes
        (fun i => i * 37 % 256) ⟨8, 64⟩ 165 1234).2.CW ∧
     (GenerateTreePF (F := ZMod 2147483647) sampleExpand sampleSetBytes
        (fun i => i * 37 % 256) ⟨8, 64⟩ 165 1234).1.FinalCW
        = (GenerateTreePF (F := ZMod 2147483647) sampleExpand sampleSetBytes
        (fun i => i * 37 % 256) ⟨8, 64⟩ 165 1234).2.FinalCW ∧
     (GenerateTreePF (F := ZMod 2147483647) sampleExpand sampleSetBytes
        (fun i => i * 37 % 256) ⟨8, 64⟩ 165 1234).1.CW.length = 8 ∧
     (GenerateTreePF (F := ZMod 2147483647) sampleExpand sampleSetBytes
        (fun i => i * 37 % 256) ⟨8, 64⟩ 165 1234).2.CW.length = 8 ∧
     (∀ i, i < 8 →
        (GenerateTreePF (F := ZMod 2147483647) sampleExpand sampleSetBytes
        (fun i => i * 37 % 256) ⟨8, 64⟩ 165 1234).1.CW.getD i []
          = (GenerateTreePF (F := ZMod 2147483647) sampleExpand sampleSetBytes
        (fun i => i * 37 % 256) ⟨8, 64⟩ 165 1234).2.CW.getD i [] ∧
        ((GenerateTreePF (F := ZMod 2147483647) sampleExpand sampleSetBytes
        (fun i => i * 37 % 256) ⟨8, 64⟩ 165 1234).1.CW.getD i []).length = 18) ∧
     (GenerateTreePF (F := ZMod 2147483647) sampleExpand sampleSetBytes
        (fun i => i * 37 % 256) ⟨8, 64⟩ 165 1234).1.TInit < 2 ∧
     (GenerateTreePF (F := ZMod 2147483647) sampleExpand sampleSetBytes
        (fun i => i * 37 % 256) ⟨8, 64⟩ 165 1234).2.TInit < 2 ∧
     (GenerateTreePF (F := ZMod 2147483647) sampleExpand sampleSetBytes
        (fun i => i * 37 % 256) ⟨8, 64⟩ 165 1234).2.TInit
        = (GenerateTreePF (F := ZMod 2147483647) sampleExpand sampleSetBytes
        (fun i => i * 37 % 256) ⟨8, 64⟩ 165 1234).1.TInit ^^^ 1) ∧
    ∃ K0 K1, GenerateTreePFVector (F := ZMod 2147483647) sampleExpand sampleRandomVector
        (fun i => i * 37 % 256) ⟨8, 64⟩ 165 [1234, 5, 6] = .ok (K0, K1) ∧
      K0.CW = K1.CW ∧ K0.FinalCW = K1.FinalCW ∧
      K0.CW.length = 8 ∧ K1.CW.length = 8 ∧
      (∀ i, i < 8 →
        K0.CW.getD i [] = K1.CW.getD i [] ∧ (K0.CW.getD i []).length = 18) ∧
      K0.TInit < 2 ∧ K1.TInit < 2 ∧ K1.TInit = K0.TInit ^^^ 1 :=
  keys_differ_only_in_initial_state (F := ZMod 2147483647) sampleExpand sampleSetBytes
    sampleRandomVector (fun i => i * 37 % 256) ⟨8, 64⟩ 165 1234 [1234, 5, 6]
    (fun key => by
      show (sampleRandomVector key 3 : List (ZMod 2147483647)).length = 3
      unfold sampleRandomVector
      rw [List.length_map, List.length_range])

/-- C16 at scenario S2 (`n = 8`, `a = 0xA5`, `b = 1234`, vector target `(1234, 5, 6)`) with the
stand-in expander, conversion and PRG over `F_p`, `p = 2^31 - 1`. -/
theorem finalCW_formula_witness :
    ((genState sampleExpand (fun i => i * 37 % 256) ⟨8, 64⟩ 165 8).tCurr1 = 0 ∨ (genState sampleExpand (fun i => i * 37 % 256) ⟨8, 64⟩ 165 8).tCurr1 = 1) ∧
    ((genState sampleExpand (fun i => i * 37 % 256) ⟨8, 64⟩ 165 8).tCurr1 = 0 →
      (GenerateTreePF (F := ZMod 2147483647) sampleExpand sampleSetBytes
        (fun i => i * 37 % 256) ⟨8, 64⟩ 165 1234).1.FinalCW
        = 1234 - sampleSetBytes (genState sampleExpand (fun i => i * 37 % 256) ⟨8, 64⟩ 165 8).sCurr0
            + sampleSetBytes (genState sampleExpand (fun i => i * 37 % 256) ⟨8, 64⟩ 165 8).sCurr1 ∧
      (GenerateTreePF (F := ZMod 2147483647) sampleExpand sampleSetBytes
        (fun i => i * 37 % 256) ⟨8, 64⟩ 165 1234).2.FinalCW
        = 1234 - sampleSetBytes (genState sampleExpand (fun i => i * 37 % 256) ⟨8, 64⟩ 165 8).sCurr0
            + sampleSetBytes (genState sampleExpand (fun i => i * 37 % 256) ⟨8, 64⟩ 165 8).sCurr1) ∧
    ((genState sampleExpand (fun i => i * 37 % 256) ⟨8, 64⟩ 165 8).tCurr1 = 1 →
      (GenerateTreePF (F := ZMod 2147483647) sampleExpand sampleSetBytes
        (fun i => i * 37 % 256) ⟨8, 64⟩ 165 1234).1.FinalCW
        = - (1234 - sampleSetBytes (genState sampleExpand (fun i => i * 37 % 256) ⟨8, 64⟩ 165 8).sCurr0
              + sampleSetBytes (genState sampleExpand (fun i => i * 37 % 256) ⟨8, 64⟩ 165 8).sCurr1) ∧
      (GenerateTreePF (F := ZMod 2147483647) sampleExpand sampleSetBytes
        (fun i => i * 37 % 256) ⟨8, 64⟩ 165 1234).2.FinalCW
        = - (1234 - sampleSetBytes (genState sampleExpand (fun i => i * 37 % 256) ⟨8, 64⟩ 165 8).sCurr0
              + sampleSetBytes (genState sampleExpand (fun i => i * 37 % 256) ⟨8, 64⟩ 165 8).sCurr1)) ∧
    ∃ K0 K1, GenerateTreePFVector (F := ZMod 2147483647) sampleExpand sampleRandomVector
        (fun i => i * 37 % 256) ⟨8, 64⟩ 165 [1234, 5, 6] = .ok (K0, K1) ∧
      K0.FinalCW.length = 3 ∧ K1.FinalCW = K0.FinalCW ∧
      ∀ i, i < 3 →
        ((genState sampleExpand (fun i => i * 37 % 256) ⟨8, 64⟩ 165 8).tCurr1 = 0 →
          K0.FinalCW.getD i 0
            = ([1234, 5, 6] : List (ZMod 2147483647)).getD i 0
              - (sampleRandomVector (genState sampleExpand (fun i => i * 37 % 256) ⟨8, 64⟩ 165 8).sCurr0 3).getD i 0
              + (sampleRandomVector (genState sampleExpand (fun i => i * 37 % 256) ⟨8, 64⟩ 165 8).sCurr1 3).getD i 0)
        ∧
        ((genState sampleExpand (fun i => i * 37 % 256) ⟨8, 64⟩ 165 8).tCurr1 = 1 →
          K0.FinalCW.getD i 0
            = - (([1234, 5, 6] : List (ZMod 2147483647)).getD i 0
              - (sampleRandomVector (genState sampleExpand (fun i => i * 37 % 256) ⟨8, 64⟩ 165 8).sCurr0 3).getD i 0
              + (sampleRandomVector (genState sampleExpand (fun i => i * 37 % 256) ⟨8, 64⟩ 165 8).sCurr1
                  3).getD i 0)) :=
  finalCW_formula (F := ZMod 2147483647) sampleExpand sampleSetBytes
    sampleRandomVector (fun i => i * 37 % 256) ⟨8, 64⟩ 165 1234 [1234, 5, 6]
    (fun key => by
      show (sampleRandomVector key 3 : List (ZMod 2147483647)).length = 3
      unfold sampleRandomVector
      rw [List.length_map, List.length_range])

/-- C17 at level `3` of scenario S2 (`n = 8`, `a = 0xA5`, `b = 1234`) with the stand-in expander
and conversion over `F_p`, `p = 2^31 - 1`. -/
theorem correction_word_per_level_witness :
    (GenerateTreePF (F := ZMod 2147483647) sampleExpand sampleSetBytes
        (fun i => i * 37 % 256) ⟨8, 64⟩ 165 1234).2.CW.getD 3 []
      = (GenerateTreePF (F := ZMod 2147483647) sampleExpand sampleSetBytes
        (fun i => i * 37 % 256) ⟨8, 64⟩ 165 1234).1.CW.getD 3 [] ∧
    ((GenerateTreePF (F := ZMod 2147483647) sampleExpand sampleSetBytes
        (fun i => i * 37 % 256) ⟨8, 64⟩ 165 1234).1.CW.getD 3 []).length = 18 ∧
    (∀ j, j < 16 →
      ((GenerateTreePF (F := ZMod 2147483647) sampleExpand sampleSetBytes
        (fun i => i * 37 % 256) ⟨8, 64⟩ 165 1234).1.CW.getD 3 []).getD j 0
        = (sampleExpand (genState sampleExpand (fun i => i * 37 % 256) ⟨8, 64⟩ 165 3).sCurr0).getD
            ((if getBit 165 (64 - 8 + 3 + 1) 64 = 0 then 16 + 1 else 0) + j) 0
          ^^^ (sampleExpand (genState sampleExpand (fun i => i * 37 % 256) ⟨8, 64⟩ 165 3).sCurr1).getD
            ((if getBit 165 (64 - 8 + 3 + 1) 64 = 0 then 16 + 1 else 0) + j) 0) ∧
    ((GenerateTreePF (F := ZMod 2147483647) sampleExpand sampleSetBytes
        (fun i => i * 37 % 256) ⟨8, 64⟩ 165 1234).1.CW.getD 3 []).getD 16 0
      = (sampleExpand (genState sampleExpand (fun i => i * 37 % 256) ⟨8, 64⟩ 165 3).sCurr0).getD 16 0 % 2
        ^^^ (sampleExpand (genState sampleExpand (fun i => i * 37 % 256) ⟨8, 64⟩ 165 3).sCurr1).getD 16 0 % 2
        ^^^ getBit 165 (64 - 8 + 3 + 1) 64 ^^^ 1 ∧
    ((GenerateTreePF (F := ZMod 2147483647) sampleExpand sampleSetBytes
        (fun i => i * 37 % 256) ⟨8, 64⟩ 165 1234).1.CW.getD 3 []).getD 17 0
      = (sampleExpand (genState sampleExpand (fun i => i * 37 % 256) ⟨8, 64⟩ 165 3).sCurr0).getD 33 0 % 2
        ^^^ (sampleExpand (genState sampleExpand (fun i => i * 37 % 256) ⟨8, 64⟩ 165 3).sCurr1).getD 33 0 % 2
        ^^^ getBit 165 (64 - 8 + 3 + 1) 64 ∧
    ((GenerateTreePF (F := ZMod 2147483647) sampleExpand sampleSetBytes
        (fun i => i * 37 % 256) ⟨8, 64⟩ 165 1234).1.CW.getD 3 []).getD 16 0 < 2 ∧
    ((GenerateTreePF (F := ZMod 2147483647) sampleExpand sampleSetBytes
        (fun i => i * 37 % 256) ⟨8, 64⟩ 165 1234).1.CW.getD 3 []).getD 17 0 < 2 :=
  correction_word_per_level (F := ZMod 2147483647) sampleExpand sampleSetBytes
    (fun i => i * 37 % 256) ⟨8, 64⟩ 165 1234 3 (by decide)

end dpf

/-! ## The default LWE parameters and the random database (claims C19 and C20) -/

namespace utils

/-- C19 (default LWE parameters): `ParamsDefault()` returns `P = 2`, `N = 1024`, `Sigma = 6.0`,
`L = 512`, `M = 128`, `B = 1000`, `Mod = 2^32` and `SeedA` equal to the fixed 16-byte
`SeedMatrixA`, so that `Mod` is divisible by `P` and `Mod / P = 2^31`. -/
theorem ParamsDefault_values :
    ParamsDefault.P = 2 ∧ ParamsDefault.N = 1024 ∧ ParamsDefault.Sigma = 6 ∧
    ParamsDefault.L = 512 ∧ ParamsDefault.M = 128 ∧ ParamsDefault.B = 1000 ∧
    ParamsDefault.Mod = 2 ^ 32 ∧ ParamsDefault.Mod < 2 ^ 64 ∧
    ParamsDefault.SeedA = SeedMatrixA ∧ SeedMatrixA.length = 16 ∧
    ParamsDefault.SeedA = [19, 177, 222, 148, 155, 239, 159, 227, 155, 99, 246, 214, 220, 162,
      30, 66] ∧
    ParamsDefault.Mod % ParamsDefault.P = 0 ∧ ParamsDefault.Mod / ParamsDefault.P = 2 ^ 31 := by
  refine ⟨rfl, rfl, ?_, rfl, rfl, rfl, by decide, by decide, rfl, rfl, rfl, by decide,
    by decide⟩
  norm_num [ParamsDefault]

end utils

namespace database

/-- C20 (layout invariant of the random database): for every `numIdentifiers` and every
randomness source, when `field.RandVectorWithPRG` delivers the `numIdentifiers * 64` elements
asked for, the database of `CreateRandomDB` has `NumRows = 1`, `NumColumns = numIdentifiers`,
`BlockSize = 64`, `len(Entries) = NumRows * NumColumns * BlockSize`, exactly
`NumRows * NumColumns` entries in `KeysInfo`, each with `BlockLength = 64` and `PubKeyAlgo` in
`{1, 16, 17, 18, 19}`, and the error is `nil`. -/
theorem CreateRandomDB_layout (RandVectorWithPRG : Nat → List Nat)
    (Randate randInt randUint64 : Nat → Nat) (numIdentifiers : Nat)
    (hvec : (RandVectorWithPRG (numIdentifiers * 64)).length = numIdentifiers * 64) :
    (CreateRandomDB RandVectorWithPRG Randate randInt randUint64 numIdentifiers).2 = none ∧
    (CreateRandomDB RandVectorWithPRG Randate randInt randUint64 numIdentifiers).1.Info.NumRows
      = 1 ∧
    (CreateRandomDB RandVectorWithPRG Randate randInt randUint64 numIdentifiers).1.Info.NumColumns
      = numIdentifiers ∧
    (CreateRandomDB RandVectorWithPRG Randate randInt randUint64 numIdentifiers).1.Info.BlockSize
      = 64 ∧
    (CreateRandomDB RandVectorWithPRG Randate randInt randUint64 numIdentifiers).1.Entries.length
      = (CreateRandomDB RandVectorWithPRG Randate randInt randUint64
            numIdentifiers).1.Info.NumRows
        * (CreateRandomDB RandVectorWithPRG Randate randInt randUint64
            numIdentifiers).1.Info.NumColumns
        * (CreateRandomDB RandVectorWithPRG Randate randInt randUint64
            numIdentifiers).1.Info.BlockSize ∧
    (CreateRandomDB RandVectorWithPRG Randate randInt randUint64 numIdentifiers).1.KeysInfo.length
      = (CreateRandomDB RandVectorWithPRG Randate randInt randUint64
            numIdentifiers).1.Info.NumRows
        * (CreateRandomDB RandVectorWithPRG Randate randInt randUint64
            numIdentifiers).1.Info.NumColumns ∧
    ∀ k ∈ (CreateRandomDB RandVectorWithPRG Randate randInt randUint64
        numIdentifiers).1.KeysInfo,
      k.BlockLength = 64 ∧ k.PubKeyAlgo ∈ [1, 16, 17, 18, 19] := by
  refine ⟨rfl, rfl, rfl, rfl, ?_, ?_, ?_⟩
  · show (RandVectorWithPRG (numIdentifiers * 64)).length = 1 * numIdentifiers * 64
    rw [hvec, Nat.one_mul]
  · show ((List.range numIdentifiers).map _).length = 1 * numIdentifiers
    rw [List.length_map, List.length_range, Nat.one_mul]
  · intro k hk
    obtain ⟨i, _, hik⟩ := List.mem_map.1 hk
    subst hik
    refine ⟨rfl, ?_⟩
    show [1, 16, 17, 18, 19].getD (randInt i % [1, 16, 17, 18, 19].length) 0
      ∈ [1, 16, 17, 18, 19]
    have hlt : randInt i % [1, 16, 17, 18, 19].length < 5 := Nat.mod_lt _ (by decide)
    generalize randInt i % [1, 16, 17, 18, 19].length = r at hlt
    interval_cases r <;> decide

/-- C20 for three identifiers, with the entries `0, 1, ..., 191` and the random values
`7 i + 3`. -/
theorem CreateRandomDB_layout_witness :
    (CreateRandomDB List.range id (fun i => 7 * i + 3) id 3).1.KeysInfo
      = [⟨0, 18, 0, 64⟩, ⟨1, 1, 1, 64⟩, ⟨2, 17, 2, 64⟩] ∧
    ((CreateRandomDB List.range id (fun i => 7 * i + 3) id 3).2 = none ∧
    (CreateRandomDB List.range id (fun i => 7 * i + 3) id 3).1.Info.NumRows = 1 ∧
    (CreateRandomDB List.range id (fun i => 7 * i + 3) id 3).1.Info.NumColumns = 3 ∧
    (CreateRandomDB List.range id (fun i => 7 * i + 3) id 3).1.Info.BlockSize = 64 ∧
    (CreateRandomDB List.range id (fun i => 7 * i + 3) id 3).1.Entries.length
      = (CreateRandomDB List.range id (fun i => 7 * i + 3) id 3).1.Info.NumRows
        * (CreateRandomDB List.range id (fun i => 7 * i + 3) id 3).1.Info.NumColumns
        * (CreateRandomDB List.range id (fun i => 7 * i + 3) id 3).1.Info.BlockSize ∧
    (CreateRandomDB List.range id (fun i => 7 * i + 3) id 3).1.KeysInfo.length
      = (CreateRandomDB List.range id (fun i => 7 * i + 3) id 3).1.Info.NumRows
        * (CreateRandomDB List.range id (fun i => 7 * i + 3) id 3).1.Info.NumColumns ∧
    ∀ k ∈ (CreateRandomDB List.range id (fun i => 7 * i + 3) id 3).1.KeysInfo,
      k.BlockLength = 64 ∧ k.PubKeyAlgo ∈ [1, 16, 17, 18, 19]) :=
  ⟨by decide,
   CreateRandomDB_layout List.range id (fun i => 7 * i + 3) id 3 (by simp)⟩

end database

/-! ## The chunking loop of the answer engine (claims C21 and C27) -/

namespace benchmark

/-- Past the end of the range the loop makes no further chunk. -/
theorem chunkLoop_done (max m : Nat) (fuel j step : Nat) (hj : max ≤ j) :
    chunkLoop max m fuel j step = .ok [] := by
  cases fuel <;> simp only [chunkLoop, if_neg (Nat.not_lt.2 hj)]

theorem divideAndRoundUp_zero (s : Nat) (hs : 0 < s) : divideAndRoundUp 0 s = 0 := by
  unfold divideAndRoundUp
  exact Nat.div_eq_of_lt (by omega)

theorem divideAndRoundUp_small (x s : Nat) (hx : 0 < x) (hxs : x ≤ s) :
    divideAndRoundUp x s = 1 := by
  unfold divideAndRoundUp
  exact Nat.div_eq_of_lt_le (by omega) (by omega)

theorem divideAndRoundUp_step (x s : Nat) (hs : 0 < s) :
    divideAndRoundUp (x + s) s = divideAndRoundUp x s + 1 := by
  unfold divideAndRoundUp
  have : x + s + s - 1 = (x + s - 1) + s := by omega
  rw [this, Nat.add_div_right _ hs]

/-- The loop with a positive step returns, within `max - j` iterations, the chunks `chunkAt` of
the range `[j, max)`, of which there are `ceil((max - j) / step)`. -/
theorem chunkLoop_spec (max m s : Nat) (hs : 0 < s) (fuel : Nat) :
    ∀ j, j ≤ max → max - j ≤ fuel →
      chunkLoop max m fuel j s
        = .ok ((List.range (divideAndRoundUp (max - j) s)).map (chunkAt max m s j)) := by
  induction fuel with
  | zero =>
    intro j hj hf
    have : max - j = 0 := by omega
    rw [chunkLoop_done max m 0 j s (by omega), this, divideAndRoundUp_zero s hs]
    rfl
  | succ fuel ih =>
    intro j hj hf
    by_cases hlt : j < max
    · rw [chunkLoop, if_pos hlt, computeChunkIndices_eq]
      simp only []
      by_cases hcl : j + s > max
      · rw [if_pos hcl, chunkLoop_done max m fuel _ _ (by omega),
          divideAndRoundUp_small (max - j) s (by omega) (by omega)]
        have hr1 : List.range 1 = [0] := rfl
        have hmin : min s (max - j) = max - j := Nat.min_eq_right (by omega)
        simp only [hr1, List.map_cons, List.map_nil, chunkAt, Nat.zero_mul, Nat.add_zero, hmin]
      · rw [if_neg hcl, ih (j + s) (by omega) (by omega)]
        have hx : max - j = (max - (j + s)) + s := by omega
        rw [hx, divideAndRoundUp_step _ s hs, List.range_succ_eq_map, List.map_cons,
          List.map_map]
        have hmin : min s (max - (j + s) + s) = s := Nat.min_eq_left (by omega)
        have h0 : chunkAt max m s j 0 = (j, s, j * m, (j + s) * m) := by
          simp only [chunkAt, Nat.zero_mul, Nat.add_zero]
          rw [show max - j = max - (j + s) + s by omega, hmin]
        have hsucc : ∀ t, chunkAt max m s (j + s) t = (chunkAt max m s j ∘ Nat.succ) t := by
          intro t
          simp only [chunkAt, Function.comp, Nat.succ_eq_add_one]
          have : j + s + t * s = j + (t + 1) * s := by ring
          rw [this]
        rw [h0, show chunkAt max m s (j + s) = chunkAt max m s j ∘ Nat.succ from funext hsucc]
    · have : max - j = 0 := by omega
      rw [chunkLoop_done max m _ j s (by omega), this, divideAndRoundUp_zero s hs]
      rfl

end benchmark

namespace benchmark

/-- Chunk `t` exists exactly when its start `t * s` lies in the range. -/
theorem lt_divideAndRoundUp_iff (n s t : Nat) (hs : 0 < s) :
    t < divideAndRoundUp n s ↔ t * s < n := by
  unfold divideAndRoundUp
  rw [Nat.lt_iff_add_one_le, Nat.le_div_iff_mul_le hs, Nat.add_mul, Nat.one_mul]
  omega

/-- With chunks of `ceil(n / W)` indices there are at most `W` chunks. -/
theorem chunks_le_workers (n W : Nat) (hW : 1 ≤ W) :
    divideAndRoundUp n (divideAndRoundUp n W) ≤ W := by
  by_cases hn : 0 < n
  · have hs := divideAndRoundUp_pos n W hn hW
    apply Nat.le_of_not_lt
    rw [lt_divideAndRoundUp_iff n _ W (by omega)]
    have h1 : n + W - 1 < W * ((n + W - 1) / W + 1) := Nat.lt_mul_div_succ _ (by omega)
    have h2 : W * ((n + W - 1) / W + 1) = W * divideAndRoundUp n W + W := by
      unfold divideAndRoundUp; ring
    rw [h2] at h1
    omega
  · have : n = 0 := by omega
    subst this
    unfold divideAndRoundUp
    rw [Nat.zero_add, Nat.zero_add]
    have : (W - 1) / W = 0 := Nat.div_eq_of_lt (by omega)
    rw [this]
    simp

/-- The loop of `answer` over a non-empty range with `W >= 1` workers returns the chunks
`chunkAt` for the step `ceil(n / W)`. -/
theorem chunkLoop_range (n W m : Nat) (hn : 1 ≤ n) (hW : 1 ≤ W) :
    chunkLoop n m n 0 (divideAndRoundUp n W)
      = .ok ((List.range (divideAndRoundUp n (divideAndRoundUp n W))).map
          (chunkAt n m (divideAndRoundUp n W) 0)) := by
  have h := chunkLoop_spec n m (divideAndRoundUp n W) (divideAndRoundUp_pos n W hn hW) n 0
    (Nat.zero_le _) (by omega)
  rw [Nat.sub_zero] at h
  exact h

theorem getD_chunks (n m s k t : Nat) (ht : t < k) :
    ((List.range k).map (chunkAt n m s 0)).getD t (0, 0, 0, 0) = chunkAt n m s 0 t := by
  simp [List.getD_eq_getElem?_getD, List.getElem?_range ht]

/-- The facts about chunk `t` of the range `[0, n)` cut in steps of `s`. -/
theorem chunkAt_facts (n m s t : Nat) (hs : 0 < s) (ht : t < divideAndRoundUp n s) :
    chunkAt n m s 0 t = (t * s, min s (n - t * s), t * s * m, (t * s + min s (n - t * s)) * m) ∧
    t * s < n ∧ 1 ≤ min s (n - t * s) ∧ t * s + min s (n - t * s) ≤ n ∧
    (t + 1 < divideAndRoundUp n s → min s (n - t * s) = s) ∧
    (t + 1 = divideAndRoundUp n s → t * s + min s (n - t * s) = n) := by
  have h1 := (lt_divideAndRoundUp_iff n s t hs).1 ht
  refine ⟨by simp only [chunkAt, Nat.zero_add], h1, ?_, ?_, ?_, ?_⟩
  · exact Nat.le_min.2 ⟨hs, by omega⟩
  · have := Nat.min_le_right s (n - t * s)
    omega
  · intro h
    have h2 := (lt_divideAndRoundUp_iff n s (t + 1) hs).1 h
    rw [Nat.add_mul, Nat.one_mul] at h2
    exact Nat.min_eq_left (by omega)
  · intro h
    have h2 : ¬ ((t + 1) * s < n) := by
      rw [← lt_divideAndRoundUp_iff n s (t + 1) hs, h]
      exact Nat.lt_irrefl _
    rw [Nat.add_mul, Nat.one_mul] at h2
    rw [Nat.min_eq_right (by omega)]
    omega

end benchmark

namespace benchmark

variable {F : Type} [CommRing F] [DecidableEq F]

/-- The column loop of `answer` takes its slices at the chunks of `chunkLoop`. -/
theorem columnChunks_eq_chunkLoop (db : DB F) (q : List F) (fuel : Nat) :
    ∀ j step cs, chunkLoop db.NumColumns db.BlockSize fuel j step = .ok cs →
      columnChunks db q fuel j step
        = cs.mapM (fun c => do
            let chunk ← slice db.Entries c.2.2.1 c.2.2.2
            let qs ← slice q (c.1 * (db.BlockSize + 1)) ((c.1 + c.2.1) * (db.BlockSize + 1))
            processRowChunk chunk db.BlockSize qs) := by
  induction fuel with
  | zero =>
    intro j step cs h
    by_cases hj : j < db.NumColumns
    · simp only [chunkLoop, if_pos hj] at h
      exact Except.noConfusion h
    · simp only [chunkLoop, if_neg hj] at h
      have := Except.ok.inj h
      subst this
      simp only [columnChunks, if_neg hj]
      rfl
  | succ fuel ih =>
    intro j step cs h
    by_cases hj : j < db.NumColumns
    · rw [chunkLoop, if_pos hj, computeChunkIndices_eq] at h
      simp only [] at h
      rw [columnChunks, if_pos hj, computeChunkIndices_eq]
      simp only []
      split at h
      · exact Except.noConfusion h
      · rename_i rest hrest
        have := Except.ok.inj h
        subst this
        rw [ih _ _ rest hrest, List.mapM_cons]
        simp only [bind_assoc]
        rfl
    · simp only [chunkLoop, if_neg hj] at h
      have := Except.ok.inj h
      subst this
      simp only [columnChunks, if_neg hj]
      rfl

/-- The row loop of `answer` takes its slices at the chunks of `chunkLoop`. -/
theorem rowChunks_eq_chunkLoop (db : DB F) (q : List F) (fuel : Nat) :
    ∀ j step cs m0, chunkLoop db.NumRows db.BlockSize fuel j step = .ok cs →
      rowChunks db q fuel j step m0
        = cs.foldlM (fun m c => do
            let rows ← slice db.Entries (c.2.2.1 * db.NumColumns) (c.2.2.2 * db.NumColumns)
            let _ ← slice m (c.1 * (db.BlockSize + 1)) ((c.1 + c.2.1) * (db.BlockSize + 1))
            processRows rows db.BlockSize db.NumColumns q m (c.1 * (db.BlockSize + 1))) m0 := by
  induction fuel with
  | zero =>
    intro j step cs m0 h
    by_cases hj : j < db.NumRows
    · simp only [chunkLoop, if_pos hj] at h
      exact Except.noConfusion h
    · simp only [chunkLoop, if_neg hj] at h
      have := Except.ok.inj h
      subst this
      simp only [rowChunks, if_neg hj]
      rfl
  | succ fuel ih =>
    intro j step cs m0 h
    by_cases hj : j < db.NumRows
    · rw [chunkLoop, if_pos hj, computeChunkIndices_eq] at h
      simp only [] at h
      rw [rowChunks, if_pos hj, computeChunkIndices_eq]
      simp only []
      split at h
      · exact Except.noConfusion h
      · rename_i rest hrest
        have := Except.ok.inj h
        subst this
        rw [List.foldlM_cons]
        simp only [bind_assoc]
        congr 1
        funext rows
        congr 1
        funext u
        congr 1
        funext m1
        exact ih _ _ rest m1 hrest
    · simp only [chunkLoop, if_neg hj] at h
      have := Except.ok.inj h
      subst this
      simp only [rowChunks, if_neg hj]
      rfl

end benchmark

namespace benchmark

/-- C21, as amended (chunk tie-break): for every range size `n >= 1` and worker count `W >= 1`
the chunking loop of the answer engine returns `k = ceil(n / ceil(n / W))` chunks, with
`1 <= k <= W`; every chunk but the last has the size `ceil(n / W)`, and the last chunk has the
size `n - (k - 1) * ceil(n / W)`, which is at least `1` and at most `ceil(n / W)`; this is
`n - (W - 1) * ceil(n / W)` when the loop makes `W` chunks. -/
theorem chunk_sizes (n W m : Nat) (hn : 1 ≤ n) (hW : 1 ≤ W) :
    ∃ cs, chunkLoop n m n 0 (divideAndRoundUp n W) = .ok cs ∧
      cs.length = divideAndRoundUp n (divideAndRoundUp n W) ∧
      1 ≤ cs.length ∧ cs.length ≤ W ∧
      (∀ t, t + 1 < cs.length → (cs.getD t (0, 0, 0, 0)).2.1 = divideAndRoundUp n W) ∧
      (cs.getD (cs.length - 1) (0, 0, 0, 0)).2.1
        = n - (cs.length - 1) * divideAndRoundUp n W ∧
      1 ≤ n - (cs.length - 1) * divideAndRoundUp n W ∧
      n - (cs.length - 1) * divideAndRoundUp n W ≤ divideAndRoundUp n W ∧
      (cs.length = W →
        (cs.getD (cs.length - 1) (0, 0, 0, 0)).2.1 = n - (W - 1) * divideAndRoundUp n W) := by
  have hs := divideAndRoundUp_pos n W hn hW
  have hk : 1 ≤ divideAndRoundUp n (divideAndRoundUp n W) :=
    (lt_divideAndRoundUp_iff n _ 0 hs).2 (by omega)
  have hlen : ((List.range (divideAndRoundUp n (divideAndRoundUp n W))).map
      (chunkAt n m (divideAndRoundUp n W) 0)).length
        = divideAndRoundUp n (divideAndRoundUp n W) := by
    rw [List.length_map, List.length_range]
  have hlast := chunkAt_facts n m (divideAndRoundUp n W)
    (divideAndRoundUp n (divideAndRoundUp n W) - 1) hs (by omega)
  have hlast2 := hlast.2.2.2.2.2 (by omega)
  have hlast1 := hlast.2.2.1
  have hle := Nat.min_le_left (divideAndRoundUp n W)
    (n - (divideAndRoundUp n (divideAndRoundUp n W) - 1) * divideAndRoundUp n W)
  have hval : (((List.range (divideAndRoundUp n (divideAndRoundUp n W))).map
      (chunkAt n m (divideAndRoundUp n W) 0)).getD
        (divideAndRoundUp n (divideAndRoundUp n W) - 1) (0, 0, 0, 0)).2.1
      = n - (divideAndRoundUp n (divideAndRoundUp n W) - 1) * divideAndRoundUp n W := by
    rw [getD_chunks n m _ _ _ (by omega), hlast.1]
    show min _ _ = _
    omega
  refine ⟨_, chunkLoop_range n W m hn hW, hlen, by rw [hlen]; exact hk,
    by rw [hlen]; exact chunks_le_workers n W hW, ?_, ?_, ?_, ?_, ?_⟩
  · intro t ht
    rw [hlen] at ht
    rw [getD_chunks n m _ _ t (by omega),
      (chunkAt_facts n m (divideAndRoundUp n W) t hs (by omega)).1]
    exact (chunkAt_facts n m (divideAndRoundUp n W) t hs (by omega)).2.2.2.2.1 ht
  · rw [hlen]; exact hval
  · rw [hlen]; omega
  · rw [hlen]; omega
  · intro hWk
    rw [hlen] at hWk ⊢
    rw [hval, hWk]

/-- C21, as amended, at `n = 5` and `W = 4`: three chunks, of sizes `2, 2, 1`. -/
theorem chunk_sizes_witness :
    chunkLoop 5 1 5 0 (divideAndRoundUp 5 4) = .ok [(0, 2, 0, 2), (2, 2, 2, 4), (4, 1, 4, 5)] ∧
    ∃ cs, chunkLoop 5 1 5 0 (divideAndRoundUp 5 4) = .ok cs ∧
      cs.length = divideAndRoundUp 5 (divideAndRoundUp 5 4) ∧
      1 ≤ cs.length ∧ cs.length ≤ 4 ∧
      (∀ t, t + 1 < cs.length → (cs.getD t (0, 0, 0, 0)).2.1 = divideAndRoundUp 5 4) ∧
      (cs.getD (cs.length - 1) (0, 0, 0, 0)).2.1
        = 5 - (cs.length - 1) * divideAndRoundUp 5 4 ∧
      1 ≤ 5 - (cs.length - 1) * divideAndRoundUp 5 4 ∧
      5 - (cs.length - 1) * divideAndRoundUp 5 4 ≤ divideAndRoundUp 5 4 ∧
      (cs.length = 4 →
        (cs.getD (cs.length - 1) (0, 0, 0, 0)).2.1 = 5 - (4 - 1) * divideAndRoundUp 5 4) :=
  ⟨by decide, chunk_sizes 5 4 1 (by decide) (by decide)⟩

/-- C21 fails as stated. For `n = 5` and `W = 4` the chunk size is `ceil(5 / 4) = 2` and the loop
makes three chunks, of sizes `2, 2, 1`: the last chunk has size `1`, whereas
`n - (W - 1) * ceil(n / W) = 5 - 3 * 2` is negative (`0` in truncated subtraction). -/
theorem chunk_last_size_fails :
    divideAndRoundUp 5 4 = 2 ∧
    chunkLoop 5 1 5 0 (divideAndRoundUp 5 4) = .ok [(0, 2, 0, 2), (2, 2, 2, 4), (4, 1, 4, 5)] ∧
    ((5 : Int) - (4 - 1) * (divideAndRoundUp 5 4 : Nat) = -1) ∧
    ¬ ∃ cs, chunkLoop 5 1 5 0 (divideAndRoundUp 5 4) = .ok cs ∧
        ((cs.getD (cs.length - 1) (0, 0, 0, 0)).2.1 : Int)
          = (5 : Int) - (4 - 1) * (divideAndRoundUp 5 4 : Nat) := by
  refine ⟨by decide, by decide, by decide, ?_⟩
  rintro ⟨cs, h, hl⟩
  have h2 : chunkLoop 5 1 5 0 (divideAndRoundUp 5 4)
      = .ok [(0, 2, 0, 2), (2, 2, 2, 4), (4, 1, 4, 5)] := by decide
  rw [h2] at h
  have := Except.ok.inj h
  subst this
  revert hl
  decide

end benchmark

namespace benchmark

variable {F : Type} [CommRing F] [DecidableEq F]

/-- The chunks of a non-empty range are non-empty, contiguous from `0` to `n`, at most `W`, and
every index of the range lies in exactly one of them. -/
theorem chunkLoop_partition (n W m : Nat) (hn : 1 ≤ n) (hW : 1 ≤ W) :
    ∃ cs, chunkLoop n m n 0 (divideAndRoundUp n W) = .ok cs ∧
      1 ≤ cs.length ∧ cs.length ≤ W ∧
      (∀ t, t < cs.length → ∃ ind step,
        cs.getD t (0, 0, 0, 0) = (ind, step, ind * m, (ind + step) * m) ∧
        step = min (divideAndRoundUp n W) (n - ind) ∧ ind < n ∧ 1 ≤ step ∧ ind + step ≤ n ∧
        (t = 0 → ind = 0) ∧
        (t + 1 < cs.length → (cs.getD (t + 1) (0, 0, 0, 0)).1 = ind + step) ∧
        (t + 1 = cs.length → ind + step = n)) ∧
      (∀ x, x < n → ∃! t, t < cs.length ∧ (cs.getD t (0, 0, 0, 0)).1 ≤ x ∧
        x < (cs.getD t (0, 0, 0, 0)).1 + (cs.getD t (0, 0, 0, 0)).2.1) := by
  have hs := divideAndRoundUp_pos n W hn hW
  have hk : 1 ≤ divideAndRoundUp n (divideAndRoundUp n W) :=
    (lt_divideAndRoundUp_iff n _ 0 hs).2 (by omega)
  have hlen : ((List.range (divideAndRoundUp n (divideAndRoundUp n W))).map
      (chunkAt n m (divideAndRoundUp n W) 0)).length
        = divideAndRoundUp n (divideAndRoundUp n W) := by
    rw [List.length_map, List.length_range]
  refine ⟨_, chunkLoop_range n W m hn hW, by rw [hlen]; exact hk,
    by rw [hlen]; exact chunks_le_workers n W hW, ?_, ?_⟩
  · intro t ht
    rw [hlen] at ht
    obtain ⟨f1, f2, f3, f4, f5, f6⟩ := chunkAt_facts n m (divideAndRoundUp n W) t hs ht
    refine ⟨t * divideAndRoundUp n W, min (divideAndRoundUp n W) (n - t * divideAndRoundUp n W),
      ?_, rfl, f2, f3, f4, ?_, ?_, ?_⟩
    · rw [getD_chunks n m _ _ t ht, f1]
    · intro h0; rw [h0, Nat.zero_mul]
    · intro h1
      rw [hlen] at h1
      rw [getD_chunks n m _ _ (t + 1) h1,
        (chunkAt_facts n m (divideAndRoundUp n W) (t + 1) hs h1).1, f5 h1, Nat.add_mul,
        Nat.one_mul]
    · intro h1
      rw [hlen] at h1
      exact f6 h1
  · intro x hx
    have hdiv : x / divideAndRoundUp n W * divideAndRoundUp n W ≤ x := Nat.div_mul_le_self _ _
    have hlt : x < (x / divideAndRoundUp n W + 1) * divideAndRoundUp n W := by
      rw [Nat.mul_comm]; exact Nat.lt_mul_div_succ x hs
    rw [Nat.add_mul, Nat.one_mul] at hlt
    have ht : x / divideAndRoundUp n W < divideAndRoundUp n (divideAndRoundUp n W) :=
      (lt_divideAndRoundUp_iff n _ _ hs).2 (by omega)
    refine ⟨x / divideAndRoundUp n W, ⟨by rw [hlen]; exact ht, ?_, ?_⟩, ?_⟩
    · rw [getD_chunks n m _ _ _ ht, (chunkAt_facts n m _ _ hs ht).1]
      exact hdiv
    · rw [getD_chunks n m _ _ _ ht, (chunkAt_facts n m _ _ hs ht).1]
      show x < _ + min _ _
      rcases Nat.le_total (divideAndRoundUp n W)
        (n - x / divideAndRoundUp n W * divideAndRoundUp n W) with h | h
      · rw [Nat.min_eq_left h]; exact hlt
      · rw [Nat.min_eq_right h]; omega
    · rintro t ⟨ht', h1, h2⟩
      rw [hlen] at ht'
      rw [getD_chunks n m _ _ _ ht', (chunkAt_facts n m _ _ hs ht').1] at h1 h2
      have h1' : t * divideAndRoundUp n W ≤ x := h1
      have h2' : x < t * divideAndRoundUp n W
          + min (divideAndRoundUp n W) (n - t * divideAndRoundUp n W) := h2
      have := Nat.min_le_left (divideAndRoundUp n W) (n - t * divideAndRoundUp n W)
      symm
      apply Nat.div_eq_of_lt_le
      · exact h1'
      · rw [Nat.add_mul, Nat.one_mul]; omega

/-- Every chunk of the loop lies in the range, whatever the step. -/
theorem chunkLoop_mem (max m : Nat) (fuel : Nat) :
    ∀ j step cs, chunkLoop max m fuel j step = .ok cs → ∀ c ∈ cs,
      c.1 + c.2.1 ≤ max ∧ c.2.2.1 = c.1 * m ∧ c.2.2.2 = (c.1 + c.2.1) * m := by
  induction fuel with
  | zero =>
    intro j step cs h c hc
    by_cases hj : j < max
    · simp only [chunkLoop, if_pos hj] at h
      exact Except.noConfusion h
    · simp only [chunkLoop, if_neg hj] at h
      have := Except.ok.inj h
      subst this
      exact absurd hc (List.not_mem_nil c)
  | succ fuel ih =>
    intro j step cs h c hc
    by_cases hj : j < max
    · rw [chunkLoop, if_pos hj, computeChunkIndices_eq] at h
      simp only [] at h
      split at h
      · exact Except.noConfusion h
      · rename_i rest hrest
        have := Except.ok.inj h
        subst this
        rcases List.mem_cons.1 hc with h1 | h1
        · subst h1
          refine ⟨?_, rfl, rfl⟩
          show j + (if j + step > max then max - j else step) ≤ max
          split <;> omega
        · exact ih _ _ rest hrest c h1
    · simp only [chunkLoop, if_neg hj] at h
      have := Except.ok.inj h
      subst this
      exact absurd hc (List.not_mem_nil c)

end benchmark

namespace benchmark

variable {F : Type} [CommRing F] [DecidableEq F]

omit [CommRing F] [DecidableEq F] in
/-- A slice within bounds and its length. -/
theorem slice_ok_length (s : List F) (lo hi : Nat) (h1 : lo ≤ hi) (h2 : hi ≤ s.length) :
    ∃ r, slice s lo hi = .ok r ∧ r.length = hi - lo := by
  refine ⟨_, slice_ok s lo hi h1 h2, ?_⟩
  rw [List.length_take, List.length_drop]
  omega

/-- C27 (chunks partition the range within bounds): for `n >= 1` and `W >= 1` the loop of the
answer engine with step `ceil(n / W)` returns chunks `(ind, step, begin, end)` with
`step = min(ceil(n / W), n - ind)`, `begin = ind * m`, `end = (ind + step) * m`; they are
non-empty, contiguous from `0` to `n`, at most `W`, and every index of `[0, n)` lies in exactly
one of them. When the database has the layout invariant and
`len(q) = NumColumns * (BlockSize + 1)`, the slices of the entries and of the query that the
column loop takes (single row), and the slices of the entries and of the output buffer that the
row loop takes, lie inside their buffers. -/
theorem chunks_partition_within_bounds (db : DB F) (q : List F) (n W m : Nat) (hn : 1 ≤ n)
    (hW : 1 ≤ W) (hlay : db.Layout) (hq : q.length = db.NumColumns * (db.BlockSize + 1)) :
    (∃ cs, chunkLoop n m n 0 (divideAndRoundUp n W) = .ok cs ∧
      1 ≤ cs.length ∧ cs.length ≤ W ∧
      (∀ t, t < cs.length → ∃ ind step,
        cs.getD t (0, 0, 0, 0) = (ind, step, ind * m, (ind + step) * m) ∧
        step = min (divideAndRoundUp n W) (n - ind) ∧ ind < n ∧ 1 ≤ step ∧ ind + step ≤ n ∧
        (t = 0 → ind = 0) ∧
        (t + 1 < cs.length → (cs.getD (t + 1) (0, 0, 0, 0)).1 = ind + step) ∧
        (t + 1 = cs.length → ind + step = n)) ∧
      (∀ x, x < n → ∃! t, t < cs.length ∧ (cs.getD t (0, 0, 0, 0)).1 ≤ x ∧
        x < (cs.getD t (0, 0, 0, 0)).1 + (cs.getD t (0, 0, 0, 0)).2.1)) ∧
    (db.NumRows = 1 → ∀ cs,
      chunkLoop db.NumColumns db.BlockSize db.NumColumns 0
          (divideAndRoundUp db.NumColumns W) = .ok cs →
      columnChunks db q db.NumColumns 0 (divideAndRoundUp db.NumColumns W)
        = cs.mapM (fun c => do
            let chunk ← slice db.Entries c.2.2.1 c.2.2.2
            let qs ← slice q (c.1 * (db.BlockSize + 1)) ((c.1 + c.2.1) * (db.BlockSize + 1))
            processRowChunk chunk db.BlockSize qs) ∧
      ∀ c ∈ cs, ∃ chunk qs,
        slice db.Entries c.2.2.1 c.2.2.2 = .ok chunk ∧ chunk.length = c.2.1 * db.BlockSize ∧
        slice q (c.1 * (db.BlockSize + 1)) ((c.1 + c.2.1) * (db.BlockSize + 1)) = .ok qs ∧
        qs.length = c.2.1 * (db.BlockSize + 1)) ∧
    (∀ cs,
      chunkLoop db.NumRows db.BlockSize db.NumRows 0 (divideAndRoundUp db.NumRows W) = .ok cs →
      (∀ m0, rowChunks db q db.NumRows 0 (divideAndRoundUp db.NumRows W) m0
        = cs.foldlM (fun out c => do
            let rows ← slice db.Entries (c.2.2.1 * db.NumColumns) (c.2.2.2 * db.NumColumns)
            let _ ← slice out (c.1 * (db.BlockSize + 1)) ((c.1 + c.2.1) * (db.BlockSize + 1))
            processRows rows db.BlockSize db.NumColumns q out (c.1 * (db.BlockSize + 1)))
          m0) ∧
      ∀ c ∈ cs, ∀ m0 : List F, m0.length = db.NumRows * (db.BlockSize + 1) → ∃ rows out,
        slice db.Entries (c.2.2.1 * db.NumColumns) (c.2.2.2 * db.NumColumns) = .ok rows ∧
        rows.length = c.2.1 * db.BlockSize * db.NumColumns ∧
        slice m0 (c.1 * (db.BlockSize + 1)) ((c.1 + c.2.1) * (db.BlockSize + 1)) = .ok out ∧
        out.length = c.2.1 * (db.BlockSize + 1)) := by
  refine ⟨chunkLoop_partition n W m hn hW, ?_, ?_⟩
  · intro hrow cs hcs
    refine ⟨columnChunks_eq_chunkLoop db q _ _ _ cs hcs, ?_⟩
    intro c hc
    obtain ⟨h1, h2, h3⟩ := chunkLoop_mem _ _ _ _ _ cs hcs c hc
    have hE : db.Entries.length = db.NumColumns * db.BlockSize := by
      rw [hlay, hrow, Nat.one_mul]
    obtain ⟨chunk, e1, e2⟩ := slice_ok_length db.Entries c.2.2.1 c.2.2.2
      (by rw [h2, h3]; exact Nat.mul_le_mul_right _ (by omega))
      (by rw [h3, hE]; exact Nat.mul_le_mul_right _ h1)
    obtain ⟨qs, e3, e4⟩ := slice_ok_length q (c.1 * (db.BlockSize + 1))
      ((c.1 + c.2.1) * (db.BlockSize + 1)) (Nat.mul_le_mul_right _ (by omega))
      (by rw [hq]; exact Nat.mul_le_mul_right _ h1)
    refine ⟨chunk, qs, e1, ?_, e3, ?_⟩
    · rw [e2, h2, h3, Nat.add_mul]; omega
    · rw [e4, Nat.add_mul]; omega
  · intro cs hcs
    refine ⟨fun m0 => rowChunks_eq_chunkLoop db q _ _ _ cs m0 hcs, ?_⟩
    intro c hc m0 hm0
    obtain ⟨h1, h2, h3⟩ := chunkLoop_mem _ _ _ _ _ cs hcs c hc
    have hE : db.Entries.length = db.NumRows * db.BlockSize * db.NumColumns := by
      rw [hlay]; ring
    obtain ⟨rows, e1, e2⟩ := slice_ok_length db.Entries (c.2.2.1 * db.NumColumns)
      (c.2.2.2 * db.NumColumns)
      (by rw [h2, h3]; exact Nat.mul_le_mul_right _ (Nat.mul_le_mul_right _ (by omega)))
      (by rw [h3, hE]; exact Nat.mul_le_mul_right _ (Nat.mul_le_mul_right _ h1))
    obtain ⟨out, e3, e4⟩ := slice_ok_length m0 (c.1 * (db.BlockSize + 1))
      ((c.1 + c.2.1) * (db.BlockSize + 1)) (Nat.mul_le_mul_right _ (by omega))
      (by rw [hm0]; exact Nat.mul_le_mul_right _ h1)
    refine ⟨rows, out, e1, ?_, e3, ?_⟩
    · rw [e2, h2, h3, Nat.add_mul, Nat.add_mul]; omega
    · rw [e4, Nat.add_mul]; omega

end benchmark

namespace benchmark

/-- C27 at `n = 5`, `W = 4`, and at the database of two rows `[1,2][3,4]` and `[5,6][7,8]` with
the query `(0,0,0,1,2,3)`; the row loop with three workers cuts the two rows into two chunks. -/
theorem chunks_partition_within_bounds_witness :
    chunkLoop 5 1 5 0 (divideAndRoundUp 5 4) = .ok [(0, 2, 0, 2), (2, 2, 2, 4), (4, 1, 4, 5)] ∧
    chunkLoop 2 2 2 0 (divideAndRoundUp 2 3) = .ok [(0, 1, 0, 2), (1, 1, 2, 4)] ∧
    ((∃ cs, chunkLoop 5 1 5 0 (divideAndRoundUp 5 4) = .ok cs ∧
      1 ≤ cs.length ∧ cs.length ≤ 4 ∧
      (∀ t, t < cs.length → ∃ ind step,
        cs.getD t (0, 0, 0, 0) = (ind, step, ind * 1, (ind + step) * 1) ∧
        step = min (divideAndRoundUp 5 4) (5 - ind) ∧ ind < 5 ∧ 1 ≤ step ∧ ind + step ≤ 5 ∧
        (t = 0 → ind = 0) ∧
        (t + 1 < cs.length → (cs.getD (t + 1) (0, 0, 0, 0)).1 = ind + step) ∧
        (t + 1 = cs.length → ind + step = 5)) ∧
      (∀ x, x < 5 → ∃! t, t < cs.length ∧ (cs.getD t (0, 0, 0, 0)).1 ≤ x ∧
        x < (cs.getD t (0, 0, 0, 0)).1 + (cs.getD t (0, 0, 0, 0)).2.1)) ∧
    (sampleDB.NumRows = 1 → ∀ cs,
      chunkLoop sampleDB.NumColumns sampleDB.BlockSize sampleDB.NumColumns 0
          (divideAndRoundUp sampleDB.NumColumns 4) = .ok cs →
      columnChunks sampleDB sampleQuery sampleDB.NumColumns 0 (divideAndRoundUp sampleDB.NumColumns 4)
        = cs.mapM (fun c => do
            let chunk ← slice sampleDB.Entries c.2.2.1 c.2.2.2
            let qs ← slice sampleQuery (c.1 * (sampleDB.BlockSize + 1)) ((c.1 + c.2.1) * (sampleDB.BlockSize + 1))
            processRowChunk chunk sampleDB.BlockSize qs) ∧
      ∀ c ∈ cs, ∃ chunk qs,
        slice sampleDB.Entries c.2.2.1 c.2.2.2 = .ok chunk ∧ chunk.length = c.2.1 * sampleDB.BlockSize ∧
        slice sampleQuery (c.1 * (sampleDB.BlockSize + 1)) ((c.1 + c.2.1) * (sampleDB.BlockSize + 1)) = .ok qs ∧
        qs.length = c.2.1 * (sampleDB.BlockSize + 1)) ∧
    (∀ cs,
      chunkLoop sampleDB.NumRows sampleDB.BlockSize sampleDB.NumRows 0 (divideAndRoundUp sampleDB.NumRows 4) = .ok cs →
      (∀ m0, rowChunks sampleDB sampleQuery sampleDB.NumRows 0 (divideAndRoundUp sampleDB.NumRows 4) m0
        = cs.foldlM (fun out c => do
            let rows ← slice sampleDB.Entries (c.2.2.1 * sampleDB.NumColumns) (c.2.2.2 * sampleDB.NumColumns)
            let _ ← slice out (c.1 * (sampleDB.BlockSize + 1)) ((c.1 + c.2.1) * (sampleDB.BlockSize + 1))
            processRows rows sampleDB.BlockSize sampleDB.NumColumns sampleQuery out (c.1 * (sampleDB.BlockSize + 1)))
          m0) ∧
      ∀ c ∈ cs, ∀ m0 : List (ZMod 2147483647), m0.length = sampleDB.NumRows * (sampleDB.BlockSize + 1) → ∃ rows out,
        slice sampleDB.Entries (c.2.2.1 * sampleDB.NumColumns) (c.2.2.2 * sampleDB.NumColumns) = .ok rows ∧
        rows.length = c.2.1 * sampleDB.BlockSize * sampleDB.NumColumns ∧
        slice m0 (c.1 * (sampleDB.BlockSize + 1)) ((c.1 + c.2.1) * (sampleDB.BlockSize + 1)) = .ok out ∧
        out.length = c.2.1 * (sampleDB.BlockSize + 1))) :=
  ⟨by decide, by decide,
   chunks_partition_within_bounds sampleDB sampleQuery 5 4 1 (by decide) (by decide) (by decide)
     (by decide)⟩

end benchmark

/-! ## The order of the worker replies (claim C22) -/

namespace benchmark

variable {F : Type} [CommRing F] [DecidableEq F]

omit [DecidableEq F] in
/-- One reply of full length added into a vector given by its entries. -/
theorem addReply_full (n : Nat) (g : Nat → F) (r : List F) (hr : r.length = n) :
    addReply ((List.range n).map g) r
      = .ok ((List.range n).map (fun i => g i + r.getD i 0)) := by
  unfold addReply
  rw [if_pos (by simp [hr])]
  congr 1
  have hd : ((List.range n).map g).drop r.length = [] := by
    apply List.drop_of_length_le
    simp [hr]
  rw [hd, List.append_nil]
  apply List.ext_getElem
  · simp [hr]
  · intro i h1 h2
    have hi : i < n := by simpa using h2
    have hir : i < r.length := by omega
    simp only [List.getElem_zipWith, List.getElem_map, List.getElem_range]
    rw [getD_eq_getElem r i hir]

omit [DecidableEq F] in
/-- The replies of full length added one after the other: entry `i` is the sum of the entries
`i`. -/
theorem foldlM_addReply_full (n : Nat) (replies : List (List F))
    (hlen : ∀ r ∈ replies, r.length = n) :
    ∀ g : Nat → F, replies.foldlM addReply ((List.range n).map g)
      = .ok ((List.range n).map (fun i => g i + (replies.map (fun r => r.getD i 0)).sum)) := by
  induction replies with
  | nil =>
    intro g
    simp [pure, Except.pure]
  | cons r rs ih =>
    intro g
    rw [List.foldlM_cons, addReply_full n g r (hlen r (List.mem_cons_self _ _))]
    show rs.foldlM addReply _ = _
    rw [ih (fun y hy => hlen y (List.mem_cons_of_mem _ hy))]
    congr 1
    apply List.map_congr_left
    intro i _
    simp only [List.map_cons, List.sum_cons]
    ring

omit [DecidableEq F] in
/-- `combineChunkResults` on replies of the full length is their elementwise sum. -/
theorem combineChunkResults_sum (resLen : Nat) (replies : List (List F))
    (hlen : ∀ r ∈ replies, r.length = resLen) :
    combineChunkResults resLen replies
      = .ok ((List.range resLen).map (fun i => (replies.map (fun r => r.getD i 0)).sum)) := by
  have h0 : List.replicate resLen (0 : F) = (List.range resLen).map (fun _ => (0 : F)) := by
    apply List.ext_getElem <;> simp
  unfold combineChunkResults
  rw [h0, foldlM_addReply_full resLen replies hlen]
  congr 1
  apply List.map_congr_left
  intro i _
  rw [zero_add]

omit [DecidableEq F] in
/-- C22 (arrival order does not matter): for every list of worker replies, each of length
`resLen`, and every permutation of that list, `combineChunkResults` returns the same vector,
namely the element-wise sum of the replies in `F_p`. -/
theorem combineChunkResults_perm (resLen : Nat) (replies arrived : List (List F))
    (hperm : arrived.Perm replies) (hlen : ∀ r ∈ replies, r.length = resLen) :
    combineChunkResults resLen arrived = combineChunkResults resLen replies ∧
    combineChunkResults resLen replies
      = .ok ((List.range resLen).map (fun i => (replies.map (fun r => r.getD i 0)).sum)) := by
  refine ⟨?_, combineChunkResults_sum resLen replies hlen⟩
  rw [combineChunkResults_sum resLen replies hlen,
    combineChunkResults_sum resLen arrived (fun r hr => hlen r (hperm.mem_iff.1 hr))]
  congr 1
  apply List.map_congr_left
  intro i _
  exact (hperm.map _).sum_eq

/-- C22 at three replies of two elements over `F_p`, `p = 2^31 - 1`, arriving last first. -/
theorem combineChunkResults_perm_witness :
    combineChunkResults 2 ([[5, 6], [1, 2], [3, 4]] : List (List (ZMod 2147483647)))
      = .ok [9, 12] ∧
    (combineChunkResults 2 ([[5, 6], [1, 2], [3, 4]] : List (List (ZMod 2147483647)))
      = combineChunkResults 2 [[1, 2], [3, 4], [5, 6]] ∧
    combineChunkResults 2 ([[1, 2], [3, 4], [5, 6]] : List (List (ZMod 2147483647)))
      = .ok ((List.range 2).map (fun i =>
          (([[1, 2], [3, 4], [5, 6]] : List (List (ZMod 2147483647))).map
            (fun r => r.getD i 0)).sum))) :=
  ⟨by decide,
   combineChunkResults_perm 2 ([[1, 2], [3, 4], [5, 6]] : List (List (ZMod 2147483647)))
     [[5, 6], [1, 2], [3, 4]] (by decide) (by decide)⟩

end benchmark

/-! ## Zero skipping in `multiplyAndTag` (claim C23) -/

namespace benchmark

variable {F : Type} [CommRing F] [DecidableEq F]

/-- A loop that refines another step by step refines it as a whole. -/
theorem foldlM_refines {α β : Type} (f g : β → α → Except Panic β)
    (h : ∀ acc x r, f acc x = .ok r → g acc x = .ok r) (l : List α) :
    ∀ init r, l.foldlM f init = .ok r → l.foldlM g init = .ok r := by
  induction l with
  | nil => intro init r hr; exact hr
  | cons x xs ih =>
    intro init r hr
    rw [List.foldlM_cons] at hr ⊢
    cases hfx : f init x with
    | error e =>
      rw [hfx] at hr
      exact Except.noConfusion hr
    | ok a =>
      rw [hfx] at hr
      rw [h init x a hfx]
      exact ih a r hr

/-- Two loops with the same body on the elements of the list are the same loop. -/
theorem foldlM_congr_mem {α β : Type} (f g : β → α → Except Panic β) (l : List α)
    (h : ∀ x ∈ l, ∀ acc, f acc x = g acc x) :
    ∀ init, l.foldlM f init = l.foldlM g init := by
  induction l with
  | nil => intro init; rfl
  | cons x xs ih =>
    intro init
    rw [List.foldlM_cons, List.foldlM_cons, h x (List.mem_cons_self _ _)]
    congr 1
    funext a
    exact ih (fun y hy => h y (List.mem_cons_of_mem _ hy)) a

/-- Where the step without the skip returns, the step with the skip returns the same. -/
theorem tagStep_of_noSkip (elements q : List F) (bl j b : Nat) (acc r : List F × F)
    (h : tagStepNoSkip elements bl q j acc b = .ok r) : tagStep elements bl q j acc b = .ok r := by
  unfold tagStepNoSkip at h
  unfold tagStep
  cases he : elements[j * bl + b]? with
  | none => rw [he] at h; exact Except.noConfusion h
  | some e =>
    rw [he] at h
    simp only [] at h ⊢
    by_cases hz : e = 0
    · rw [if_pos hz]
      cases hqa : q[j * (bl + 1)]? with
      | none => rw [hqa] at h; exact Except.noConfusion h
      | some qa =>
        cases hqt : q[j * (bl + 1) + 1 + b]? with
        | none => rw [hqa, hqt] at h; exact Except.noConfusion h
        | some qt =>
          rw [hqa, hqt] at h
          rw [← Except.ok.inj h, hz]
          simp only [zero_mul, add_zero, set_getD_self]
    · rw [if_neg hz]
      exact h

/-- With the two query elements of the step in range, the steps with and without the skip are
the same. -/
theorem tagStep_eq_noSkip (elements q : List F) (bl j b : Nat) (acc : List F × F)
    (hq : j * (bl + 1) + 1 + b < q.length) :
    tagStep elements bl q j acc b = tagStepNoSkip elements bl q j acc b := by
  have hqa : j * (bl + 1) < q.length := by omega
  unfold tagStepNoSkip tagStep
  cases he : elements[j * bl + b]? with
  | none => rfl
  | some e =>
    simp only [List.getElem?_eq_getElem hq, List.getElem?_eq_getElem hqa]
    by_cases hz : e = 0
    · rw [if_pos hz, hz]
      simp only [zero_mul, add_zero, set_getD_self]
    · rw [if_neg hz]

/-- C23, as amended (zero skipping is an optimisation only): for every input whose query holds
`blockLen + 1` elements for each of the `len(elements) / blockLen` blocks, `multiplyAndTag`
returns the same result as its variant with the `IsZero` early `continue` removed; and for every
input, whenever the variant returns a vector, `multiplyAndTag` returns the same vector. -/
theorem multiplyAndTag_zero_skip (elements : List F) (blockLen : Nat) (q : List F) :
    (elements.length / blockLen * (blockLen + 1) ≤ q.length →
      multiplyAndTag elements blockLen q = multiplyAndTagNoSkip elements blockLen q) ∧
    (∀ v, multiplyAndTagNoSkip elements blockLen q = .ok v →
      multiplyAndTag elements blockLen q = .ok v) := by
  constructor
  · intro hq
    unfold multiplyAndTag multiplyAndTagNoSkip
    by_cases hbl : blockLen = 0
    · rw [if_pos hbl, if_pos hbl]
    · rw [if_neg hbl, if_neg hbl]
      have key := foldlM_congr_mem
        (fun acc j => (List.range blockLen).foldlM (tagStep elements blockLen q j) acc)
        (fun acc j => (List.range blockLen).foldlM (tagStepNoSkip elements blockLen q j) acc)
        (List.range (elements.length / blockLen))
        (by
          intro j hj acc
          apply foldlM_congr_mem
          intro b hb acc'
          apply tagStep_eq_noSkip
          have hj' : j + 1 ≤ elements.length / blockLen := List.mem_range.1 hj
          have hb' : b < blockLen := List.mem_range.1 hb
          have := Nat.mul_le_mul_right (blockLen + 1) hj'
          rw [Nat.add_mul, Nat.one_mul] at this
          omega)
        (List.replicate blockLen (0 : F), (0 : F))
      exact congrArg (fun r : Except Panic (List F × F) =>
        (match r with
        | .error e => Except.error e
        | .ok acc => Except.ok (acc.1 ++ [acc.2]) : Except Panic (List F))) key
  · intro v hv
    unfold multiplyAndTagNoSkip at hv
    unfold multiplyAndTag
    by_cases hbl : blockLen = 0
    · rw [if_pos hbl] at hv
      exact Except.noConfusion hv
    · rw [if_neg hbl] at hv
      rw [if_neg hbl]
      split at hv
      · exact Except.noConfusion hv
      · rename_i acc hacc
        have := foldlM_refines (fun acc j =>
            (List.range blockLen).foldlM (tagStepNoSkip elements blockLen q j) acc)
          (fun acc j => (List.range blockLen).foldlM (tagStep elements blockLen q j) acc)
          (fun a j r hr => foldlM_refines _ _
            (fun a' b r' => tagStep_of_noSkip elements q blockLen j b a' r') _ a r hr)
          _ _ acc hacc
        rw [this]
        exact hv

/-- C23, as amended, at one block `(0, 5)` with the tag keys `(2, 3, 4)`: both return
`(0, 10, 20)`. -/
theorem multiplyAndTag_zero_skip_witness :
    multiplyAndTag ([0, 5] : List (ZMod 2147483647)) 2 [2, 3, 4] = .ok [0, 10, 20] ∧
    multiplyAndTag ([0, 5] : List (ZMod 2147483647)) 2 [2, 3, 4]
      = multiplyAndTagNoSkip [0, 5] 2 [2, 3, 4] ∧
    multiplyAndTag ([0, 5] : List (ZMod 2147483647)) 2 [2, 3, 4] = .ok [0, 10, 20] :=
  ⟨by decide,
   (multiplyAndTag_zero_skip ([0, 5] : List (ZMod 2147483647)) 2 [2, 3, 4]).1 (by decide),
   (multiplyAndTag_zero_skip ([0, 5] : List (ZMod 2147483647)) 2 [2, 3, 4]).2 [0, 10, 20]
     (by decide)⟩

/-- C23 fails as stated. On the single zero element with block length `1` and the empty query,
`multiplyAndTag` skips the element and returns `(0, 0)`, whereas the variant without the skip
reads `q[0]` and panics with an index out of range. -/
theorem multiplyAndTag_zero_skip_differs :
    multiplyAndTag ([0] : List (ZMod 2147483647)) 1 [] = .ok [0, 0] ∧
    multiplyAndTagNoSkip ([0] : List (ZMod 2147483647)) 1 [] = .error .indexOutOfRange ∧
    multiplyAndTag ([0] : List (ZMod 2147483647)) 1 []
      ≠ multiplyAndTagNoSkip ([0] : List (ZMod 2147483647)) 1 [] := by
  decide

end benchmark

/-! ## Scheme selection of the server (claim C24) -/

namespace cmdserver

/-- C24, as amended (scheme selection): the scheme dispatch of the server accepts the selectors
`dpf` and `it`, binding the DPF server (with the low byte of the server id) and the IT server to
the database, and rejects every other string as an undefined scheme. -/
theorem selectServer_dpf_it {DB : Type} (scheme : String) (db : DB) (sid : Int) :
    (scheme = "dpf" → selectServer scheme db sid = .ok (.NewDPF db (sid % 256).toNat)) ∧
    (scheme = "it" → selectServer scheme db sid = .ok (.NewIT db)) ∧
    (scheme ≠ "dpf" → scheme ≠ "it" →
      selectServer scheme db sid = .error "undefined scheme type") := by
  refine ⟨fun h => ?_, fun h => ?_, fun h1 h2 => ?_⟩
  · unfold selectServer
    rw [if_pos h]
  · unfold selectServer
    rw [if_neg (by rw [h]; decide), if_pos h]
  · unfold selectServer
    rw [if_neg h1, if_neg h2]

/-- C24, as amended, at the selectors `dpf`, `it` and `pir`, for the server id `1`. -/
theorem selectServer_dpf_it_witness :
    selectServer "dpf" () 1 = .ok (.NewDPF () 1) ∧
    selectServer "it" () 1 = .ok (.NewIT ()) ∧
    selectServer "pir" () 1 = .error "undefined scheme type" :=
  ⟨(selectServer_dpf_it "dpf" () 1).1 rfl,
   (selectServer_dpf_it "it" () 1).2.1 rfl,
   (selectServer_dpf_it "pir" () 1).2.2 (by decide) (by decide)⟩

/-- C24 fails as stated: the selectors `lwe`, `lwe-128` and `dh` reach the `default` case of the
`switch` and are rejected as undefined scheme types; no server is bound for them. -/
theorem selectServer_rejects_lwe_dh :
    selectServer "lwe" () 0 = .error "undefined scheme type" ∧
    selectServer "lwe-128" () 0 = .error "undefined scheme type" ∧
    selectServer "dh" () 0 = .error "undefined scheme type" ∧
    ¬ ∃ s, selectServer "lwe" () 0 = .ok s := by
  refine ⟨by decide, by decide, by decide, ?_⟩
  rintro ⟨s, hs⟩
  have h : selectServer "lwe" () 0 = .error "undefined scheme type" := by decide
  rw [h] at hs
  exact Except.noConfusion hs

end cmdserver

/-! ## `HashToIndex` (claim C25) -/

namespace database

theorem uint64OfInt_of_range (x : Int) (h0 : 0 ≤ x) (h1 : x < 9223372036854775808) :
    uint64OfInt x = x.toNat := by
  unfold uint64OfInt
  rw [Int.emod_eq_of_lt h0 (by omega)]

theorem intOfUint64_of_lt (x : Nat) (h : x < 9223372036854775808) : intOfUint64 x = (x : Int) := by
  unfold intOfUint64
  have hx : x % 18446744073709551616 = x := Nat.mod_eq_of_lt (by omega)
  rw [hx, if_pos h]

/-- The eight bytes read most significant first make a 64-bit number. -/
theorem Uint64BE_lt (b : List Nat) (hb : ∀ x ∈ b, x < 256) : Uint64BE b < 18446744073709551616 := by
  have h : ∀ i, b.getD i 0 < 256 := by
    intro i
    rw [List.getD_eq_getElem?_getD]
    cases hi : b[i]? with
    | none => simp
    | some x => exact hb x (List.getElem?_mem hi)
  have h0 := h 0
  have h1 := h 1
  have h2 := h 2
  have h3 := h 3
  have h4 := h 4
  have h5 := h 5
  have h6 := h 6
  have h7 := h 7
  unfold Uint64BE
  omega

/-- C25 (`HashToIndex` stays in range): for every identifier and every `length >= 1` (an `int`),
`HashToIndex(id, length)` returns the first eight bytes of the hash of `id`, read as a big-endian
`u64`, modulo `length`; the index is at least `0` and less than `length`, and equal identifiers
give equal indices. -/
theorem HashToIndex_in_range (Sum256 : String → List Nat) (id id' : String) (length : Int)
    (h1 : 1 ≤ length) (h2 : length < 9223372036854775808) :
    ∃ v : Int, HashToIndex Sum256 id length = .ok v ∧
      v = ((Uint64BE (Sum256 id) % 18446744073709551616 : Nat) : Int) % length ∧
      ((∀ x ∈ Sum256 id, x < 256) → v = (Uint64BE (Sum256 id) : Int) % length) ∧
      0 ≤ v ∧ v < length ∧
      (id' = id → HashToIndex Sum256 id' length = .ok v) := by
  have hu := uint64OfInt_of_range length (by omega) h2
  have hn : (length.toNat : Int) = length := Int.toNat_of_nonneg (by omega)
  have hpos : 0 < length.toNat := by omega
  have hlt : Uint64BE (Sum256 id) % 18446744073709551616 % length.toNat < 9223372036854775808 := by
    have := Nat.mod_lt (Uint64BE (Sum256 id) % 18446744073709551616) hpos
    omega
  have hv : HashToIndex Sum256 id length
      = .ok ((Uint64BE (Sum256 id) % 18446744073709551616 % length.toNat : Nat) : Int) := by
    unfold HashToIndex
    simp only []
    rw [hu, if_neg (by omega), intOfUint64_of_lt _ hlt]
  have hcast : ((Uint64BE (Sum256 id) % 18446744073709551616 % length.toNat : Nat) : Int)
      = ((Uint64BE (Sum256 id) % 18446744073709551616 : Nat) : Int) % length := by
    rw [Int.natCast_mod, hn]
  refine ⟨_, hv, hcast, ?_, ?_, ?_, ?_⟩
  · intro hb
    rw [hcast, Nat.mod_eq_of_lt (Uint64BE_lt _ hb)]
  · exact Int.natCast_nonneg _
  · rw [hcast]
    exact Int.emod_lt_of_pos _ (by omega)
  · intro e
    rw [e, hv]

/-- C25 at a hash that starts with the bytes `1, 2, ..., 8` and the length `10`: the index is
`0x0102030405060708 mod 10 = 6`. -/
theorem HashToIndex_in_range_witness :
    HashToIndex (fun _ => [1, 2, 3, 4, 5, 6, 7, 8, 9]) "a" 10 = .ok 6 ∧
    ∃ v : Int, HashToIndex (fun _ => [1, 2, 3, 4, 5, 6, 7, 8, 9]) "a" 10 = .ok v ∧
      v = ((Uint64BE ((fun _ => [1, 2, 3, 4, 5, 6, 7, 8, 9]) "a") % 18446744073709551616 : Nat)
            : Int) % 10 ∧
      ((∀ x ∈ (fun _ => [1, 2, 3, 4, 5, 6, 7, 8, 9]) "a", x < 256) →
        v = (Uint64BE ((fun _ => [1, 2, 3, 4, 5, 6, 7, 8, 9]) "a") : Int) % 10) ∧
      0 ≤ v ∧ v < 10 ∧
      ("a" = "a" → HashToIndex (fun _ => [1, 2, 3, 4, 5, 6, 7, 8, 9]) "a" 10 = .ok v) :=
  ⟨by decide,
   HashToIndex_in_range (fun _ => [1, 2, 3, 4, 5, 6, 7, 8, 9]) "a" "a" 10 (by decide)
     (by decide)⟩

end database

/-! ## `NewRandom` (claim C26) -/

namespace matrix

/-- The matrix `NewRandom` returns has `bytesMod * r * c` data words. -/
theorem NewRandom_length (bytesMod : Nat) (Read : Nat → Option (List Nat)) (beyond : Nat → Nat)
    (r c : Nat) (m : Matrix) (h : NewRandom bytesMod Read beyond r c = some m) :
    m.rows = r ∧ m.cols = c ∧ m.data.length = bytesMod * r * c := by
  unfold NewRandom at h
  cases hR : Read (bytesMod * r * c) with
  | none => rw [hR] at h; exact Option.noConfusion h
  | some b =>
    rw [hR] at h
    simp only [] at h
    rw [← Option.some.inj h]
    refine ⟨rfl, rfl, ?_⟩
    simp

/-- C26 at its failing input: `NewRandom(rnd, 1, 1)` with four bytes per word, on a stream that
starts with the bytes `1, 2, 3, 4`. The matrix returned is `1 x 1` but its data has four words,
not one: the first is `0x04030201` and the other three are read from the memory that follows the
four-byte buffer, so the same stream gives different matrices for different contents of that
memory, and the matrix is not well formed. Whatever the inputs, the data has
`bytesMod * r * c` words. -/
theorem NewRandom_data_not_r_times_c :
    NewRandom 4 (fun n => some ((List.range n).map (fun k => k + 1))) (fun _ => 0) 1 1
      = some ⟨1, 1, [67305985, 0, 0, 0]⟩ ∧
    NewRandom 4 (fun n => some ((List.range n).map (fun k => k + 1))) (fun _ => 255) 1 1
      = some ⟨1, 1, [67305985, 4294967295, 4294967295, 4294967295]⟩ ∧
    ¬ (Matrix.mk 1 1 [67305985, 0, 0, 0]).WellFormed ∧
    (Matrix.mk 1 1 [67305985, 0, 0, 0]).data.length ≠ 1 * 1 ∧
    ∀ (bytesMod : Nat) (Read : Nat → Option (List Nat)) (beyond : Nat → Nat) (r c : Nat)
      (m : Matrix), NewRandom bytesMod Read beyond r c = some m →
        m.rows = r ∧ m.cols = c ∧ m.data.length = bytesMod * r * c :=
  ⟨by decide, by decide, by decide, by decide, NewRandom_length⟩

end matrix

/-! ## The bits of the target and the control bits (claims C28 and C30) -/

namespace dpf

/-- The bit that level `i` reads is bit `n - 1 - i` of `a`, counted from the least significant
bit. -/
theorem getBit_level (a n N i : Nat) (hn : n ≤ N) (hi : i < n) :
    getBit a (N - n + i + 1) N = a / 2 ^ (n - 1 - i) % 2 := by
  unfold getBit
  have : N - (N - n + i + 1) = n - 1 - i := by omega
  rw [this]

/-- A bit below position `n` is a bit of the remainder modulo `2^n`. -/
theorem bit_mod_two_pow (a n k : Nat) (hk : k < n) : a % 2 ^ n / 2 ^ k % 2 = a / 2 ^ k % 2 := by
  have hn : 2 ^ n = 2 ^ k * 2 ^ (n - k) := by
    rw [← Nat.pow_add]; congr 1; omega
  rw [hn, Nat.mod_mul_right_div_self]
  have hd : 2 ∣ 2 ^ (n - k) := by
    have : n - k = (n - k - 1) + 1 := by omega
    rw [this, Nat.pow_succ]
    exact Nat.dvd_mul_left 2 _
  exact Nat.mod_mod_of_dvd _ hd

/-- Targets that agree modulo `2^n` give the same bit at every level. -/
theorem getBit_congr (a a' n N i : Nat) (hn : n ≤ N) (hi : i < n)
    (h : a % 2 ^ n = a' % 2 ^ n) :
    getBit a (N - n + i + 1) N = getBit a' (N - n + i + 1) N := by
  rw [getBit_level a n N i hn hi, getBit_level a' n N i hn hi,
    ← bit_mod_two_pow a n (n - 1 - i) (by omega), ← bit_mod_two_pow a' n (n - 1 - i) (by omega), h]

/-- A level is a function of the bit it reads: two targets with the same bit at level `i` give
the same step from every state. -/
theorem genLevel_congr_bit (prf : List Nat → List Nat) (f : Fss) (x a : Nat) (st : GenState)
    (i : Nat)
    (h : getBit x (f.N - f.NumBits + i + 1) f.N = getBit a (f.N - f.NumBits + i + 1) f.N) :
    genLevel prf f x st i = genLevel prf f a st i := by
  simp only [genLevel]
  rw [h]

/-- Targets with the same bits at the levels below `i` go through the same first `i` states of
the level loop. -/
theorem genState_congr_bits (prf : List Nat → List Nat) (rnd : Nat → Nat) (f : Fss) (x a : Nat)
    (i : Nat)
    (h : ∀ l, l < i →
      getBit x (f.N - f.NumBits + l + 1) f.N = getBit a (f.N - f.NumBits + l + 1) f.N) :
    genState prf rnd f x i = genState prf rnd f a i := by
  induction i with
  | zero => rfl
  | succ i ih =>
    unfold genState at ih ⊢
    rw [List.range_succ, List.foldl_append, List.foldl_append,
      ih (fun l hl => h l (by omega))]
    simp only [List.foldl_cons, List.foldl_nil]
    exact genLevel_congr_bit prf f x a _ i (h i (by omega))

/-- Targets that agree modulo `2^n` go through the same states of the level loop. -/
theorem genState_congr (prf : List Nat → List Nat) (rnd : Nat → Nat) (f : Fss) (a a' : Nat)
    (hN : f.NumBits ≤ f.N) (h : a % 2 ^ f.NumBits = a' % 2 ^ f.NumBits) (i : Nat)
    (hi : i ≤ f.NumBits) : genState prf rnd f a i = genState prf rnd f a' i :=
  genState_congr_bits prf rnd f a a' i
    (fun l hl => getBit_congr a a' f.NumBits f.N l hN (by omega) h)

/-- Two different bits give different control bits of the correction word. -/
theorem xor_bit_ne (t bx ba : Nat) (ht : t < 2) (hx : bx < 2) (ha : ba < 2) (hne : bx ≠ ba) :
    t ^^^ bx ^^^ 1 ≠ t ^^^ ba ^^^ 1 ∧ t ^^^ bx ≠ t ^^^ ba := by
  interval_cases t <;> interval_cases bx <;> interval_cases ba <;>
    first
    | exact absurd rfl hne
    | decide

/-- C28 (key generation reads the `n` low bits of `a`, most significant first): for a bit width
`n <= N`, level `i` of `GenerateTreePF` reads `getBit(a, N - n + i + 1, N)`, which is bit
`n - 1 - i` of `a` (bit `0` the least significant), and uses it: the step of the level is the same
for every target with that bit, the correction word `CW[i]` of both keys is the one of that bit,
and a target that has the same bits at the earlier levels and the other bit at level `i` gets
other control bits in `CW[i]`. So targets that agree modulo `2^n` give the same keys for the same
random bytes. -/
theorem GenerateTreePF_low_bits {F : Type} [CommRing F] (prf : List Nat → List Nat)
    (SetBytes : List Nat → F) (rnd : Nat → Nat) (f : Fss) (a a' : Nat) (b : F)
    (hN : f.NumBits ≤ f.N) (h : a % 2 ^ f.NumBits = a' % 2 ^ f.NumBits) :
    (∀ i, i < f.NumBits →
      getBit a (f.N - f.NumBits + i + 1) f.N = a / 2 ^ (f.NumBits - 1 - i) % 2 ∧
      genState prf rnd f a (i + 1)
        = genLevel prf f a (genState prf rnd f a i) i ∧
      (∀ (x : Nat) (st : GenState),
        x / 2 ^ (f.NumBits - 1 - i) % 2 = a / 2 ^ (f.NumBits - 1 - i) % 2 →
        genLevel prf f x st i = genLevel prf f a st i) ∧
      (GenerateTreePF prf SetBytes rnd f a b).1.CW.getD i []
        = correctionWord (prf (genState prf rnd f a i).sCurr0)
            (prf (genState prf rnd f a i).sCurr1) (a / 2 ^ (f.NumBits - 1 - i) % 2) ∧
      (GenerateTreePF prf SetBytes rnd f a b).2.CW.getD i []
        = correctionWord (prf (genState prf rnd f a i).sCurr0)
            (prf (genState prf rnd f a i).sCurr1) (a / 2 ^ (f.NumBits - 1 - i) % 2) ∧
      (∀ x : Nat,
        (∀ l, l < i →
          x / 2 ^ (f.NumBits - 1 - l) % 2 = a / 2 ^ (f.NumBits - 1 - l) % 2) →
        x / 2 ^ (f.NumBits - 1 - i) % 2 ≠ a / 2 ^ (f.NumBits - 1 - i) % 2 →
        ((GenerateTreePF prf SetBytes rnd f x b).1.CW.getD i []).getD 16 0
          ≠ ((GenerateTreePF prf SetBytes rnd f a b).1.CW.getD i []).getD 16 0 ∧
        ((GenerateTreePF prf SetBytes rnd f x b).1.CW.getD i []).getD 17 0
          ≠ ((GenerateTreePF prf SetBytes rnd f a b).1.CW.getD i []).getD 17 0)) ∧
    GenerateTreePF prf SetBytes rnd f a b = GenerateTreePF prf SetBytes rnd f a' b := by
  have hcw : ∀ (x i : Nat), i < f.NumBits →
      (GenerateTreePF prf SetBytes rnd f x b).1.CW.getD i []
        = correctionWord (prf (genState prf rnd f x i).sCurr0)
            (prf (genState prf rnd f x i).sCurr1) (x / 2 ^ (f.NumBits - 1 - i) % 2) := by
    intro x i hi
    rw [GenerateTreePF_eq]
    simp only []
    rw [genState_CW prf rnd f x i hi, getBit_level x f.NumBits f.N i hN hi]
  constructor
  · intro i hi
    refine ⟨getBit_level a f.NumBits f.N i hN hi, ?_, ?_, hcw a i hi, ?_, ?_⟩
    · unfold genState
      rw [List.range_succ, List.foldl_append]
      rfl
    · intro x st hx
      apply genLevel_congr_bit
      rw [getBit_level x f.NumBits f.N i hN hi, getBit_level a f.NumBits f.N i hN hi, hx]
    · rw [← hcw a i hi, GenerateTreePF_eq]
      simp only []
      rw [(genState_inv prf rnd f a f.NumBits).2.2.2.2]
    · intro x hlow hne
      have hst : genState prf rnd f x i = genState prf rnd f a i := by
        apply genState_congr_bits
        intro l hl
        rw [getBit_level x f.NumBits f.N l hN (by omega),
          getBit_level a f.NumBits f.N l hN (by omega), hlow l hl]
      have hm : ∀ y : Nat, y % 2 < 2 := fun y => Nat.mod_lt _ (by decide)
      have ht : ∀ y z : Nat, y % 2 ^^^ z % 2 < 2 := fun y z =>
        Nat.xor_lt_two_pow (n := 1) (hm y) (hm z)
      rw [hcw x i hi, hcw a i hi, hst, correctionWord_getD_16, correctionWord_getD_16,
        correctionWord_getD_17, correctionWord_getD_17]
      exact ⟨(xor_bit_ne _ _ _ (ht _ _) (hm _) (hm _) hne).1,
        (xor_bit_ne _ _ _ (ht _ _) (hm _) (hm _) hne).2⟩
  · rw [GenerateTreePF_eq, GenerateTreePF_eq,
      genState_congr prf rnd f a a' hN h f.NumBits (Nat.le_refl _)]

/-- C28 at scenario S2 (`n = 8`) for the targets `0xA5` and `0x3A5`, which agree modulo `2^8`. -/
theorem GenerateTreePF_low_bits_witness :
    (∀ i, i < 8 →
      getBit 165 (64 - 8 + i + 1) 64 = 165 / 2 ^ (8 - 1 - i) % 2 ∧
      genState sampleExpand (fun i => i * 37 % 256) ⟨8, 64⟩ 165 (i + 1)
        = genLevel sampleExpand ⟨8, 64⟩ 165
            (genState sampleExpand (fun i => i * 37 % 256) ⟨8, 64⟩ 165 i) i ∧
      (∀ (x : Nat) (st : GenState),
        x / 2 ^ (8 - 1 - i) % 2 = 165 / 2 ^ (8 - 1 - i) % 2 →
        genLevel sampleExpand ⟨8, 64⟩ x st i = genLevel sampleExpand ⟨8, 64⟩ 165 st i) ∧
      (GenerateTreePF (F := ZMod 2147483647) sampleExpand sampleSetBytes
          (fun i => i * 37 % 256) ⟨8, 64⟩ 165 1234).1.CW.getD i []
        = correctionWord
            (sampleExpand (genState sampleExpand (fun i => i * 37 % 256) ⟨8, 64⟩ 165 i).sCurr0)
            (sampleExpand (genState sampleExpand (fun i => i * 37 % 256) ⟨8, 64⟩ 165 i).sCurr1)
            (165 / 2 ^ (8 - 1 - i) % 2) ∧
      (GenerateTreePF (F := ZMod 2147483647) sampleExpand sampleSetBytes
          (fun i => i * 37 % 256) ⟨8, 64⟩ 165 1234).2.CW.getD i []
        = correctionWord
            (sampleExpand (genState sampleExpand (fun i => i * 37 % 256) ⟨8, 64⟩ 165 i).sCurr0)
            (sampleExpand (genState sampleExpand (fun i => i * 37 % 256) ⟨8, 64⟩ 165 i).sCurr1)
            (165 / 2 ^ (8 - 1 - i) % 2) ∧
      (∀ x : Nat,
        (∀ l, l < i → x / 2 ^ (8 - 1 - l) % 2 = 165 / 2 ^ (8 - 1 - l) % 2) →
        x / 2 ^ (8 - 1 - i) % 2 ≠ 165 / 2 ^ (8 - 1 - i) % 2 →
        ((GenerateTreePF (F := ZMod 2147483647) sampleExpand sampleSetBytes
            (fun i => i * 37 % 256) ⟨8, 64⟩ x 1234).1.CW.getD i []).getD 16 0
          ≠ ((GenerateTreePF (F := ZMod 2147483647) sampleExpand sampleSetBytes
            (fun i => i * 37 % 256) ⟨8, 64⟩ 165 1234).1.CW.getD i []).getD 16 0 ∧
        ((GenerateTreePF (F := ZMod 2147483647) sampleExpand sampleSetBytes
            (fun i => i * 37 % 256) ⟨8, 64⟩ x 1234).1.CW.getD i []).getD 17 0
          ≠ ((GenerateTreePF (F := ZMod 2147483647) sampleExpand sampleSetBytes
            (fun i => i * 37 % 256) ⟨8, 64⟩ 165 1234).1.CW.getD i []).getD 17 0)) ∧
    GenerateTreePF (F := ZMod 2147483647) sampleExpand sampleSetBytes (fun i => i * 37 % 256)
        ⟨8, 64⟩ 165 1234
      = GenerateTreePF sampleExpand sampleSetBytes (fun i => i * 37 % 256) ⟨8, 64⟩ 933 1234 :=
  GenerateTreePF_low_bits (F := ZMod 2147483647) sampleExpand sampleSetBytes
    (fun i => i * 37 % 256) ⟨8, 64⟩ 165 933 1234 (by decide) (by decide)

/-- C30 (control bits stay complementary on the target path): in the level loop that
`GenerateTreePF` and `GenerateTreePFVector` share, for every target, randomness and expander,
before the first level and after each level the two control bits are in `{0, 1}` and
`tCurr0 xor tCurr1 = 1`; in particular the bit that decides the sign of the final correction
word is a bit, and exactly one of the two control bits is `1`. -/
theorem control_bits_complementary (prf : List Nat → List Nat) (rnd : Nat → Nat) (f : Fss)
    (a : Nat) (i : Nat) :
    (genState prf rnd f a i).tCurr0 < 2 ∧ (genState prf rnd f a i).tCurr1 < 2 ∧
    (genState prf rnd f a i).tCurr0 ^^^ (genState prf rnd f a i).tCurr1 = 1 ∧
    (((genState prf rnd f a i).tCurr0 = 1 ∧ (genState prf rnd f a i).tCurr1 = 0) ∨
     ((genState prf rnd f a i).tCurr0 = 0 ∧ (genState prf rnd f a i).tCurr1 = 1)) ∧
    genState prf rnd f a (i + 1) = genLevel prf f a (genState prf rnd f a i) i ∧
    genState prf rnd f a f.NumBits
      = (List.range f.NumBits).foldl (genLevel prf f a) (genInit rnd f) := by
  obtain ⟨h0, h1, hx, _, _⟩ := genState_inv prf rnd f a i
  refine ⟨h0, h1, hx, ?_, ?_, rfl⟩
  · generalize (genState prf rnd f a i).tCurr0 = t0 at h0 hx
    generalize (genState prf rnd f a i).tCurr1 = t1 at h1 hx
    interval_cases t0 <;> interval_cases t1 <;> first | exact absurd hx (by decide) | decide
  · unfold genState
    rw [List.range_succ, List.foldl_append]
    rfl

end dpf

/-! ## The single-bit scheme (claim C29) -/

namespace benchmark

variable {F : Type} [CommRing F] [DecidableEq F]

omit [CommRing F] [DecidableEq F] in
theorem foldlM_range_succ (f : List F → Nat → Except Panic (List F)) (a : List F) (m : Nat) :
    (List.range (m + 1)).foldlM f a = ((List.range m).foldlM f a >>= fun a' => f a' m) := by
  rw [List.range_succ, List.foldlM_append]
  congr 1
  funext a'
  rw [List.foldlM_cons]
  show (f a' m >>= fun b => pure b) = f a' m
  cases f a' m <;> rfl

/-- The column loop of the single-bit scheme for row `i`, over the first `m` columns: it returns
exactly when the indices it reads are in range, and then it has added the terms of the row to
`a[i]`. -/
theorem singleBit_inner (q : List F) (db : DB F) (i : Nat) (a : List F) (hi : i < a.length)
    (m : Nat) :
    (List.range m).foldlM (fun (a : List F) (j : Nat) =>
        (match db.Entries[i * db.NumColumns + j]? with
        | none => Except.error Panic.indexOutOfRange
        | some e =>
          if e = 1 then
            match q[j]? with
            | none => Except.error Panic.indexOutOfRange
            | some qj => Except.ok (a.set i (a.getD i 0 + qj))
          else Except.ok a : Except Panic (List F))) a
      = if ∀ j, j < m → singleBitInRange q db i j then
          Except.ok (a.set i (a.getD i 0 + ((List.range m).map (singleBitTerm q db i)).sum))
        else Except.error Panic.indexOutOfRange := by
  induction m with
  | zero =>
    rw [if_pos (fun j hj => absurd hj (Nat.not_lt_zero j))]
    simp only [List.range_zero, List.foldlM_nil, List.map_nil, List.sum_nil, add_zero,
      set_getD_self]
    rfl
  | succ m ih =>
    rw [foldlM_range_succ, ih]
    by_cases hP : ∀ j, j < m → singleBitInRange q db i j
    · rw [if_pos hP]
      show (match db.Entries[i * db.NumColumns + m]? with
        | none => Except.error Panic.indexOutOfRange
        | some e =>
          if e = 1 then
            match q[m]? with
            | none => Except.error Panic.indexOutOfRange
            | some qj => Except.ok ((a.set i _).set i ((a.set i _).getD i 0 + qj))
          else Except.ok (a.set i _)) = _
      have hsum : ((List.range (m + 1)).map (singleBitTerm q db i)).sum
          = ((List.range m).map (singleBitTerm q db i)).sum + singleBitTerm q db i m := by
        rw [List.range_succ, List.map_append, List.sum_append]
        simp
      have hget : ∀ v : F, (a.set i v).getD i 0 = v := by
        intro v
        rw [List.getD_eq_getElem?_getD, List.getElem?_set_self (by omega)]
        rfl
      cases hE : db.Entries[i * db.NumColumns + m]? with
      | none =>
        have hlen : db.Entries.length ≤ i * db.NumColumns + m := List.getElem?_eq_none_iff.1 hE
        rw [if_neg (fun h => absurd (h m (Nat.lt_succ_self m)).1 (by omega))]
      | some e =>
        obtain ⟨hlt, he⟩ := List.getElem?_eq_some.1 hE
        have hgetE : db.Entries.getD (i * db.NumColumns + m) 0 = e := by
          rw [getD_eq_getElem _ _ hlt, he]
        simp only []
        by_cases h1 : e = 1
        · rw [if_pos h1]
          cases hq : q[m]? with
          | none =>
            have hql : q.length ≤ m := List.getElem?_eq_none_iff.1 hq
            rw [if_neg (fun h => absurd ((h m (Nat.lt_succ_self m)).2 (by rw [hgetE, h1]))
              (by omega))]
          | some qj =>
            obtain ⟨hqlt, hqe⟩ := List.getElem?_eq_some.1 hq
            have hall : ∀ j, j < m + 1 → singleBitInRange q db i j := by
              intro j hj
              rcases Nat.lt_succ_iff_lt_or_eq.1 hj with h | h
              · exact hP j h
              · subst h; exact ⟨hlt, fun _ => hqlt⟩
            rw [if_pos hall, hget]
            simp only []
            rw [List.set_set, hsum]
            simp only [singleBitTerm, hgetE, h1, if_true]
            rw [getD_eq_getElem q m hqlt, hqe, add_assoc]
        · rw [if_neg h1]
          have hall : ∀ j, j < m + 1 → singleBitInRange q db i j := by
            intro j hj
            rcases Nat.lt_succ_iff_lt_or_eq.1 hj with h | h
            · exact hP j h
            · subst h; exact ⟨hlt, fun h' => absurd (hgetE.symm.trans h') h1⟩
          rw [if_pos hall, hsum]
          simp only [singleBitTerm, hgetE, h1, if_false, add_zero]
    · rw [if_neg hP, if_neg (fun h => hP (fun j hj => h j (Nat.lt_succ_of_lt hj)))]
      rfl

end benchmark

namespace benchmark

variable {F : Type} [CommRing F] [DecidableEq F]

/-- The single-bit scheme returns exactly when every index it reads is in range, and then it
returns the reference answer. -/
theorem answerSingleBit_eq (q : List F) (db : DB F) :
    answerSingleBit q db
      = if ∀ i, i < db.NumRows → ∀ j, j < db.NumColumns → singleBitInRange q db i j then
          Except.ok (answerSingleBitRef q db)
        else Except.error Panic.indexOutOfRange := by
  have key : ∀ n, n ≤ db.NumRows →
      (List.range n).foldlM (fun (a : List F) (i : Nat) =>
        (List.range db.NumColumns).foldlM (fun (a : List F) (j : Nat) =>
          (match db.Entries[i * db.NumColumns + j]? with
          | none => Except.error Panic.indexOutOfRange
          | some e =>
            if e = 1 then
              match q[j]? with
              | none => Except.error Panic.indexOutOfRange
              | some qj => Except.ok (a.set i (a.getD i 0 + qj))
            else Except.ok a : Except Panic (List F))) a) (List.replicate db.NumRows (0 : F))
        = if ∀ i, i < n → ∀ j, j < db.NumColumns → singleBitInRange q db i j then
            Except.ok ((List.range db.NumRows).map (fun i =>
              if i < n then ((List.range db.NumColumns).map (singleBitTerm q db i)).sum else 0))
          else Except.error Panic.indexOutOfRange := by
    intro n
    induction n with
    | zero =>
      intro _
      rw [if_pos (fun i hi => absurd hi (Nat.not_lt_zero i))]
      simp only [List.range_zero, List.foldlM_nil, Nat.not_lt_zero, if_false]
      have h0 : List.replicate db.NumRows (0 : F)
          = (List.range db.NumRows).map (fun _ => (0 : F)) := by
        apply List.ext_getElem <;> simp
      rw [h0]
      rfl
    | succ n ih =>
      intro hn
      rw [foldlM_range_succ, ih (by omega)]
      by_cases hP : ∀ i, i < n → ∀ j, j < db.NumColumns → singleBitInRange q db i j
      · rw [if_pos hP]
        show (List.range db.NumColumns).foldlM _ _ = _
        rw [singleBit_inner q db n _ (by simp; omega) db.NumColumns]
        by_cases hQ : ∀ j, j < db.NumColumns → singleBitInRange q db n j
        · have hall : ∀ i, i < n + 1 → ∀ j, j < db.NumColumns → singleBitInRange q db i j := by
            intro i hi
            rcases Nat.lt_succ_iff_lt_or_eq.1 hi with h | h
            · exact hP i h
            · subst h; exact hQ
          rw [if_pos hQ, if_pos hall, getD_map_range _ _ _ (by omega), if_neg (Nat.lt_irrefl n),
            zero_add, map_range_set]
          congr 1
          apply List.map_congr_left
          intro i _
          by_cases hin : i = n
          · rw [if_pos hin, hin, if_pos (Nat.lt_succ_self n)]
          · rw [if_neg hin]
            by_cases hlt : i < n
            · rw [if_pos hlt, if_pos (by omega)]
            · rw [if_neg hlt, if_neg (by omega)]
        · rw [if_neg hQ, if_neg (fun h => hQ (h n (Nat.lt_succ_self n)))]
      · rw [if_neg hP, if_neg (fun h => hP (fun i hi => h i (Nat.lt_succ_of_lt hi)))]
        rfl
  refine Eq.trans (key db.NumRows (Nat.le_refl _)) ?_
  congr 2
  unfold answerSingleBitRef
  apply List.map_congr_left
  intro i hi
  rw [if_pos (List.mem_range.1 hi)]

/-- C29 (single-bit scheme): when the database's `BlockSize` equals the single-bit block length,
for every query of length `NumColumns` over a database that holds its `NumRows * NumColumns`
entries, `answer` returns exactly `NumRows` elements and element `i` is the sum in `F_p` of
`q[j]` over the columns `j` whose entry `DB[i * NumColumns + j]` equals one, whatever the worker
count; and on every input, whenever `answer` returns, it returns that vector. -/
theorem answer_single_bit (sb : Nat) (q : List F) (db : DB F) (w w' : Nat)
    (hbs : db.BlockSize = sb) :
    (q.length = db.NumColumns → db.NumRows * db.NumColumns ≤ db.Entries.length →
      answer sb q db w = .ok (answerSingleBitRef q db)) ∧
    (answerSingleBitRef q db).length = db.NumRows ∧
    (∀ i, i < db.NumRows →
      (answerSingleBitRef q db).getD i 0
        = ∑ j in Finset.range db.NumColumns,
            if db.Entries.getD (i * db.NumColumns + j) 0 = 1 then q.getD j 0 else 0) ∧
    (∀ v, answer sb q db w = .ok v → v = answerSingleBitRef q db) ∧
    answer sb q db w' = answer sb q db w := by
  have ha : ∀ u, answer sb q db u = answerSingleBit q db := by
    intro u
    unfold answer
    rw [if_pos hbs]
  refine ⟨?_, ?_, ?_, ?_, ?_⟩
  · intro hq hE
    rw [ha, answerSingleBit_eq, if_pos]
    intro i hi j hj
    have h1 : (i + 1) * db.NumColumns ≤ db.NumRows * db.NumColumns :=
      Nat.mul_le_mul_right _ hi
    rw [Nat.add_mul, Nat.one_mul] at h1
    exact ⟨by omega, fun _ => by omega⟩
  · simp [answerSingleBitRef]
  · intro i hi
    unfold answerSingleBitRef
    rw [getD_map_range _ _ _ hi]
    have hsum : ∀ m, ((List.range m).map (singleBitTerm q db i)).sum
        = ∑ j in Finset.range m, singleBitTerm q db i j := by
      intro m
      induction m with
      | zero => simp
      | succ m ih =>
        rw [List.range_succ, List.map_append, List.sum_append, ih, Finset.sum_range_succ]
        simp
    rw [hsum]
    rfl
  · intro v hv
    rw [ha, answerSingleBit_eq] at hv
    split at hv
    · exact (Except.ok.inj hv).symm
    · exact Except.noConfusion hv
  · rw [ha, ha]

/-- C29 at a `2 x 3` single-bit database with rows `(1, 0, 1)` and `(0, 1, 1)` and the query
`(10, 20, 30)`, the single-bit block length being `1`: the answer is `(40, 50)`. -/
theorem answer_single_bit_witness :
    answer 1 ([10, 20, 30] : List (ZMod 2147483647)) ⟨[1, 0, 1, 0, 1, 1], 2, 3, 1⟩ 1
      = .ok [40, 50] ∧
    answer 1 ([10, 20, 30] : List (ZMod 2147483647)) ⟨[1, 0, 1, 0, 1, 1], 2, 3, 1⟩ 1
      = .ok (answerSingleBitRef [10, 20, 30] ⟨[1, 0, 1, 0, 1, 1], 2, 3, 1⟩) ∧
    answer 1 ([10, 20, 30] : List (ZMod 2147483647)) ⟨[1, 0, 1, 0, 1, 1], 2, 3, 1⟩ 4
      = answer 1 ([10, 20, 30] : List (ZMod 2147483647)) ⟨[1, 0, 1, 0, 1, 1], 2, 3, 1⟩ 1 :=
  ⟨by decide,
   (answer_single_bit 1 ([10, 20, 30] : List (ZMod 2147483647)) ⟨[1, 0, 1, 0, 1, 1], 2, 3, 1⟩
     1 4 (by decide)).1 (by decide) (by decide),
   (answer_single_bit 1 ([10, 20, 30] : List (ZMod 2147483647)) ⟨[1, 0, 1, 0, 1, 1], 2, 3, 1⟩
     1 4 (by decide)).2.2.2.2⟩

end benchmark

/-! ## Scalar and vector key generation (claim C31) -/

namespace dpf

/-- C31 (scalar and vector key generation build the same seed tree): for every `Fss` instance,
every `a` and the same random bytes, whenever `GenerateTreePFVector(a, bs)` returns its keys
they have the `SInit`, `TInit` and `CW` of the keys of `GenerateTreePF(a, b)`, party by party
and for all targets `b` and `bs`, so the two results can differ only in `FinalCW`; and it
returns them when the PRG delivers the `len(bs)` elements asked for. -/
theorem scalar_vector_same_tree {F : Type} [CommRing F] (prf : List Nat → List Nat)
    (SetBytes : List Nat → F) (RandomVectorPointers : List Nat → Nat → List F)
    (rnd : Nat → Nat) (f : Fss) (a : Nat) (b : F) (bv : List F) :
    (∀ K0 K1, GenerateTreePFVector prf RandomVectorPointers rnd f a bv = .ok (K0, K1) →
      K0.SInit = (GenerateTreePF prf SetBytes rnd f a b).1.SInit ∧
      K0.TInit = (GenerateTreePF prf SetBytes rnd f a b).1.TInit ∧
      K0.CW = (GenerateTreePF prf SetBytes rnd f a b).1.CW ∧
      K1.SInit = (GenerateTreePF prf SetBytes rnd f a b).2.SInit ∧
      K1.TInit = (GenerateTreePF prf SetBytes rnd f a b).2.TInit ∧
      K1.CW = (GenerateTreePF prf SetBytes rnd f a b).2.CW) ∧
    ((∀ key, (RandomVectorPointers key bv.length).length = bv.length) →
      ∃ K0 K1, GenerateTreePFVector prf RandomVectorPointers rnd f a bv = .ok (K0, K1)) := by
  constructor
  · intro K0 K1 h
    unfold GenerateTreePFVector at h
    simp only [] at h
    split at h
    · exact Except.noConfusion h
    · have h' := Except.ok.inj h
      have h0 := congrArg Prod.fst h'
      have h1 := congrArg Prod.snd h'
      simp only [] at h0 h1
      rw [← h0, ← h1, GenerateTreePF_eq]
      exact ⟨rfl, rfl, rfl, rfl, rfl, rfl⟩
  · intro hRV
    exact ⟨_, _, GenerateTreePFVector_eq prf RandomVectorPointers rnd f a bv hRV⟩

/-- C31 at scenario S2 (`n = 8`, `a = 0xA5`) with the scalar target `1234` and the vector target
`(7, 8, 9)`, the stand-in expander, conversion and PRG over `F_p`, `p = 2^31 - 1`. -/
theorem scalar_vector_same_tree_witness :
    ∃ K0 K1, GenerateTreePFVector (F := ZMod 2147483647) sampleExpand sampleRandomVector
        (fun i => i * 37 % 256) ⟨8, 64⟩ 165 [7, 8, 9] = .ok (K0, K1) ∧
      K0.SInit = (GenerateTreePF (F := ZMod 2147483647) sampleExpand sampleSetBytes
        (fun i => i * 37 % 256) ⟨8, 64⟩ 165 1234).1.SInit ∧
      K0.TInit = (GenerateTreePF (F := ZMod 2147483647) sampleExpand sampleSetBytes
        (fun i => i * 37 % 256) ⟨8, 64⟩ 165 1234).1.TInit ∧
      K0.CW = (GenerateTreePF (F := ZMod 2147483647) sampleExpand sampleSetBytes
        (fun i => i * 37 % 256) ⟨8, 64⟩ 165 1234).1.CW ∧
      K1.SInit = (GenerateTreePF (F := ZMod 2147483647) sampleExpand sampleSetBytes
        (fun i => i * 37 % 256) ⟨8, 64⟩ 165 1234).2.SInit ∧
      K1.TInit = (GenerateTreePF (F := ZMod 2147483647) sampleExpand sampleSetBytes
        (fun i => i * 37 % 256) ⟨8, 64⟩ 165 1234).2.TInit ∧
      K1.CW = (GenerateTreePF (F := ZMod 2147483647) sampleExpand sampleSetBytes
        (fun i => i * 37 % 256) ⟨8, 64⟩ 165 1234).2.CW := by
  obtain ⟨K0, K1, h⟩ := (scalar_vector_same_tree (F := ZMod 2147483647) sampleExpand
    sampleSetBytes sampleRandomVector (fun i => i * 37 % 256) ⟨8, 64⟩ 165 1234 [7, 8, 9]).2
    (fun key => by
      show (sampleRandomVector key 3 : List (ZMod 2147483647)).length = 3
      unfold sampleRandomVector
      rw [List.length_map, List.length_range])
  exact ⟨K0, K1, h, (scalar_vector_same_tree (F := ZMod 2147483647) sampleExpand
    sampleSetBytes sampleRandomVector (fun i => i * 37 % 256) ⟨8, 64⟩ 165 1234 [7, 8, 9]).1
    K0 K1 h⟩

end dpf

/-! ## The round trip of a vector of matrices (claim C32) -/

namespace matrix

theorem Uint32BE_PutUint32BE (v : Nat) (hv : v < 4294967296) :
    Uint32BE (PutUint32BE v) = v := by
  simp only [Uint32BE, PutUint32BE, List.getD_cons_zero, List.getD_cons_succ]
  omega

/-- The decoder gives back a matrix whose dimensions and words are 32-bit numbers. -/
theorem BytesToMatrix_encode (m : Matrix) (hr : m.rows < 4294967296)
    (hc : m.cols < 4294967296) (hd : ∀ w ∈ m.data, w < 4294967296) :
    BytesToMatrix (MatrixToBytes m) = .ok m := by
  have hlen : ¬ (MatrixToBytes m).length < 8 := by rw [MatrixToBytes_length]; omega
  rw [BytesToMatrix, if_neg hlen, MatrixToBytes_eq]
  simp only [List.take_succ_cons, List.take_zero, List.drop_succ_cons, List.drop_zero, Uint32BE,
    List.getD_cons_zero, List.getD_cons_succ, ByteSliceToUint32Slice_Uint32SliceToByteSlice _ hd]
  have e1 : u32 m.rows / 16777216 % 256 * 16777216 + u32 m.rows / 65536 % 256 * 65536
      + u32 m.rows / 256 % 256 * 256 + u32 m.rows % 256 = m.rows := by
    unfold u32; omega
  have e2 : u32 m.cols / 16777216 % 256 * 16777216 + u32 m.cols / 65536 % 256 * 65536
      + u32 m.cols / 256 % 256 * 256 + u32 m.cols % 256 = m.cols := by
    unfold u32; omega
  rw [e1, e2]

/-- Segment `i` of the concatenation of lists of one length is list `i`. -/
theorem flatten_segment {α : Type} (L : Nat) (l : List (List α)) (hl : ∀ x ∈ l, x.length = L) :
    ∀ i, (h : i < l.length) → ((l.flatten).drop (i * L)).take L = l[i] := by
  induction l with
  | nil => intro i h; exact absurd h (Nat.not_lt_zero i)
  | cons x xs ih =>
    intro i h
    have hx : x.length = L := hl x (List.mem_cons_self _ _)
    cases i with
    | zero =>
      rw [Nat.zero_mul, List.drop_zero, List.flatten_cons, List.take_append_of_le_length
        (by omega), List.take_of_length_le (by omega)]
      rfl
    | succ i =>
      have e : (i + 1) * L = x.length + i * L := by rw [Nat.add_mul, Nat.one_mul, hx]; omega
      rw [List.flatten_cons, e, List.drop_append]
      exact ih (fun y hy => hl y (List.mem_cons_of_mem _ hy)) i (by simpa using h)

theorem flatten_length_of_length {α : Type} (L : Nat) (l : List (List α))
    (hl : ∀ x ∈ l, x.length = L) : l.flatten.length = L * l.length := by
  induction l with
  | nil => simp
  | cons x xs ih =>
    rw [List.flatten_cons, List.length_append, hl x (List.mem_cons_self _ _),
      ih (fun y hy => hl y (List.mem_cons_of_mem _ hy)), List.length_cons, Nat.mul_succ]
    omega

/-- `MatricesToBytes` on well-formed matrices of one shape: the length word and the encodings
back to back. -/
theorem MatricesToBytes_ok (first : Matrix) (rest : List Matrix)
    (hwf : ∀ m ∈ first :: rest, m.WellFormed)
    (hshape : ∀ m ∈ rest, m.rows = first.rows ∧ m.cols = first.cols) :
    MatricesToBytes (first :: rest)
      = .ok (PutUint32BE (u32 (MatrixToBytes first).length)
          ++ ((first :: rest).map MatrixToBytes).flatten) := by
  have hss : ¬ (sameShape first (first :: rest) = false) := by
    rw [Bool.not_eq_false, sameShape_iff]
    intro m hm
    rcases List.mem_cons.1 hm with h | h
    · subst h; exact ⟨rfl, rfl⟩
    · exact hshape m h
  have hL : ∀ m ∈ rest, (MatrixToBytes m).length = (MatrixToBytes first).length := by
    intro m hm
    rw [MatrixToBytes_length, MatrixToBytes_length,
      (hwf m (List.mem_cons_of_mem _ hm)).1, (hwf first (List.mem_cons_self _ _)).1,
      (hshape m hm).1, (hshape m hm).2]
  simp only [MatricesToBytes, if_neg hss, List.length_cons, Nat.add_sub_cancel]
  have h1 : copyAt (List.replicate (4 + (MatrixToBytes first).length * (rest.length + 1)) 0) 0
        (PutUint32BE (u32 (MatrixToBytes first).length))
      = PutUint32BE (u32 (MatrixToBytes first).length)
        ++ List.replicate ((MatrixToBytes first).length * (rest.length + 1)) 0 := by
    have := copyAt_append_replicate 0 ([] : List Nat)
      (PutUint32BE (u32 (MatrixToBytes first).length))
      (4 + (MatrixToBytes first).length * (rest.length + 1)) (by simp [PutUint32BE])
    simp only [List.length_nil, List.nil_append] at this
    rw [this]
    congr 1
    simp [PutUint32BE]
  have h2 : copyAt (PutUint32BE (u32 (MatrixToBytes first).length)
        ++ List.replicate ((MatrixToBytes first).length * (rest.length + 1)) 0) 4
        (MatrixToBytes first)
      = (PutUint32BE (u32 (MatrixToBytes first).length) ++ MatrixToBytes first)
        ++ List.replicate ((MatrixToBytes first).length * rest.length) 0 := by
    have := copyAt_append_replicate 0 (PutUint32BE (u32 (MatrixToBytes first).length))
      (MatrixToBytes first) ((MatrixToBytes first).length * (rest.length + 1))
      (by rw [Nat.mul_succ]; omega)
    have hl4 : (PutUint32BE (u32 (MatrixToBytes first).length)).length = 4 := by
      simp [PutUint32BE]
    have e : (MatrixToBytes first).length * (rest.length + 1) - (MatrixToBytes first).length
        = (MatrixToBytes first).length * rest.length := by
      rw [Nat.mul_succ]; omega
    rw [hl4, e] at this
    exact this
  rw [h1, h2]
  have := MatricesToBytes_fold first rest (MatrixToBytes first).length
    (PutUint32BE (u32 (MatrixToBytes first).length) ++ MatrixToBytes first) hL
    (by simp [PutUint32BE]; omega) rest.length (Nat.le_refl _)
  rw [this]
  simp

end matrix

namespace matrix

/-- Reading a list back index by index. -/
theorem map_range_getD {α : Type} (l : List α) (d : α) :
    (List.range l.length).map (fun i => l.getD i d) = l := by
  apply List.ext_getElem
  · simp
  · intro i h1 h2
    simp only [List.getElem_map, List.getElem_range]
    rw [List.getD_eq_getElem?_getD, List.getElem?_eq_getElem h2]
    rfl

/-- `BytesToMatrices` on the length word followed by encodings of that length gives the
matrices back. -/
theorem BytesToMatrices_encode (ms : List Matrix) (L : Nat) (d : Matrix) (hL8 : 8 ≤ L)
    (hL : L < 4294967296) (hk : ms.length < 4294967296)
    (hlen : ∀ m ∈ ms, (MatrixToBytes m).length = L)
    (hr : ∀ m ∈ ms, m.rows < 4294967296 ∧ m.cols < 4294967296 ∧ ∀ w ∈ m.data, w < 4294967296) :
    BytesToMatrices (PutUint32BE (u32 L) ++ (ms.map MatrixToBytes).flatten) = .ok ms := by
  have hu : u32 L = L := Nat.mod_eq_of_lt hL
  rw [hu]
  have hl4 : (PutUint32BE L).length = 4 := rfl
  have hencl : ∀ x ∈ ms.map MatrixToBytes, x.length = L := by
    intro x hx
    obtain ⟨m, hm, e⟩ := List.mem_map.1 hx
    rw [← e]; exact hlen m hm
  have hflat : ((ms.map MatrixToBytes).flatten).length = L * ms.length := by
    rw [flatten_length_of_length L _ hencl, List.length_map]
  have hinp : (PutUint32BE L ++ (ms.map MatrixToBytes).flatten).length
      = 4 + L * ms.length := by
    rw [List.length_append, hl4, hflat]
  have htake : (PutUint32BE L ++ (ms.map MatrixToBytes).flatten).take 4
      = PutUint32BE L := by
    rw [List.take_append_of_le_length (by rw [hl4]), List.take_of_length_le (by rw [hl4])]
  have hn : u32 ((4 + L * ms.length - 4) / L) = ms.length := by
    rw [Nat.add_sub_cancel_left, Nat.mul_div_cancel_left _ (by omega)]
    exact Nat.mod_eq_of_lt hk
  unfold BytesToMatrices
  rw [if_neg (by rw [hinp]; omega), htake, Uint32BE_PutUint32BE L hL]
  simp only []
  rw [if_neg (by omega), hinp, hn]
  have key := dpf.mapM_ok_of_forall
    (fun i => do
      let s ← slice (PutUint32BE L ++ (ms.map MatrixToBytes).flatten) (4 + i * L)
        (4 + (i + 1) * L)
      BytesToMatrix s)
    (fun i => ms.getD i d) (List.range ms.length)
    (by
      intro i hi
      have hi' : i < ms.length := List.mem_range.1 hi
      have hle : (i + 1) * L ≤ ms.length * L := Nat.mul_le_mul_right _ hi'
      have hexp : (i + 1) * L = i * L + L := by rw [Nat.add_mul, Nat.one_mul]
      beta_reduce
      rw [benchmark.slice_ok _ _ _ (by omega) (by rw [hinp, Nat.mul_comm L]; omega)]
      show BytesToMatrix _ = _
      have hseg : ((PutUint32BE L ++ (ms.map MatrixToBytes).flatten).drop (4 + i * L)).take
          (4 + (i + 1) * L - (4 + i * L)) = MatrixToBytes (ms.getD i d) := by
        have e1 : 4 + (i + 1) * L - (4 + i * L) = L := by omega
        have e2 : (PutUint32BE L ++ (ms.map MatrixToBytes).flatten).drop (4 + i * L)
            = ((ms.map MatrixToBytes).flatten).drop (i * L) := by
          have : 4 + i * L = (PutUint32BE L).length + i * L := rfl
          rw [this, List.drop_append]
        rw [e1, e2, flatten_segment L _ hencl i (by simpa using hi')]
        simp only [List.getElem_map]
        rw [List.getD_eq_getElem?_getD, List.getElem?_eq_getElem hi']
        rfl
      rw [hseg]
      have hmem : ms.getD i d ∈ ms := by
        rw [List.getD_eq_getElem?_getD, List.getElem?_eq_getElem hi']
        exact List.getElem_mem hi'
      exact BytesToMatrix_encode _ (hr _ hmem).1 (hr _ hmem).2.1 (hr _ hmem).2.2)
  rw [map_range_getD] at key
  exact key

/-- C32, as amended (round trip of a vector of matrices): for every non-empty list `ms` of
fewer than `2^32` matrices that all have the same shape, with `rows, cols < 2^32`, satisfy
`len(data) = rows * cols` (words being `uint32`) and have an encoding of fewer than `2^32`
bytes (`8 + 4 * rows * cols < 2^32`), `MatricesToBytes(ms)` returns and `BytesToMatrices` of it
returns the list `ms`: the same length, and matrix `i` equal to `ms[i]` in `rows`, `cols` and
`data`. -/
theorem BytesToMatrices_MatricesToBytes (first : Matrix) (rest : List Matrix)
    (hwf : ∀ m ∈ first :: rest, m.WellFormed)
    (hshape : ∀ m ∈ rest, m.rows = first.rows ∧ m.cols = first.cols)
    (hr : first.rows < 4294967296) (hc : first.cols < 4294967296)
    (hL : 8 + 4 * (first.rows * first.cols) < 4294967296)
    (hk : (first :: rest).length < 4294967296) :
    ∃ bytes out, MatricesToBytes (first :: rest) = .ok bytes ∧
      BytesToMatrices bytes = .ok out ∧ out.length = (first :: rest).length ∧
      (∀ i, i < (first :: rest).length →
        (out.getD i first).rows = ((first :: rest).getD i first).rows ∧
        (out.getD i first).cols = ((first :: rest).getD i first).cols ∧
        (out.getD i first).data = ((first :: rest).getD i first).data) ∧
      out = first :: rest := by
  have hlenF : (MatrixToBytes first).length = 8 + 4 * (first.rows * first.cols) := by
    rw [MatrixToBytes_length, (hwf first (List.mem_cons_self _ _)).1]
  have hsh : ∀ m ∈ first :: rest, m.rows = first.rows ∧ m.cols = first.cols := by
    intro m hm
    rcases List.mem_cons.1 hm with h | h
    · subst h; exact ⟨rfl, rfl⟩
    · exact hshape m h
  have hlen : ∀ m ∈ first :: rest, (MatrixToBytes m).length = (MatrixToBytes first).length := by
    intro m hm
    rw [MatrixToBytes_length, MatrixToBytes_length, (hwf m hm).1,
      (hwf first (List.mem_cons_self _ _)).1, (hsh m hm).1, (hsh m hm).2]
  have hdec := BytesToMatrices_encode (first :: rest) (MatrixToBytes first).length first
    (by rw [hlenF]; omega) (by rw [hlenF]; exact hL) hk hlen
    (fun m hm => ⟨by rw [(hsh m hm).1]; exact hr, by rw [(hsh m hm).2]; exact hc, (hwf m hm).2⟩)
  exact ⟨_, _, MatricesToBytes_ok first rest hwf hshape, hdec, rfl,
    fun i _ => ⟨rfl, rfl, rfl⟩, rfl⟩

/-- C32, as amended, at the two `1 x 2` matrices `[5, 6]` and `[7, 8]`. -/
theorem BytesToMatrices_MatricesToBytes_witness :
    MatricesToBytes [⟨1, 2, [5, 6]⟩, ⟨1, 2, [7, 8]⟩]
      = .ok [0, 0, 0, 16, 0, 0, 0, 1, 0, 0, 0, 2, 5, 0, 0, 0, 6, 0, 0, 0,
          0, 0, 0, 1, 0, 0, 0, 2, 7, 0, 0, 0, 8, 0, 0, 0] ∧
    ∃ bytes out, MatricesToBytes [⟨1, 2, [5, 6]⟩, ⟨1, 2, [7, 8]⟩] = .ok bytes ∧
      BytesToMatrices bytes = .ok out ∧
      out.length = ([⟨1, 2, [5, 6]⟩, ⟨1, 2, [7, 8]⟩] : List Matrix).length ∧
      (∀ i, i < ([⟨1, 2, [5, 6]⟩, ⟨1, 2, [7, 8]⟩] : List Matrix).length →
        (out.getD i ⟨1, 2, [5, 6]⟩).rows
          = (([⟨1, 2, [5, 6]⟩, ⟨1, 2, [7, 8]⟩] : List Matrix).getD i ⟨1, 2, [5, 6]⟩).rows ∧
        (out.getD i ⟨1, 2, [5, 6]⟩).cols
          = (([⟨1, 2, [5, 6]⟩, ⟨1, 2, [7, 8]⟩] : List Matrix).getD i ⟨1, 2, [5, 6]⟩).cols ∧
        (out.getD i ⟨1, 2, [5, 6]⟩).data
          = (([⟨1, 2, [5, 6]⟩, ⟨1, 2, [7, 8]⟩] : List Matrix).getD i ⟨1, 2, [5, 6]⟩).data) ∧
      out = [⟨1, 2, [5, 6]⟩, ⟨1, 2, [7, 8]⟩] :=
  ⟨by decide,
   BytesToMatrices_MatricesToBytes ⟨1, 2, [5, 6]⟩ [⟨1, 2, [7, 8]⟩] (by decide) (by decide)
     (by decide) (by decide) (by decide) (by decide)⟩

/-- C32 fails as stated. The matrix with `2^32` rows and no column has the empty data, so
`len(data) = rows * cols`, and the one-element list of it is non-empty and of one shape; its
encoding stores `uint32(rows) = 0`, and `BytesToMatrices` returns one matrix with `0` rows,
not `2^32`. -/
theorem BytesToMatrices_loses_rows :
    (Matrix.mk 4294967296 0 []).data.length
      = (Matrix.mk 4294967296 0 []).rows * (Matrix.mk 4294967296 0 []).cols ∧
    New 4294967296 0 = ⟨4294967296, 0, []⟩ ∧
    MatricesToBytes [⟨4294967296, 0, []⟩] = .ok [0, 0, 0, 8, 0, 0, 0, 0, 0, 0, 0, 0] ∧
    BytesToMatrices [0, 0, 0, 8, 0, 0, 0, 0, 0, 0, 0, 0] = .ok [⟨0, 0, []⟩] ∧
    (Matrix.mk 0 0 []).rows ≠ (Matrix.mk 4294967296 0 []).rows := by
  decide

end matrix

/-! ## `Set`, `Get` and `NewGauss` (claims C33 and C34) -/

namespace matrix

/-- The cell `(r, c)` of a well-formed matrix lies in its data. -/
theorem cell_lt (m : Matrix) (hm : m.WellFormed) (r c : Nat) (hr : r < m.rows)
    (hc : c < m.cols) : m.cols * r + c < m.data.length := by
  rw [hm.1]
  have h1 : m.cols * (r + 1) ≤ m.cols * m.rows := Nat.mul_le_mul_left _ hr
  rw [Nat.mul_succ] at h1
  rw [Nat.mul_comm m.rows m.cols]
  omega

/-- Two cells of one matrix have the same index only when they are the same cell. -/
theorem cell_inj (cols r c r' c' : Nat) (hc : c < cols) (hc' : c' < cols)
    (h : cols * r' + c' = cols * r + c) : r' = r ∧ c' = c := by
  have hpos : 0 < cols := by omega
  have h1 : (cols * r' + c') / cols = r' := by
    rw [Nat.mul_add_div hpos, Nat.div_eq_of_lt hc', Nat.add_zero]
  have h2 : (cols * r + c) / cols = r := by
    rw [Nat.mul_add_div hpos, Nat.div_eq_of_lt hc, Nat.add_zero]
  have hr : r' = r := by rw [← h1, ← h2, h]
  subst hr
  exact ⟨rfl, by omega⟩

/-- C33 (`Set` writes exactly one cell): for a well-formed matrix `m`, an in-range position
`(r, c)` and a value `v`, `m.Set(r, c, v)` returns; afterwards `m.Get(r, c)` is `v`,
`m.Get(r', c')` is what it was for every other in-range position, and `rows`, `cols` and the
number of data words are unchanged (the matrix stays well formed for a `uint32` value). -/
theorem Set_writes_one_cell (m : Matrix) (r c v : Nat) (hm : m.WellFormed) (hr : r < m.rows)
    (hc : c < m.cols) :
    ∃ m', m.Set r c v = .ok m' ∧ m'.Get r c = .ok v ∧
      m'.rows = m.rows ∧ m'.cols = m.cols ∧ m'.data.length = m.data.length ∧
      (∀ r' c', r' < m.rows → c' < m.cols → (r', c') ≠ (r, c) →
        m'.Get r' c' = m.Get r' c' ∧ ∃ w, m.Get r' c' = .ok w) ∧
      (v < 4294967296 → m'.WellFormed) := by
  have hidx := cell_lt m hm r c hr hc
  refine ⟨{ m with data := m.data.set (m.cols * r + c) v }, ?_, ?_, rfl, rfl, ?_, ?_, ?_⟩
  · unfold Matrix.Set
    rw [if_pos hidx]
  · unfold Matrix.Get
    simp only []
    rw [List.getElem?_set_self hidx]
  · simp
  · intro r' c' hr' hc' hne
    have hidx' := cell_lt m hm r' c' hr' hc'
    have hneq : m.cols * r + c ≠ m.cols * r' + c' := by
      intro h
      obtain ⟨e1, e2⟩ := cell_inj m.cols r c r' c' hc hc' h.symm
      exact hne (by rw [e1, e2])
    constructor
    · unfold Matrix.Get
      simp only []
      rw [List.getElem?_set_ne hneq]
    · refine ⟨m.data[m.cols * r' + c'], ?_⟩
      unfold Matrix.Get
      rw [List.getElem?_eq_getElem hidx']
  · intro hv
    constructor
    · show (m.data.set (m.cols * r + c) v).length = m.rows * m.cols
      rw [List.length_set]
      exact hm.1
    · intro w hw
      rcases List.mem_or_eq_of_mem_set hw with h | h
      · exact hm.2 w h
      · rw [h]; exact hv

/-- C33 at the matrix `[[1,2],[3,4]]`: `Set(1, 0, 9)` gives `[[1,2],[9,4]]`. -/
theorem Set_writes_one_cell_witness :
    (Matrix.mk 2 2 [1, 2, 3, 4]).Set 1 0 9 = .ok ⟨2, 2, [1, 2, 9, 4]⟩ ∧
    ∃ m', (Matrix.mk 2 2 [1, 2, 3, 4]).Set 1 0 9 = .ok m' ∧ m'.Get 1 0 = .ok 9 ∧
      m'.rows = (Matrix.mk 2 2 [1, 2, 3, 4]).rows ∧ m'.cols = (Matrix.mk 2 2 [1, 2, 3, 4]).cols ∧
      m'.data.length = (Matrix.mk 2 2 [1, 2, 3, 4]).data.length ∧
      (∀ r' c', r' < (Matrix.mk 2 2 [1, 2, 3, 4]).rows → c' < (Matrix.mk 2 2 [1, 2, 3, 4]).cols →
        (r', c') ≠ (1, 0) →
        m'.Get r' c' = (Matrix.mk 2 2 [1, 2, 3, 4]).Get r' c' ∧
        ∃ w, (Matrix.mk 2 2 [1, 2, 3, 4]).Get r' c' = .ok w) ∧
      (9 < 4294967296 → m'.WellFormed) :=
  ⟨by decide,
   Set_writes_one_cell ⟨2, 2, [1, 2, 3, 4]⟩ 1 0 9 (by decide) (by decide) (by decide)⟩

/-- The loop of `NewGauss` over the first `k` words. -/
theorem NewGauss_loop (g : Nat → Nat) (n k : Nat) (hk : k ≤ n) :
    (List.range k).foldl (fun d i => d.set i (g i)) (List.replicate n 0)
      = (List.range n).map (fun i => if i < k then g i else 0) := by
  induction k with
  | zero =>
    simp only [List.range_zero, List.foldl_nil, Nat.not_lt_zero, if_false]
    apply List.ext_getElem <;> simp
  | succ k ih =>
    rw [List.range_succ, List.foldl_append, ih (by omega)]
    simp only [List.foldl_cons, List.foldl_nil]
    rw [benchmark.map_range_set]
    apply List.map_congr_left
    intro i _
    by_cases h1 : i = k
    · rw [if_pos h1, h1, if_pos (Nat.lt_succ_self k)]
    · rw [if_neg h1]
      by_cases h2 : i < k
      · rw [if_pos h2, if_pos (by omega)]
      · rw [if_neg h2, if_neg (by omega)]

/-- C34 (`NewGauss` ignores its `sigma` argument): for every `r`, `c`, every two values
`sigma1`, `sigma2` and the same sequence of sampler outputs, `NewGauss(r, c, sigma1)` and
`NewGauss(r, c, sigma2)` are the same `r x c` matrix, which is well formed and whose data word
`i` is sampler output `i` converted to `uint32`: the output itself when it is in `[0, 2^32)`,
the output plus `2^32` when it is in `[-2^32, 0)`, its remainder modulo `2^32` in general. -/
theorem NewGauss_ignores_sigma {Float64 : Type} (GaussSample : Nat → Int) (r c : Nat)
    (sigma1 sigma2 : Float64) :
    NewGauss GaussSample r c sigma1 = NewGauss GaussSample r c sigma2 ∧
    (NewGauss GaussSample r c sigma1).rows = r ∧ (NewGauss GaussSample r c sigma1).cols = c ∧
    (NewGauss GaussSample r c sigma1).data.length = r * c ∧
    (NewGauss GaussSample r c sigma1).WellFormed ∧
    ∀ i, i < r * c →
      ((NewGauss GaussSample r c sigma1).data.getD i 0 : Int) = GaussSample i % 4294967296 ∧
      (0 ≤ GaussSample i → GaussSample i < 4294967296 →
        ((NewGauss GaussSample r c sigma1).data.getD i 0 : Int) = GaussSample i) ∧
      (GaussSample i < 0 → -4294967296 ≤ GaussSample i →
        ((NewGauss GaussSample r c sigma1).data.getD i 0 : Int)
          = GaussSample i + 4294967296) := by
  have hdata : (NewGauss GaussSample r c sigma1).data
      = (List.range (r * c)).map (fun i => (GaussSample i % 4294967296).toNat) := by
    show (List.range (New r c).data.length).foldl _ (New r c).data = _
    have hl : (New r c).data = List.replicate (r * c) 0 := rfl
    rw [hl, List.length_replicate,
      NewGauss_loop (fun i => (GaussSample i % 4294967296).toNat) (r * c) (r * c)
        (Nat.le_refl _)]
    apply List.map_congr_left
    intro i hi
    rw [if_pos (List.mem_range.1 hi)]
  have hnn : ∀ i, 0 ≤ GaussSample i % 4294967296 := fun i => Int.emod_nonneg _ (by decide)
  have hlt : ∀ i, GaussSample i % 4294967296 < 4294967296 := fun i =>
    Int.emod_lt_of_pos _ (by decide)
  refine ⟨rfl, rfl, rfl, ?_, ⟨?_, ?_⟩, ?_⟩
  · rw [hdata, List.length_map, List.length_range]
  · show (NewGauss GaussSample r c sigma1).data.length = r * c
    rw [hdata, List.length_map, List.length_range]
  · intro w hw
    rw [hdata] at hw
    obtain ⟨i, _, hi⟩ := List.mem_map.1 hw
    have := hlt i
    have := hnn i
    omega
  · intro i hi
    rw [hdata, benchmark.getD_map_range _ _ _ hi, Int.toNat_of_nonneg (hnn i)]
    refine ⟨rfl, fun h0 h1 => Int.emod_eq_of_lt h0 h1, fun h0 h1 => ?_⟩
    have := hnn i
    have := hlt i
    omega

/-- C34 at a `2 x 2` matrix and the sampler outputs `-1, 0, 1, 2`, for `sigma = 6` and
`sigma = 1/2`: the first word is `2^32 - 1`. -/
theorem NewGauss_ignores_sigma_witness :
    NewGauss (fun i => (i : Int) - 1) 2 2 (6 : ℚ) = ⟨2, 2, [4294967295, 0, 1, 2]⟩ ∧
    NewGauss (fun i => (i : Int) - 1) 2 2 (6 : ℚ)
      = NewGauss (fun i => (i : Int) - 1) 2 2 (1 / 2 : ℚ) :=
  ⟨by decide, (NewGauss_ignores_sigma (fun i => (i : Int) - 1) 2 2 (6 : ℚ) (1 / 2 : ℚ)).1⟩

end matrix

end Apir
